import Mathlib

/-!
# HgImporter: blob-identity records and manifest entry parsing

A shallow embedding of `eden/fs/importer/hg/HgImporter.cpp`.

* Byte buffers (`StringPiece`, `ByteRange`, `IOBuf`, `std::string`) are lists of `UInt8`.
* Exceptions are values of `Error`; a function that can throw returns `Except Error _`,
  and a function that mutates the store or the manifest importer returns the state it
  leaves behind on the error path as well as on the normal path.
* `uint32_t` arithmetic is arithmetic on `Nat` with an explicit `% 2 ^ 32`.
* Code that `HgImporter.cpp` calls but that lives in other files (`Hash::sha1`, the
  `RelativePathPiece` helpers) is taken as a parameter, bundled in `Externals`.
-/

namespace HgImporter

/-! ## Data model -/

/-- Bytes of a buffer, string piece or byte range. -/
abbrev ByteString := List UInt8

/-- Width in bytes of a raw hash: the constant Hash::RAW_SIZE. -/
abbrev RAW_SIZE : Nat := 20

/-- Width in bytes of the path-length field: sizeof(uint32_t). -/
abbrev SIZEOF_UINT32 : Nat := 4

/-- A 20-byte hash (Hash::Storage is a std::array of RAW_SIZE bytes). -/
structure Hash where
  getBytes : ByteString
  size_eq : getBytes.length = RAW_SIZE
  deriving DecidableEq

/-- A relative path, seen as the bytes of its stringPiece(). Whether a byte string is
accepted by the RelativePathPiece constructor is decided by Externals.sanityCheck. -/
abbrev RelativePathPiece := ByteString

/-- Exceptions thrown by the translated code.

* valueNotPresent: StoreResult::extractValue() on a result that is not valid
  (the "unknown mercurial blob hash" path of the HgBlobInfo constructor);
* tooShort, inconsistentPathLength: the two std::length_error of parseValue;
* invalidPath: the exception of the RelativePathPiece constructor when its sanity
  check rejects the string;
* underflow: std::out_of_range of folly::io::Cursor (pull, read, readTerminatedString
  running past the end of the buffer);
* unexpectedSeparator, unsupportedFlags: the std::runtime_error of readManifestEntry;
* helperError: the std::runtime_error of readChunkHeader, given by its message what().
  The exception is constructed from the error string received from the helper, and
  what() is the C string of that string: its bytes before the first NUL. -/
inductive Error where
  | valueNotPresent
  | tooShort (edenBlobHash : Hash) (size : Nat)
  | inconsistentPathLength (edenBlobHash : Hash)
  | invalidPath (path : ByteString)
  | underflow
  | unexpectedSeparator (sep : UInt8)
  | unsupportedFlags (pathStr : ByteString) (flag : UInt8)
  | helperError (message : ByteString)
  deriving DecidableEq

/-- Functions of other translation units used by HgImporter.cpp.

* sha1: Hash::sha1 on a byte range;
* sanityCheck: the check run by the RelativePathPiece(StringPiece) constructor
  (true when the string is accepted as a relative path);
* dirname, basename: RelativePathPiece::dirname() and
  RelativePathPiece::basename().value(). -/
structure Externals where
  sha1 : ByteString → Hash
  sanityCheck : ByteString → Bool
  dirname : RelativePathPiece → RelativePathPiece
  basename : RelativePathPiece → ByteString

/-- The result of LocalStore::get: the value when the key is present. -/
abbrev StoreResult := Option ByteString

/-- The method StoreResult::isValid. -/
def StoreResult.isValid (r : StoreResult) : Bool := r.isSome

/-- The method StoreResult::extractValue: the value, or an exception when not valid. -/
def StoreResult.extractValue (r : StoreResult) : Except Error ByteString :=
  match r with
  | some value => .ok value
  | none => .error .valueNotPresent

/-- Modelled from the spec: LocalStore (declared in eden/fs/store/LocalStore.h, not part
of the translated file) is "consumed as a simple get/put byte-store": a finite map from
byte-string keys to byte-string values. -/
structure LocalStore where
  lookup : ByteString → Option ByteString

/-- Modelled from the spec: LocalStore::get fetches the value stored under a key. -/
def LocalStore.get (store : LocalStore) (key : ByteString) : StoreResult :=
  store.lookup key

/-- Modelled from the spec: LocalStore::put binds the key to the value and leaves every
other key alone. -/
def LocalStore.put (store : LocalStore) (key value : ByteString) : LocalStore :=
  ⟨fun k => if k = key then some value else store.lookup k⟩

/-- The empty byte-store. -/
def LocalStore.empty : LocalStore := ⟨fun _ => none⟩

/-! ## Big-endian 32-bit fields -/

/-- The four bytes written by Appender::writeBE<uint32_t>(n): the argument is converted
to uint32_t (reduced modulo 2 ^ 32) and written most significant byte first. -/
def writeBE32 (n : Nat) : ByteString :=
  let v := n % 2 ^ 32
  [UInt8.ofNat (v / 2 ^ 24 % 256), UInt8.ofNat (v / 2 ^ 16 % 256),
   UInt8.ofNat (v / 2 ^ 8 % 256), UInt8.ofNat (v % 256)]

/-- The uint32_t obtained by memcpy of the first four bytes followed by Endian::big.
Callers guarantee that four bytes are present; missing bytes read as zero here. -/
def readBE32 (bytes : ByteString) : Nat :=
  (bytes.getD 0 0).toNat * 2 ^ 24 + (bytes.getD 1 0).toNat * 2 ^ 16 +
  (bytes.getD 2 0).toNat * 2 ^ 8 + (bytes.getD 3 0).toNat

/-! ## HgBlobInfo -/

/-- The members of HgBlobInfo: the serialized data, the revision hash and the path
(which in the source points into value_). -/
structure HgBlobInfo where
  value_ : ByteString
  revHash_ : Hash
  path_ : RelativePathPiece
  deriving DecidableEq

namespace HgBlobInfo

/-- The key of a blob-info record: the hash bytes followed by "hgx". -/
def getBlobKey (edenBlobHash : Hash) : ByteString :=
  edenBlobHash.getBytes ++ [104, 103, 120]

/-- The serialized (path, hgRevHash) pair: hash bytes, path length as a big-endian
uint32_t, path bytes. -/
def serialize (path : RelativePathPiece) (hgRevHash : Hash) : ByteString :=
  let pathStr := path
  hgRevHash.getBytes ++ writeBE32 pathStr.length ++ pathStr

/-- The static method HgBlobInfo::store: returns the eden blob hash and the store after
the put. -/
def store (env : Externals) (store : LocalStore) (path : RelativePathPiece)
    (hgRevHash : Hash) : Hash × LocalStore :=
  let serializedInfo := serialize path hgRevHash
  let edenBlobHash := env.sha1 serializedInfo
  (edenBlobHash, store.put (getBlobKey edenBlobHash) serializedInfo)

/-- The method parseValue, applied to the bytes of value_: sets revHash_ and path_ or
throws. -/
def parseValue (env : Externals) (value_ : ByteString) (edenBlobHash : Hash) :
    Except Error HgBlobInfo :=
  let infoBytes := value_
  if h : infoBytes.length < RAW_SIZE + SIZEOF_UINT32 then
    .error (.tooShort edenBlobHash infoBytes.length)
  else
    let revHash_ : Hash := ⟨infoBytes.take RAW_SIZE, by
      rw [List.length_take]; exact Nat.min_eq_left (by omega)⟩
    let infoBytes := infoBytes.drop RAW_SIZE
    let pathLength := readBE32 infoBytes
    let infoBytes := infoBytes.drop SIZEOF_UINT32
    if infoBytes.length ≠ pathLength then
      .error (.inconsistentPathLength edenBlobHash)
    else if env.sanityCheck infoBytes then
      .ok ⟨value_, revHash_, infoBytes⟩
    else
      .error (.invalidPath infoBytes)

/-- The constructor HgBlobInfo(store, edenBlobHash): loads the record of the given
eden blob hash from the LocalStore. -/
def load (env : Externals) (store : LocalStore) (edenBlobHash : Hash) :
    Except Error HgBlobInfo :=
  let infoResult := store.get (getBlobKey edenBlobHash)
  match infoResult.extractValue with
  | .error e => .error e
  | .ok value_ => parseValue env value_ edenBlobHash

end HgBlobInfo

/-! ## Manifest entries -/

/-- The separator byte of a manifest entry, the character '\t'. -/
abbrev CHAR_TAB : UInt8 := 9

/-- The flag of a regular file, the character ' '. -/
abbrev CHAR_SPACE : UInt8 := 32

/-- The flag of an executable file, the character 'x'. -/
abbrev CHAR_X : UInt8 := 120

/-- The flag of a symbolic link, the character 'l'. -/
abbrev CHAR_L : UInt8 := 108

/-- The terminator of a path string, the character '\0'. -/
abbrev CHAR_NUL : UInt8 := 0

/-- The enumeration FileType of eden/fs/model/TreeEntry.h. -/
inductive FileType where
  | DIRECTORY
  | REGULAR_FILE
  | SYMLINK
  deriving DecidableEq

/-- The arguments of the TreeEntry constructor: hash, name, file type and owner
permission bits. -/
structure TreeEntry where
  hash : Hash
  name : ByteString
  fileType : FileType
  ownerPermissions : UInt8
  deriving DecidableEq

/-- Modelled from the spec: HgManifestImporter (HgManifestImporter.cpp is not part of the
translated file) "accepts a stream of (parent-directory, TreeEntry) registrations"; its
state is the list of the registrations received so far, oldest first. -/
structure HgManifestImporter where
  entries : List (RelativePathPiece × TreeEntry)
  deriving DecidableEq

/-- Modelled from the spec: processEntry(dir, entry) registers the entry under dir. -/
def HgManifestImporter.processEntry (importer : HgManifestImporter)
    (dirname : RelativePathPiece) (entry : TreeEntry) : HgManifestImporter :=
  ⟨importer.entries ++ [(dirname, entry)]⟩

/-- A folly::io::Cursor over one contiguous buffer, represented by the bytes that remain
to be read. -/
abbrev Cursor := ByteString

/-- The call cursor.pull(hashBuf.data(), hashBuf.size()) followed by the construction of
a Hash from the buffer: the next RAW_SIZE bytes, or std::out_of_range. -/
def Cursor.pullHash (cursor : Cursor) : Except Error (Hash × Cursor) :=
  if h : RAW_SIZE ≤ cursor.length then
    .ok (⟨cursor.take RAW_SIZE, by rw [List.length_take]; exact Nat.min_eq_left h⟩,
      cursor.drop RAW_SIZE)
  else
    .error .underflow

/-- The call cursor.read<char>(): the next byte, or std::out_of_range. -/
def Cursor.read (cursor : Cursor) : Except Error (UInt8 × Cursor) :=
  match cursor with
  | [] => .error .underflow
  | b :: rest => .ok (b, rest)

/-- The call cursor.readTerminatedString() with its default arguments: the bytes before
the first NUL, the cursor being left after that NUL; std::out_of_range when the buffer
ends before a NUL is found. (The default maxLength is the largest size_t, which no
buffer reaches.) -/
def Cursor.readTerminatedString : Cursor → Except Error (ByteString × Cursor)
  | [] => .error .underflow
  | b :: rest =>
    if b = CHAR_NUL then .ok ([], rest)
    else
      match Cursor.readTerminatedString rest with
      | .error e => .error e
      | .ok (str, cursor) => .ok (b :: str, cursor)

/-- The first half of readManifestEntry (up to the call of readTerminatedString): the
file revision hash, the flag (a tab in flag position reads as ' '), the path string and
the cursor after the terminating NUL. -/
def readManifestEntryFields (cursor : Cursor) :
    Except Error (Hash × UInt8 × ByteString × Cursor) :=
  match Cursor.pullHash cursor with
  | .error e => .error e
  | .ok (fileRevHash, cursor) =>
  match Cursor.read cursor with
  | .error e => .error e
  | .ok (sep, cursor) =>
  if sep ≠ CHAR_TAB then .error (.unexpectedSeparator sep)
  else
  match Cursor.read cursor with
  | .error e => .error e
  | .ok (flag, cursor) =>
  let flagAndCursor : Except Error (UInt8 × Cursor) :=
    if flag = CHAR_TAB then .ok (CHAR_SPACE, cursor)
    else
      match Cursor.read cursor with
      | .error e => .error e
      | .ok (sep, cursor) =>
        if sep ≠ CHAR_TAB then .error (.unexpectedSeparator sep)
        else .ok (flag, cursor)
  match flagAndCursor with
  | .error e => .error e
  | .ok (flag, cursor) =>
  match Cursor.readTerminatedString cursor with
  | .error e => .error e
  | .ok (pathStr, cursor) => .ok (fileRevHash, flag, pathStr, cursor)

/-- The file type and owner permissions that readManifestEntry assigns to a flag, none
standing for the "unsupported file flags" exception. -/
def fileTypeOfFlag (flag : UInt8) : Option (FileType × UInt8) :=
  if flag = CHAR_SPACE then some (.REGULAR_FILE, 0b110)
  else if flag = CHAR_X then some (.REGULAR_FILE, 0b111)
  else if flag = CHAR_L then some (.SYMLINK, 0b111)
  else none

/-- The method HgImporter::readManifestEntry. Returns the cursor after the entry, or the
exception thrown, together with the store and the manifest importer as the call leaves
them. -/
def readManifestEntry (env : Externals) (store : LocalStore)
    (importer : HgManifestImporter) (cursor : Cursor) :
    Except Error Cursor × LocalStore × HgManifestImporter :=
  match readManifestEntryFields cursor with
  | .error e => (.error e, store, importer)
  | .ok (fileRevHash, flag, pathStr, cursor) =>
    match fileTypeOfFlag flag with
    | none => (.error (.unsupportedFlags pathStr flag), store, importer)
    | some (fileType, ownerPermissions) =>
      if env.sanityCheck pathStr then
        let path : RelativePathPiece := pathStr
        let (blobHash, store) := HgBlobInfo.store env store path fileRevHash
        let entry : TreeEntry := ⟨blobHash, env.basename path, fileType, ownerPermissions⟩
        (.ok cursor, store, importer.processEntry (env.dirname path) entry)
      else
        (.error (.invalidPath pathStr), store, importer)

/-- The loop of importManifest over the entries of one chunk,
"while (!cursor.isAtEnd()) readManifestEntry(importer, cursor)", run for at most fuel
iterations. -/
def processChunkEntries (env : Externals) :
    Nat → LocalStore → HgManifestImporter → Cursor →
      Except Error Unit × LocalStore × HgManifestImporter
  | 0, store, importer, _ => (.ok (), store, importer)
  | fuel + 1, store, importer, cursor =>
    if cursor = [] then (.ok (), store, importer)
    else
      match readManifestEntry env store importer cursor with
      | (.error e, store, importer) => (.error e, store, importer)
      | (.ok cursor, store, importer) => processChunkEntries env fuel store importer cursor

/-- The processing of one chunk body by importManifest. Every call of readManifestEntry
that returns consumes at least one byte, so one unit of fuel per byte of the chunk is
enough for the loop to run to its end (processChunk_unfold). -/
def processChunk (env : Externals) (store : LocalStore) (importer : HgManifestImporter)
    (chunkData : ByteString) : Except Error Unit × LocalStore × HgManifestImporter :=
  processChunkEntries env chunkData.length store importer chunkData

/-! ## A concrete instance of the external functions -/

/-- A stand-in digest for evaluating the model: the last 20 bytes of the input in
reverse order, padded with zeros. -/
def exampleSha1 (bytes : ByteString) : Hash :=
  ⟨(bytes.reverse ++ List.replicate RAW_SIZE 0).take RAW_SIZE, by
    rw [List.length_take, List.length_append, List.length_replicate]
    exact Nat.min_eq_left (Nat.le_add_left _ _)⟩

/-- External functions for evaluating the model: a path is accepted when it neither
starts nor ends with '/', and is split at its last '/'. -/
def exampleExternals : Externals where
  sha1 := exampleSha1
  sanityCheck := fun p => p.head? != some 47 && p.getLast? != some 47
  dirname := fun p => ((p.reverse.dropWhile (fun b => b != 47)).drop 1).reverse
  basename := fun p => (p.reverse.takeWhile (fun b => b != 47)).reverse

/-- The hash whose 20 bytes all equal b. -/
def Hash.replicate (b : UInt8) : Hash :=
  ⟨List.replicate RAW_SIZE b, List.length_replicate _ _⟩

/-! ## Well-formed manifest entries and their wire form -/

/-- A manifest entry of the data model: file revision hash, mode flag and path. -/
structure ManifestEntry where
  fileRevHash : Hash
  flag : UInt8
  path : ByteString
  deriving DecidableEq

namespace ManifestEntry

/-- The flag is ' ', 'x' or 'l', and the path is a NUL-free string that the
RelativePathPiece constructor accepts. -/
def WellFormed (env : Externals) (e : ManifestEntry) : Prop :=
  (e.flag = CHAR_SPACE ∨ e.flag = CHAR_X ∨ e.flag = CHAR_L) ∧ CHAR_NUL ∉ e.path ∧
    env.sanityCheck e.path = true

instance (env : Externals) (e : ManifestEntry) : Decidable (WellFormed env e) := by
  unfold WellFormed; infer_instance

/-- The bytes of an entry on the wire, in the form of the parse rule: the hash, a tab,
the flag byte when the flag is 'x' or 'l' (nothing for ' '), a tab, the path, a NUL. -/
def encode (e : ManifestEntry) : ByteString :=
  e.fileRevHash.getBytes ++ [CHAR_TAB] ++ (if e.flag = CHAR_SPACE then [] else [e.flag]) ++
    [CHAR_TAB] ++ e.path ++ [CHAR_NUL]

/-- The registration expected for an entry: under the parent directory of the path, a
tree entry with the blob identity sha1(serialize(path, hash)), the base name of the path,
type symlink for flag 'l' and regular file otherwise, owner bits rw- for flag ' ' and rwx
otherwise. -/
def registration (env : Externals) (e : ManifestEntry) : RelativePathPiece × TreeEntry :=
  (env.dirname e.path,
    ⟨env.sha1 (HgBlobInfo.serialize e.path e.fileRevHash), env.basename e.path,
      if e.flag = CHAR_L then FileType.SYMLINK else FileType.REGULAR_FILE,
      if e.flag = CHAR_SPACE then 0b110 else 0b111⟩)

/-- The body of a chunk that carries the given entries one after the other. -/
def encodeAll : List ManifestEntry → ByteString
  | [] => []
  | e :: es => e.encode ++ encodeAll es

end ManifestEntry

/-- The three entries of the manifest parsing scenario: "dir/a" with flag 'x', "b"
without flag, "link" with flag 'l'. -/
def scenarioEntries : List ManifestEntry :=
  [⟨Hash.replicate 1, CHAR_X, [100, 105, 114, 47, 97]⟩,
   ⟨Hash.replicate 2, CHAR_SPACE, [98]⟩,
   ⟨Hash.replicate 3, CHAR_L, [108, 105, 110, 107]⟩]

/-! ## The channel to the import helper -/

/-- Modelled from the spec: the flag FLAG_MORE_CHUNKS (declared in HgImporter.h, not part
of the translated file) is bit 0 of the flags field. -/
abbrev FLAG_MORE_CHUNKS : Nat := 1

/-- Modelled from the spec: the flag FLAG_ERROR (declared in HgImporter.h) is bit 1 of
the flags field. -/
abbrev FLAG_ERROR : Nat := 2

/-- Modelled from the spec: the command CMD_MANIFEST (declared in HgImporter.h) is 1. -/
abbrev CMD_MANIFEST : Nat := 1

/-- Modelled from the spec: the command CMD_CAT_FILE (declared in HgImporter.h) is 2. -/
abbrev CMD_CAT_FILE : Nat := 2

/-- Modelled from the spec: the struct ChunkHeader (declared in HgImporter.h) has four
uint32_t members, laid out in the order requestID, command, flags, dataLength. -/
structure ChunkHeader where
  requestID : Nat
  command : Nat
  flags : Nat
  dataLength : Nat
  deriving DecidableEq

/-- Size in bytes of a ChunkHeader: sizeof(header). -/
abbrev SIZEOF_HEADER : Nat := 16

/-- The 16 bytes of a header on the wire: each member big-endian, in layout order. -/
def ChunkHeader.encode (header : ChunkHeader) : ByteString :=
  writeBE32 header.requestID ++ writeBE32 header.command ++ writeBE32 header.flags ++
    writeBE32 header.dataLength

/-- The header read out of 16 bytes of memory after the four Endian::big conversions. -/
def ChunkHeader.decode (bytes : ByteString) : ChunkHeader :=
  ⟨readBE32 bytes, readBE32 (bytes.drop 4), readBE32 (bytes.drop 8), readBE32 (bytes.drop 12)⟩

/-- Contents of memory that the code can read without having written it: the bytes of a
local ChunkHeader before readFull fills it, the bytes of a freshly created IOBuf, and the
capacity such a buffer really gets (at least the capacity asked for). They show through
only when readFull delivers fewer bytes than it was asked for. -/
structure Uninitialized where
  header : Nat → UInt8
  buffer : Nat → UInt8
  capacity : Nat → Nat

/-- The function folly::readFull(fd, buf, count) on a pipe that still holds the bytes of
input before it ends: the first count bytes of the destination afterwards (the bytes
read, then what the destination held before) and the bytes left in the pipe. The count of
bytes read, which readFull returns, is dropped by every caller. -/
def readFull (input dest : ByteString) (count : Nat) : ByteString × ByteString :=
  (input.take count ++ (dest.take count).drop (input.take count).length, input.drop count)

/-- The message what() of the exception std::runtime_error(errStr): what() returns a C
string, which ends at the first NUL, so the message is made of the bytes of errStr before
its first NUL, and is all of errStr when errStr holds no NUL. -/
def runtimeErrorMessage (errStr : ByteString) : ByteString :=
  errStr.takeWhile (fun b => b ≠ CHAR_NUL)

/-- The method HgImporter::readChunkHeader on the helper's output: the header or the
exception, and the output left unread. The exception is std::runtime_error(errStr), where
errStr holds the dataLength bytes read after the header. -/
def readChunkHeader (mem : Uninitialized) (stdout : ByteString) :
    Except Error ChunkHeader × ByteString :=
  let (headerBytes, stdout) :=
    readFull stdout ((List.range SIZEOF_HEADER).map mem.header) SIZEOF_HEADER
  let header := ChunkHeader.decode headerBytes
  if header.flags &&& FLAG_ERROR ≠ 0 then
    let (errMsg, stdout) :=
      readFull stdout (List.replicate header.dataLength 0) header.dataLength
    (.error (.helperError (runtimeErrorMessage errMsg)), stdout)
  else
    (.ok header, stdout)

/-- A folly::IOBuf as importManifest and importFileContents use it: one buffer whose data
starts at the start of the buffer. The capacity is the size of the buffer. -/
structure IOBuf where
  buffer : ByteString
  length : Nat
  deriving DecidableEq

namespace IOBuf

/-- A default-constructed IOBuf: no buffer. -/
def empty : IOBuf := ⟨[], 0⟩

/-- The constructor IOBuf(IOBuf::CREATE, capacity). -/
def create (mem : Uninitialized) (capacity : Nat) : IOBuf :=
  ⟨(List.range (max capacity (mem.capacity capacity))).map mem.buffer, 0⟩

/-- The method capacity(). -/
def capacity (buf : IOBuf) : Nat := buf.buffer.length

/-- The method clear(): the data becomes empty and starts at the start of the buffer. -/
def clear (buf : IOBuf) : IOBuf := ⟨buf.buffer, 0⟩

/-- The bytes of the buffer from writableTail() on. -/
def writableTail (buf : IOBuf) : ByteString := buf.buffer.drop buf.length

/-- The buffer after bytes were written at writableTail(). -/
def fillTail (buf : IOBuf) (bytes : ByteString) : IOBuf :=
  ⟨buf.buffer.take buf.length ++ bytes ++ buf.buffer.drop (buf.length + bytes.length),
    buf.length⟩

/-- The method append(amount): the data grows by amount bytes. -/
def append (buf : IOBuf) (amount : Nat) : IOBuf := ⟨buf.buffer, buf.length + amount⟩

/-- The data of the buffer, as a Cursor over it reads it. -/
def data (buf : IOBuf) : ByteString := buf.buffer.take buf.length

/-- The two statements "readFull(helper_.stdout(), buf.writableTail(), n); buf.append(n)":
the buffer afterwards and the output left unread. -/
def readInto (buf : IOBuf) (stdout : ByteString) (n : Nat) : IOBuf × ByteString :=
  let (bytes, stdout) := readFull stdout buf.writableTail n
  ((buf.fillTail bytes).append n, stdout)

end IOBuf

/-- The members of HgImporter: the store, the two pipes of the helper process (the bytes
written to its standard input so far, the bytes of its standard output not read yet) and
the request counter, a uint32_t. -/
structure State where
  store_ : LocalStore
  stdin : ByteString
  stdout : ByteString
  nextRequestID_ : Nat

/-- Modelled from the spec: a newly constructed HgImporter (the initial value of
nextRequestID_ is set in HgImporter.h) has sent nothing, and its request counter is such
that request IDs start at 1. -/
def State.initial (store : LocalStore) (stdout : ByteString) : State :=
  ⟨store, [], stdout, 1⟩

/-- The method HgImporter::sendManifestRequest. -/
def sendManifestRequest (self : State) (revName : ByteString) : State :=
  let header : ChunkHeader := ⟨self.nextRequestID_, CMD_MANIFEST, 0, revName.length⟩
  { self with
    nextRequestID_ := (self.nextRequestID_ + 1) % 2 ^ 32
    stdin := self.stdin ++ (header.encode ++ revName) }

/-- The method HgImporter::sendFileRequest. -/
def sendFileRequest (self : State) (path : RelativePathPiece) (revHash : Hash) : State :=
  let pathStr := path
  let header : ChunkHeader :=
    ⟨self.nextRequestID_, CMD_CAT_FILE, 0, RAW_SIZE + pathStr.length⟩
  { self with
    nextRequestID_ := (self.nextRequestID_ + 1) % 2 ^ 32
    stdin := self.stdin ++ (header.encode ++ (revHash.getBytes ++ pathStr)) }

/-- The reading of a chunk body by importManifest: a larger buffer is created when the
body does not fit the capacity of chunkData, otherwise chunkData is cleared and used
again; then the body is read into it. -/
def readChunkData (mem : Uninitialized) (chunkData : IOBuf) (dataLength : Nat)
    (stdout : ByteString) : IOBuf × ByteString :=
  let chunkData :=
    if dataLength > chunkData.capacity then IOBuf.create mem dataLength
    else chunkData.clear
  chunkData.readInto stdout dataLength

/-- The loop "while (true)" of importManifest over the chunks of the response, run for at
most fuel iterations; none when the fuel does not suffice. The result holds the store and
the manifest importer as the loop leaves them and the output left unread. -/
def importManifestChunks (env : Externals) (mem : Uninitialized) :
    Nat → LocalStore → HgManifestImporter → IOBuf → ByteString →
      Option (Except Error Unit × LocalStore × HgManifestImporter × ByteString)
  | 0, _, _, _, _ => none
  | fuel + 1, store, importer, chunkData, stdout =>
    match readChunkHeader mem stdout with
    | (.error e, stdout) => some (.error e, store, importer, stdout)
    | (.ok header, stdout) =>
      let (chunkData, stdout) := readChunkData mem chunkData header.dataLength stdout
      match processChunk env store importer chunkData.data with
      | (.error e, store, importer) => some (.error e, store, importer, stdout)
      | (.ok _, store, importer) =>
        if header.flags &&& FLAG_MORE_CHUNKS = 0 then some (.ok (), store, importer, stdout)
        else importManifestChunks env mem fuel store importer chunkData stdout

/-- The method HgImporter::importManifest, its loop being given fuel iterations: the root
hash returned by finish() or the exception thrown, the state of the importer afterwards,
and the manifest importer as it was when the method ended. The function finish stands for
HgManifestImporter::finish(), which is not part of the translated file. -/
def importManifest (env : Externals) (mem : Uninitialized) (finish : HgManifestImporter → Hash)
    (fuel : Nat) (self : State) (revName : ByteString) :
    Option (Except Error Hash × State × HgManifestImporter) :=
  let self := sendManifestRequest self revName
  let importer : HgManifestImporter := ⟨[]⟩
  match importManifestChunks env mem fuel self.store_ importer IOBuf.empty self.stdout with
  | none => none
  | some (.error e, store, importer, stdout) =>
    some (.error e, { self with store_ := store, stdout := stdout }, importer)
  | some (.ok _, store, importer, stdout) =>
    some (.ok (finish importer), { self with store_ := store, stdout := stdout }, importer)

/-- The method HgImporter::importFileContents: the data of the returned buffer or the
exception thrown, and the state of the importer afterwards. -/
def importFileContents (env : Externals) (mem : Uninitialized) (self : State)
    (blobHash : Hash) : Except Error ByteString × State :=
  match HgBlobInfo.load env self.store_ blobHash with
  | .error e => (.error e, self)
  | .ok hgInfo =>
    let self := sendFileRequest self hgInfo.path_ hgInfo.revHash_
    match readChunkHeader mem self.stdout with
    | (.error e, stdout) => (.error e, { self with stdout := stdout })
    | (.ok header, stdout) =>
      let buf := IOBuf.create mem header.dataLength
      let (buf, stdout) := buf.readInto stdout header.dataLength
      (.ok buf.data, { self with stdout := stdout })

/-- Memory that reads as zero wherever it was not written, with buffers of exactly the
capacity asked for. -/
def zeroMemory : Uninitialized := ⟨fun _ => 0, fun _ => 0, fun n => n⟩

/-- A stand-in for HgManifestImporter::finish() for evaluating the model: a hash that
only tells how many entries were registered. -/
def exampleFinish (importer : HgManifestImporter) : Hash :=
  Hash.replicate (UInt8.ofNat importer.entries.length)

/-- One chunk of a response: its header and its body. -/
structure Chunk where
  header : ChunkHeader
  body : ByteString
  deriving DecidableEq

namespace Chunk

/-- The members of the header fit a uint32_t and dataLength is the size of the body. -/
def WellFramed (c : Chunk) : Prop :=
  c.header.requestID < 2 ^ 32 ∧ c.header.command < 2 ^ 32 ∧ c.header.flags < 2 ^ 32 ∧
    c.header.dataLength < 2 ^ 32 ∧ c.header.dataLength = c.body.length

instance (c : Chunk) : Decidable (WellFramed c) := by
  unfold WellFramed; infer_instance

/-- The bytes of a chunk on the wire: header, then body. -/
def encode (c : Chunk) : ByteString := c.header.encode ++ c.body

/-- The bytes of a sequence of chunks on the wire. -/
def encodeAll : List Chunk → ByteString
  | [] => []
  | c :: cs => c.encode ++ encodeAll cs

end Chunk

/-- A chunk of a manifest response, given by its header and the entries its body
carries. -/
structure ManifestChunk where
  header : ChunkHeader
  entries : List ManifestEntry

namespace ManifestChunk

/-- The chunk on the wire: the body is the concatenation of the entries. -/
def chunk (mc : ManifestChunk) : Chunk := ⟨mc.header, ManifestEntry.encodeAll mc.entries⟩

/-- The chunk is well framed, bit 1 (ERROR) of its flags is clear and its entries are well
formed. -/
def WellFormed (env : Externals) (mc : ManifestChunk) : Prop :=
  mc.chunk.WellFramed ∧ mc.header.flags &&& FLAG_ERROR = 0 ∧
    ∀ e ∈ mc.entries, e.WellFormed env

instance (env : Externals) (mc : ManifestChunk) : Decidable (WellFormed env mc) := by
  unfold WellFormed; infer_instance

/-- The entries of a sequence of chunks, in stream order. -/
def allEntries : List ManifestChunk → List ManifestEntry
  | [] => []
  | mc :: mcs => mc.entries ++ allEntries mcs

/-- The bytes of a sequence of manifest chunks on the wire. -/
def encodeAll (mcs : List ManifestChunk) : ByteString := Chunk.encodeAll (mcs.map chunk)

end ManifestChunk

/-- A manifest chunk with the three entries of the parsing scenario (81 bytes) and the
MORE_CHUNKS bit set. -/
def scenarioChunk : ManifestChunk := ⟨⟨1, 1, 1, 81⟩, scenarioEntries⟩

/-- A manifest chunk without entries whose MORE_CHUNKS bit is clear. -/
def scenarioLastChunk : ManifestChunk := ⟨⟨1, 1, 0, 0⟩, []⟩

/-- A request, as the caller of the importer issues it. -/
inductive Request where
  | manifest (revName : ByteString)
  | file (path : RelativePathPiece) (revHash : Hash)

/-- The sending of a request: sendManifestRequest or sendFileRequest. -/
def State.send (self : State) : Request → State
  | .manifest revName => sendManifestRequest self revName
  | .file path revHash => sendFileRequest self path revHash

/-- The sending of several requests, one after the other. -/
def State.sendAll (self : State) (requests : List Request) : State :=
  requests.foldl State.send self

end HgImporter

/-!
# ScmStatusCache: the status cache

The implementation of the cache (`ScmStatusCache.cpp`, `ObjectCache.h`) is not among the
translated files; only its test, `ScmStatusCacheTest.cpp`, is. The cache is therefore
modelled from the specification, and the scenarios of the test are evaluated on the model.
-/

namespace ScmStatusCache

/-- Modelled from the spec: the key of the cache, a commit identity, seen as its bytes
(ObjectId is declared outside the translated files). -/
abbrev ObjectId := List UInt8

/-- Modelled from the spec: the change kinds that a status assigns to a path
(ScmFileStatus is declared outside the translated files). -/
inductive ScmFileStatus where
  | ADDED
  | MODIFIED
  | REMOVED
  | IGNORED
  | CLEAN
  | NOT_TRACKED
  deriving DecidableEq

/-- Modelled from the spec: a status, "a mapping from RelativePath to one of" the change
kinds, given by its entries (ScmStatus is declared outside the translated files). -/
structure ScmStatus where
  entries : List (List UInt8 × ScmFileStatus)
  deriving DecidableEq

/-- Modelled from the spec: SeqStatusPair is "(sequence_number uint64, status)". -/
structure SeqStatusPair where
  seq : Nat
  status : ScmStatus
  deriving DecidableEq

/-- Modelled from the spec: the configuration of the cache, max_size_bytes and
minimum_items, and the platform's sizeof(ScmStatus), which enters the cost of an entry. -/
structure Config where
  maxSizeBytes : Nat
  minimumItems : Nat
  sizeOfStatus : Nat

/-- Modelled from the spec: "each entry's cost = sizeof(sequence_number) + sizeof(empty
status) + Σ (key_bytes + enum_size) over its status map", with sizeof(sequence_number) = 8
and, as the test counts them, 6 + 4 bytes for an entry whose path has five characters. -/
def cost (cfg : Config) (pair : SeqStatusPair) : Nat :=
  8 + cfg.sizeOfStatus + (pair.status.entries.map (fun e => e.1.length + 1 + 4)).sum

/-- Modelled from the spec: the registration of an in-flight promise, "tagged with the
requesting sequence number" and keyed by the commit identity. -/
structure Registration where
  key : ObjectId
  seq : Nat
  promise : Nat
  deriving DecidableEq

/-- Modelled from the spec: the state of the cache. The completed entries are kept in
recency order, least recently used first; the in-flight promises are kept apart from them
(so they are never evicted and never count as objects); fulfilled records the value of
every promise that was fulfilled, by the cache or by the owner of the promise. -/
structure Cache where
  config : Config
  items : List (ObjectId × SeqStatusPair)
  promises : List Registration
  fulfilled : List (Nat × ScmStatus)
  nextPromise : Nat

/-- Modelled from the spec: a newly created cache holds nothing. -/
def create (cfg : Config) : Cache := ⟨cfg, [], [], [], 0⟩

/-- Modelled from the spec: the total accounted cost of the completed entries. -/
def totalCost (cfg : Config) (items : List (ObjectId × SeqStatusPair)) : Nat :=
  (items.map (fun kv => cost cfg kv.2)).sum

/-- Modelled from the spec: "contains(key): true iff a completed entry exists (ignoring
promises)". -/
def Cache.contains (c : Cache) (key : ObjectId) : Bool := (c.items.lookup key).isSome

/-- Modelled from the spec: the number of objects of the cache, its completed entries. -/
def Cache.getObjectCount (c : Cache) : Nat := c.items.length

/-- Modelled from the spec: "evict least-recently-used completed entries until cost ≤
max_size_bytes OR entry count ≤ minimum_items, whichever is reached first". -/
def evict (cfg : Config) : List (ObjectId × SeqStatusPair) → List (ObjectId × SeqStatusPair)
  | [] => []
  | item :: rest =>
    if totalCost cfg (item :: rest) > cfg.maxSizeBytes ∧
        (item :: rest).length > cfg.minimumItems then
      evict cfg rest
    else item :: rest

/-- Modelled from the spec: the value of a promise is set once; setting it again changes
nothing. -/
def Cache.setValue (c : Cache) (promise : Nat) (status : ScmStatus) : Cache :=
  match c.fulfilled.lookup promise with
  | some _ => c
  | none => { c with fulfilled := c.fulfilled ++ [(promise, status)] }

/-- Modelled from the spec: "If an in-flight promise exists for key at sequence
v.sequence, fulfill the promise with v.status"; the registration ends with it. -/
def Cache.fulfilRegistered (c : Cache) (key : ObjectId) (v : SeqStatusPair) : Cache :=
  match c.promises.find? (fun r => r.key = key ∧ r.seq = v.seq) with
  | none => c
  | some r =>
    { c.setValue r.promise v.status with
      promises := c.promises.filter (fun r => ¬ (r.key = key ∧ r.seq = v.seq)) }

/-- Modelled from the spec: insert(key, v). Without a completed entry for the key, v is
installed; with one of a smaller sequence, v replaces it; otherwise v is dropped. An
installed entry is the most recently used one, and eviction runs after every install. -/
def Cache.insert (c : Cache) (key : ObjectId) (v : SeqStatusPair) : Cache :=
  let c := c.fulfilRegistered key v
  match c.items.lookup key with
  | none => { c with items := evict c.config (c.items ++ [(key, v)]) }
  | some old =>
    if v.seq > old.seq then
      { c with
        items := evict c.config (c.items.filter (fun kv => kv.1 ≠ key) ++ [(key, v)]) }
    else c

/-- Modelled from the spec: a Future handed out by get, either ready with a status or
chained to a promise, whose value it takes once the promise is fulfilled. -/
inductive Future where
  | ready (status : ScmStatus)
  | chained (promise : Nat)
  deriving DecidableEq

/-- Modelled from the spec: the result of get, "Either<Future<status>, Promise<status>>". -/
inductive GetResult where
  | future (f : Future)
  | promise (p : Nat)
  deriving DecidableEq

/-- Modelled from the spec: the value a Future holds at a state of the cache, if any. -/
def Cache.futureValue (c : Cache) : Future → Option ScmStatus
  | .ready status => some status
  | .chained promise => c.fulfilled.lookup promise

/-- Modelled from the spec: get(key, requested_sequence). A completed entry of sequence at
least the requested one gives a ready Future and becomes the most recently used entry;
else an in-flight promise registered for this key at this sequence gives a Future chained
to it; else a fresh Promise is returned and registered. -/
def Cache.get (c : Cache) (key : ObjectId) (seq : Nat) : GetResult × Cache :=
  let miss : GetResult × Cache :=
    match c.promises.find? (fun r => r.key = key ∧ r.seq = seq) with
    | some r => (.future (.chained r.promise), c)
    | none =>
      (.promise c.nextPromise,
        { c with
          promises := c.promises ++ [⟨key, seq, c.nextPromise⟩]
          nextPromise := c.nextPromise + 1 })
  match c.items.lookup key with
  | none => miss
  | some pair =>
    if pair.seq ≥ seq then
      (.future (.ready pair.status),
        { c with items := c.items.filter (fun kv => kv.1 ≠ key) ++ [(key, pair)] })
    else miss

/-- Modelled from the spec: drop_promise(key, sequence) "removes the registration of an
in-flight promise for (key, sequence) if one exists with that exact sequence; no-op
otherwise". -/
def Cache.dropPromise (c : Cache) (key : ObjectId) (seq : Nat) : Cache :=
  { c with promises := c.promises.filter (fun r => ¬ (r.key = key ∧ r.seq = seq)) }

/-- The inserts of a list of (key, pair), one after the other. -/
def Cache.insertAll (c : Cache) (ops : List (ObjectId × SeqStatusPair)) : Cache :=
  ops.foldl (fun c op => c.insert op.1 op.2) c

/-- The inserts of a list of pairs under one key, one after the other. -/
def Cache.insertSeq (c : Cache) (key : ObjectId) (pairs : List SeqStatusPair) : Cache :=
  pairs.foldl (fun c v => c.insert key v) c

/-- The pair that a sequence of inserts under one key leaves stored when the first pair
is installed into an empty slot: a later pair takes the place of the stored one exactly
when its sequence is larger. -/
def latest (first : SeqStatusPair) (pairs : List SeqStatusPair) : SeqStatusPair :=
  pairs.foldl (fun best v => if v.seq > best.seq then v else best) first

/-- The state of eviction is settled: the cost fits or no more than the minimum number of
entries is left. -/
def Settled (cfg : Config) (items : List (ObjectId × SeqStatusPair)) : Prop :=
  totalCost cfg items ≤ cfg.maxSizeBytes ∨ items.length ≤ cfg.minimumItems

instance (cfg : Config) (items : List (ObjectId × SeqStatusPair)) :
    Decidable (Settled cfg items) := by
  unfold Settled; infer_instance

/-- The status with the single entry "f1234" → ADDED of the eviction tests. -/
def smallStatus : ScmStatus := ⟨[([102, 49, 50, 51, 52], .ADDED)]⟩

/-- The path "file" followed by the decimal digits of i, for i below one hundred. -/
def fileName (i : Nat) : List UInt8 :=
  [102, 105, 108, 101] ++
    (if i < 10 then [UInt8.ofNat (48 + i)]
     else [UInt8.ofNat (48 + i / 10), UInt8.ofNat (48 + i % 10)])

/-- The status with many entries of the eviction test: "file0" to "file99", all ADDED. -/
def largeStatus : ScmStatus :=
  ⟨(List.range 100).map (fun i => (fileName i, .ADDED))⟩

/-- The configuration of the test evict_on_update on Linux: 600 bytes, sizeof(ScmStatus)
104, hence items of 122 bytes, four of which fit, and a minimum of three items. -/
def testConfig : Config := ⟨600, 3, 104⟩

end ScmStatusCache

/-!
# EdenServiceHandler: files changed since a journal position

A shallow embedding of `EdenServiceHandler::getFilesChangedSince`
(`eden/fs/service/EdenServiceHandler.cpp`). The mount found by `server_->getMount` is an
argument; sequence numbers and generations, which are 64-bit in the source, are natural
numbers (no arithmetic is done on them, they are only compared and copied).
-/

namespace EdenServiceHandler

/-- The members of JournalDelta that getFilesChangedSince reads; the member previous is
represented by the position of the delta in the chain of a Journal. -/
structure JournalDelta where
  fromSequence : Nat
  toSequence : Nat
  fromHash : HgImporter.Hash
  toHash : HgImporter.Hash
  changedFilesInOverlay : List HgImporter.ByteString

/-- The journal as getFilesChangedSince walks it: the delta returned by getLatest() and
the deltas reached from it through previous, newest first. -/
structure Journal where
  latest : JournalDelta
  previous : List JournalDelta

/-- The members of EdenMount that getFilesChangedSince reads. -/
structure EdenMount where
  mountGeneration : Nat
  journal : Journal

/-- The thrift structure JournalPosition. -/
structure JournalPosition where
  mountGeneration : Nat
  sequenceNumber : Nat
  snapshotHash : HgImporter.ByteString
  deriving DecidableEq

/-- The thrift structure FileDelta. -/
structure FileDelta where
  fromPosition : JournalPosition
  toPosition : JournalPosition
  paths : List HgImporter.ByteString
  deriving DecidableEq

/-- The error code ERANGE of errno.h. -/
abbrev ERANGE : Nat := 34

/-- The exception made by newEdenError(errorCode, message), given by its error code. -/
structure EdenError where
  errorCode : Nat
  deriving DecidableEq

/-- The call changedFiles.insert(first, last) on a std::unordered_set: every path of the
range that the set does not hold yet is added. The set is represented by the list of its
elements; the order of the list stands for the unspecified iteration order of the set. -/
def insertRange (changedFiles : List HgImporter.ByteString)
    (range : List HgImporter.ByteString) : List HgImporter.ByteString :=
  range.foldl (fun set path => if path ∈ set then set else set ++ [path]) changedFiles

/-- The loop "while (delta)" of getFilesChangedSince over the chain of deltas: the set of
changed files and out.fromPosition as the loop leaves them. -/
def walkDeltas (sequenceNumber mountGeneration : Nat) :
    List JournalDelta → List HgImporter.ByteString × JournalPosition →
      List HgImporter.ByteString × JournalPosition
  | [], state => state
  | delta :: previous, (changedFiles, fromPosition) =>
    if delta.toSequence ≤ sequenceNumber then (changedFiles, fromPosition)
    else
      walkDeltas sequenceNumber mountGeneration previous
        (insertRange changedFiles delta.changedFilesInOverlay,
          ⟨mountGeneration, delta.fromSequence, delta.fromHash.getBytes⟩)

/-- The method EdenServiceHandler::getFilesChangedSince, on the mount that getMount
returned and with an out parameter that starts out empty: the FileDelta written, or the
exception thrown. -/
def getFilesChangedSince (edenMount : EdenMount) (fromPosition : JournalPosition) :
    Except EdenError FileDelta :=
  let delta := edenMount.journal.latest
  if fromPosition.mountGeneration ≠ edenMount.mountGeneration then
    .error ⟨ERANGE⟩
  else
    let toPosition : JournalPosition :=
      ⟨edenMount.mountGeneration, delta.toSequence, delta.toHash.getBytes⟩
    let (changedFiles, fromPosition) :=
      walkDeltas fromPosition.sequenceNumber edenMount.mountGeneration
        (delta :: edenMount.journal.previous) ([], toPosition)
    .ok ⟨fromPosition, toPosition, changedFiles⟩

/-- The deltas that the loop visits before it stops: the deltas from the latest one
backwards whose toSequence is greater than the sequence number asked for. -/
def visitedDeltas (edenMount : EdenMount) (fromPosition : JournalPosition) :
    List JournalDelta :=
  (edenMount.journal.latest :: edenMount.journal.previous).takeWhile
    (fun delta => ¬ delta.toSequence ≤ fromPosition.sequenceNumber)

/-- A mount of generation 7 with three deltas, of sequences 5 to 6, 4 to 5 and 3 to 4,
the first two of which both changed the path "a". -/
def exampleMount : EdenMount :=
  ⟨7, ⟨⟨5, 6, HgImporter.Hash.replicate 5, HgImporter.Hash.replicate 6, [[97], [98]]⟩,
    [⟨4, 5, HgImporter.Hash.replicate 4, HgImporter.Hash.replicate 5, [[97], [99]]⟩,
     ⟨3, 4, HgImporter.Hash.replicate 3, HgImporter.Hash.replicate 4, [[100]]⟩]⟩⟩

end EdenServiceHandler

namespace ScmStatusCache

/-! ## Histories of the cache -/

/-- Modelled from the spec: what can be done to a cache, its three mutating operations
insert, get and drop_promise, and the fulfilment of a Promise by the caller that owns it. -/
inductive Op where
  | insert (key : ObjectId) (v : SeqStatusPair)
  | get (key : ObjectId) (seq : Nat)
  | dropPromise (key : ObjectId) (seq : Nat)
  | setValue (promise : Nat) (status : ScmStatus)

/-- Modelled from the spec: one operation on the cache. A caller can only fulfil a Promise
that a get has handed out, so the fulfilment of any other one does nothing. -/
def Cache.step (c : Cache) : Op → Cache
  | .insert key v => c.insert key v
  | .get key seq => (c.get key seq).2
  | .dropPromise key seq => c.dropPromise key seq
  | .setValue promise status => if promise < c.nextPromise then c.setValue promise status else c

/-- The operations of a list, one after the other. -/
def Cache.run (c : Cache) (ops : List Op) : Cache := ops.foldl Cache.step c

/-- The state of the cache is one that a newly created cache reaches by operations. -/
def Cache.Reachable (c : Cache) : Prop := ∃ cfg ops, c = (create cfg).run ops

/-- The consistency of a state of the cache: one completed entry per key, one registration
per key and sequence, and every Promise registered or fulfilled is one that was handed
out. -/
def Cache.Inv (c : Cache) : Prop :=
  (c.items.map Prod.fst).Nodup ∧
  (c.promises.map (fun r => (r.key, r.seq))).Nodup ∧
  (∀ r ∈ c.promises, r.promise < c.nextPromise) ∧
  (∀ f ∈ c.fulfilled, f.1 < c.nextPromise)

/-- No completed entry of the cache answers a request for the key at the sequence. -/
def Cache.Misses (c : Cache) (key : ObjectId) (seq : Nat) : Prop :=
  ∀ pair, c.items.lookup key = some pair → pair.seq < seq

instance (c : Cache) (key : ObjectId) (seq : Nat) : Decidable (c.Misses key seq) := by
  unfold Cache.Misses
  cases c.items.lookup key with
  | none => exact isTrue (fun _ h => Option.noConfusion h)
  | some stored =>
    exact decidable_of_iff (stored.seq < seq)
      ⟨fun h pair hp => by cases hp; exact h, fun h => h stored rfl⟩

/-- The gets of one key at one sequence, n of them one after the other: their results, in
order, and the state they leave. -/
def Cache.gets (c : Cache) (key : ObjectId) (seq : Nat) : Nat → List GetResult × Cache
  | 0 => ([], c)
  | n + 1 =>
    let (result, c) := c.get key seq
    let (results, c) := c.gets key seq n
    (result :: results, c)

/-- A configuration like the one of the eviction tests, but with a minimum of five
items. -/
def roomyConfig : Config := ⟨600, 5, 104⟩

/-- Five inserts of the status of the eviction tests under five keys. -/
def fiveInserts : List (ObjectId × SeqStatusPair) :=
  [([1], ⟨1, smallStatus⟩), ([2], ⟨2, smallStatus⟩), ([3], ⟨3, smallStatus⟩),
    ([4], ⟨4, smallStatus⟩), ([5], ⟨5, smallStatus⟩)]

end ScmStatusCache

namespace HgImporter

/-! ## The chunk loop without buffer reuse -/

/-- The chunk ends the response: its MORE_CHUNKS bit is clear or its ERROR bit is set. -/
def Chunk.Final (c : Chunk) : Prop :=
  c.header.flags &&& FLAG_MORE_CHUNKS = 0 ∨ c.header.flags &&& FLAG_ERROR ≠ 0

instance (c : Chunk) : Decidable c.Final := by
  unfold Chunk.Final; infer_instance

/-! ## The manifest assembler -/

/-- Modelled from the spec: the directory of a registration together with "every ancestor
directory", the root (the empty path) left out: the non-empty paths among dir, its parent,
the parent of that one, and so on. A parent is shorter than its child, so as many steps as
dir has bytes reach the root. -/
def directoryAncestors (env : Externals) (dir : RelativePathPiece) : List RelativePathPiece :=
  ((List.range dir.length).map (fun n => Nat.iterate env.dirname n dir)).filter
    (fun d => d ≠ [])

/-- Modelled from the spec: the depth of a directory, the number of its components; the
root has depth 0. -/
def directoryDepth (env : Externals) (dir : RelativePathPiece) : Nat :=
  (directoryAncestors env dir).length

/-- Modelled from the spec: the key of the order in which finish() visits the directories,
"deepest first, sibling order bytewise by path". -/
def directoryKey (env : Externals) (dir : RelativePathPiece) : ℕᵒᵈ ×ₗ List ℕ :=
  toLex (OrderDual.toDual (directoryDepth env dir), dir.map UInt8.toNat)

/-- Modelled from the spec: the order in which finish() visits the directories. -/
def directoryLE (env : Externals) (a b : RelativePathPiece) : Prop :=
  directoryKey env a ≤ directoryKey env b

instance (env : Externals) : DecidableRel (directoryLE env) :=
  fun a b => inferInstanceAs (Decidable (directoryKey env a ≤ directoryKey env b))

/-- The number that stands for a file type in the order of the tree entries. -/
def FileType.code : FileType → Nat
  | .DIRECTORY => 0
  | .REGULAR_FILE => 1
  | .SYMLINK => 2

/-- Modelled from the spec: the key of the canonical order of the entries of a directory,
"sorted by base-name", ascending and bytewise. Entries of the same base-name, which the
entries of a manifest do not have, are ordered by their remaining fields, so that the
order of the entries is determined by the entries alone. -/
def TreeEntry.key (entry : TreeEntry) : List ℕ ×ₗ List ℕ ×ₗ ℕ ×ₗ ℕ :=
  toLex (entry.name.map UInt8.toNat,
    toLex (entry.hash.getBytes.map UInt8.toNat,
      toLex (entry.fileType.code, entry.ownerPermissions.toNat)))

/-- Modelled from the spec: the canonical order of the entries of a directory. -/
def TreeEntry.le (a b : TreeEntry) : Prop := a.key ≤ b.key

instance : DecidableRel TreeEntry.le :=
  fun a b => inferInstanceAs (Decidable (a.key ≤ b.key))

/-- Modelled from the spec: finish() "canonicalizes" the entries of a directory, which
sorts them by base-name. -/
def canonicalEntries (entries : List TreeEntry) : List TreeEntry :=
  entries.insertionSort TreeEntry.le

/-- Modelled from the spec: the hash of a directory; its canonical entries are serialized
"into a fixed tree format", which is a parameter here, and the serialization is hashed. -/
def hashDirectory (env : Externals) (serializeTree : List TreeEntry → ByteString)
    (entries : List TreeEntry) : Hash :=
  env.sha1 (serializeTree (canonicalEntries entries))

/-- Modelled from the spec: the "mapping from directory path to" the "child entries" that
the calls of processEntry have built: the entries registered under the directory. -/
def HgManifestImporter.children (importer : HgManifestImporter) (dir : RelativePathPiece) :
    List TreeEntry :=
  (importer.entries.filter (fun r => r.1 = dir)).map Prod.snd

/-- Modelled from the spec: the directories of the mapping other than the root, every one
once, in the order in which finish() visits them: the directory of every registration and
"every ancestor directory" of it. -/
def HgManifestImporter.directories (env : Externals) (importer : HgManifestImporter) :
    List RelativePathPiece :=
  ((importer.entries.flatMap (fun r => directoryAncestors env r.1)).dedup).insertionSort
    (directoryLE env)

/-- Modelled from the spec: what finish() does for one directory other than the root: it
hashes the serialization of the canonical entries and records "a synthetic TreeEntry with
type=directory and the computed hash in the parent directory" (with owner bits rwx). -/
def finishDirectory (env : Externals) (serializeTree : List TreeEntry → ByteString)
    (children : RelativePathPiece → List TreeEntry) (dir : RelativePathPiece) :
    RelativePathPiece → List TreeEntry :=
  fun d =>
    if d = env.dirname dir then
      children d ++
        [⟨hashDirectory env serializeTree (children dir), env.basename dir, .DIRECTORY, 0b111⟩]
    else children d

/-- Modelled from the spec: finish() visits every directory "in post-order", the root
last; "the root directory's hash is the return value". -/
def HgManifestImporter.finish (env : Externals) (serializeTree : List TreeEntry → ByteString)
    (importer : HgManifestImporter) : Hash :=
  hashDirectory env serializeTree
    (((importer.directories env).foldl (finishDirectory env serializeTree) importer.children) [])

/-- The calls of processEntry for a list of registrations, in the order of the list. -/
def HgManifestImporter.processEntries (importer : HgManifestImporter)
    (registrations : List (RelativePathPiece × TreeEntry)) : HgManifestImporter :=
  registrations.foldl (fun importer r => importer.processEntry r.1 r.2) importer

/-- A stand-in for the tree format for evaluating the model: the entries one after the
other, each as its hash, its type, its owner bits, its name and a NUL. -/
def exampleSerializeTree (entries : List TreeEntry) : ByteString :=
  entries.flatMap (fun e =>
    e.hash.getBytes ++ [UInt8.ofNat e.fileType.code, e.ownerPermissions] ++ e.name ++ [CHAR_NUL])

/-- The registrations of the three entries of the manifest parsing scenario. -/
def scenarioRegistrations : List (RelativePathPiece × TreeEntry) :=
  scenarioEntries.map (ManifestEntry.registration exampleExternals)

/-- A manifest response of two chunks: the first one, with MORE_CHUNKS set, holds three
bytes that are no manifest entry; the second one, the last of the response, holds the
bytes "abc". -/
def brokenResponse : List Chunk :=
  [⟨⟨1, 1, 1, 3⟩, [1, 2, 3]⟩, ⟨⟨1, 1, 0, 3⟩, [97, 98, 99]⟩]

/-- A response to a file request: one chunk with the contents "xy". -/
def fileResponse : Chunk := ⟨⟨2, 2, 0, 2⟩, [120, 121]⟩

/-- A store that holds the record of the path "b" at revision 01...01. -/
def storeWithRecord : LocalStore :=
  (HgBlobInfo.store exampleExternals LocalStore.empty [98] (Hash.replicate 1)).2

/-- The blob identity of the path "b" at revision 01...01. -/
def recordedBlob : Hash :=
  (HgBlobInfo.store exampleExternals LocalStore.empty [98] (Hash.replicate 1)).1

/-! ## Basic facts about the data model -/

theorem Hash.eq_of_getBytes_eq {a b : Hash} (h : a.getBytes = b.getBytes) : a = b := by
  cases a; cases b; cases h; rfl

theorem LocalStore.get_put_self (store : LocalStore) (key value : ByteString) :
    (store.put key value).get key = some value := by
  simp [LocalStore.get, LocalStore.put]

theorem LocalStore.get_put_of_ne (store : LocalStore) (key value k : ByteString)
    (h : k ≠ key) : (store.put key value).get k = store.get k := by
  simp [LocalStore.get, LocalStore.put, h]

theorem LocalStore.put_put_self (store : LocalStore) (key value : ByteString) :
    (store.put key value).put key value = store.put key value := by
  simp only [LocalStore.put, LocalStore.mk.injEq]
  funext k
  by_cases hk : k = key <;> simp [hk]

theorem toNat_ofNat_byte (k : Nat) : (UInt8.ofNat k).toNat = k % 256 := by
  simp [UInt8.toNat, UInt8.ofNat]

theorem length_writeBE32 (n : Nat) : (writeBE32 n).length = SIZEOF_UINT32 := by
  simp [writeBE32]

theorem readBE32_writeBE32_append (n : Nat) (rest : ByteString) :
    readBE32 (writeBE32 n ++ rest) = n % 2 ^ 32 := by
  simp only [readBE32, writeBE32, List.cons_append, List.nil_append, List.getD_cons_zero,
    List.getD_cons_succ, toNat_ofNat_byte]
  omega

theorem drop_writeBE32_append (n : Nat) (rest : ByteString) :
    (writeBE32 n ++ rest).drop SIZEOF_UINT32 = rest := by
  rw [← length_writeBE32 n, List.drop_left]

namespace HgBlobInfo

theorem length_serialize (path : RelativePathPiece) (hgRevHash : Hash) :
    (serialize path hgRevHash).length = RAW_SIZE + SIZEOF_UINT32 + path.length := by
  simp only [serialize, List.length_append, hgRevHash.size_eq, length_writeBE32]

theorem take_serialize (path : RelativePathPiece) (hgRevHash : Hash) :
    (serialize path hgRevHash).take RAW_SIZE = hgRevHash.getBytes := by
  simp only [serialize, List.append_assoc]
  rw [List.take_append_of_le_length (by rw [hgRevHash.size_eq])]
  exact List.take_of_length_le (by rw [hgRevHash.size_eq])

theorem drop_serialize (path : RelativePathPiece) (hgRevHash : Hash) :
    (serialize path hgRevHash).drop RAW_SIZE = writeBE32 path.length ++ path := by
  simp only [serialize, List.append_assoc]
  rw [← hgRevHash.size_eq, List.drop_left]

theorem drop_drop_serialize (path : RelativePathPiece) (hgRevHash : Hash) :
    ((serialize path hgRevHash).drop RAW_SIZE).drop SIZEOF_UINT32 = path := by
  rw [drop_serialize, drop_writeBE32_append]

theorem parseValue_serialize (env : Externals) (path : RelativePathPiece)
    (hgRevHash edenBlobHash : Hash) (hvalid : env.sanityCheck path = true)
    (hlen : path.length < 2 ^ 32) :
    parseValue env (serialize path hgRevHash) edenBlobHash =
      .ok ⟨serialize path hgRevHash, hgRevHash, path⟩ := by
  have hshort : ¬ (serialize path hgRevHash).length < RAW_SIZE + SIZEOF_UINT32 := by
    rw [length_serialize]; omega
  unfold parseValue
  simp only [hshort, dite_false, drop_serialize, drop_writeBE32_append,
    readBE32_writeBE32_append, Nat.mod_eq_of_lt hlen, ne_eq, not_true_eq_false, ite_false,
    hvalid, ite_true]
  have hrev : ∀ hproof, (⟨(serialize path hgRevHash).take RAW_SIZE, hproof⟩ : Hash) =
      hgRevHash := fun _ => Hash.eq_of_getBytes_eq (take_serialize path hgRevHash)
  rw [hrev]

theorem parseValue_eq_ok_iff (env : Externals) (value : ByteString) (edenBlobHash : Hash)
    (info : HgBlobInfo) :
    parseValue env value edenBlobHash = .ok info ↔
      RAW_SIZE + SIZEOF_UINT32 ≤ value.length ∧
      readBE32 (value.drop RAW_SIZE) = (value.drop (RAW_SIZE + SIZEOF_UINT32)).length ∧
      env.sanityCheck (value.drop (RAW_SIZE + SIZEOF_UINT32)) = true ∧
      info.value_ = value ∧ info.revHash_.getBytes = value.take RAW_SIZE ∧
      info.path_ = value.drop (RAW_SIZE + SIZEOF_UINT32) := by
  obtain ⟨iv, ir, ip⟩ := info
  unfold parseValue
  by_cases hshort : value.length < RAW_SIZE + SIZEOF_UINT32
  · simp only [hshort, dite_true, reduceCtorEq, false_iff, not_and]
    intro h; omega
  · simp only [hshort, dite_false, List.drop_drop, Nat.add_comm SIZEOF_UINT32 RAW_SIZE]
    by_cases hlen : (value.drop (RAW_SIZE + SIZEOF_UINT32)).length = readBE32 (value.drop RAW_SIZE)
    · by_cases hv : env.sanityCheck (value.drop (RAW_SIZE + SIZEOF_UINT32)) = true
      · simp only [ne_eq, hlen, not_true_eq_false, ite_false, hv, ite_true, Except.ok.injEq,
          HgBlobInfo.mk.injEq, and_true, true_and]
        constructor
        · rintro ⟨h1, h2, h3⟩
          subst h1 h2 h3
          exact ⟨by omega, rfl, rfl, rfl⟩
        · rintro ⟨_, h1, h2, h3⟩
          exact ⟨h1.symm, Hash.eq_of_getBytes_eq h2.symm, h3.symm⟩
      · simp only [ne_eq, hlen, not_true_eq_false, ite_false, hv, reduceCtorEq, false_iff]
        simp
    · simp only [ne_eq, hlen, not_false_eq_true, ite_true, reduceCtorEq, false_iff]
      intro h
      exact hlen h.2.1.symm

/-- C1 (blob-identity round trip). For every byte-store, every revision hash and every
path accepted as a relative path whose byte length fits a uint32_t, loading the identity
returned by HgBlobInfo::store from the store it leaves behind succeeds, and the loaded
object holds exactly that path and that revision hash. -/
theorem store_load_round_trip (env : Externals) (s : LocalStore) (p : RelativePathPiece)
    (r : Hash) (hvalid : env.sanityCheck p = true) (hlen : p.length < 2 ^ 32) :
    load env (store env s p r).2 (store env s p r).1 = .ok ⟨serialize p r, r, p⟩ := by
  simp only [load, store, LocalStore.get_put_self, StoreResult.extractValue]
  exact parseValue_serialize env p r _ hvalid hlen

/-- Witness of C1: the path "b" and the hash 01...01 stored into the empty store. -/
theorem store_load_round_trip_witness :
    (exampleExternals.sanityCheck [98] = true ∧ [(98 : UInt8)].length < 2 ^ 32) ∧
    load exampleExternals (store exampleExternals LocalStore.empty [98] (Hash.replicate 1)).2
        (store exampleExternals LocalStore.empty [98] (Hash.replicate 1)).1 =
      .ok ⟨serialize [98] (Hash.replicate 1), Hash.replicate 1, [98]⟩ :=
  ⟨⟨by decide, by decide⟩,
    store_load_round_trip exampleExternals LocalStore.empty [98] (Hash.replicate 1)
      (by decide) (by decide)⟩

/-- C2 (blob-identity determinism). The identity returned by HgBlobInfo::store is the
sha1 of the serialized pair, and two runs on the same path and revision hash return the
same identity (the same bytes) whatever the two byte-stores contain. -/
theorem store_identity_deterministic (env : Externals) (s₁ s₂ : LocalStore)
    (p : RelativePathPiece) (r : Hash) :
    (store env s₁ p r).1 = env.sha1 (serialize p r) ∧
    (store env s₁ p r).1 = (store env s₂ p r).1 ∧
    (store env s₁ p r).1.getBytes = (store env s₂ p r).1.getBytes :=
  ⟨rfl, rfl, rfl⟩

/-- C3 (record layout). The serialized pair consists of the 20 bytes of the revision
hash, then four bytes whose big-endian value is the path length (as a uint32_t, that is
modulo 2 ^ 32), then the path bytes; its size is 24 plus the path length, hence at least
24. -/
theorem serialize_layout (p : RelativePathPiece) (r : Hash) :
    (serialize p r).take 20 = r.getBytes ∧
    (∃ b₀ b₁ b₂ b₃ : UInt8, ((serialize p r).drop 20).take 4 = [b₀, b₁, b₂, b₃] ∧
      b₀.toNat * 2 ^ 24 + b₁.toNat * 2 ^ 16 + b₂.toNat * 2 ^ 8 + b₃.toNat =
        p.length % 2 ^ 32) ∧
    (serialize p r).drop 24 = p ∧
    (serialize p r).length = 24 + p.length ∧
    24 ≤ (serialize p r).length := by
  refine ⟨take_serialize p r, ?_, ?_, length_serialize p r, ?_⟩
  · refine ⟨UInt8.ofNat (p.length % 2 ^ 32 / 2 ^ 24 % 256),
      UInt8.ofNat (p.length % 2 ^ 32 / 2 ^ 16 % 256),
      UInt8.ofNat (p.length % 2 ^ 32 / 2 ^ 8 % 256),
      UInt8.ofNat (p.length % 2 ^ 32 % 256), ?_, ?_⟩
    · rw [drop_serialize]
      simp only [writeBE32, List.cons_append, List.nil_append, List.take_succ_cons,
        List.take_zero]
    · simp only [toNat_ofNat_byte]
      omega
  · have h := drop_drop_serialize p r
    rwa [List.drop_drop] at h
  · rw [length_serialize]; exact Nat.le_add_right 24 p.length

/-- C4 (loading a record). The HgBlobInfo constructor succeeds exactly when the store
holds, under the key of the identity, a value of at least 24 bytes whose big-endian
uint32_t at offsets 20..23 equals the number of bytes after offset 24, those bytes being
accepted as a relative path; the loaded revision hash is then the first 20 bytes and the
loaded path is everything from offset 24 on. An absent key fails with the exception of
extractValue, a short value and a length mismatch fail with the two length errors. -/
theorem load_succeeds_iff (env : Externals) (s : LocalStore) (h : Hash) :
    ((∃ info, load env s h = .ok info) ↔
      ∃ value, s.get (getBlobKey h) = some value ∧ 24 ≤ value.length ∧
        readBE32 (value.drop 20) = (value.drop 24).length ∧
        env.sanityCheck (value.drop 24) = true) ∧
    (∀ info, load env s h = .ok info →
      ∃ value, s.get (getBlobKey h) = some value ∧ info.value_ = value ∧
        info.revHash_.getBytes = value.take 20 ∧ info.path_ = value.drop 24) ∧
    (s.get (getBlobKey h) = none → load env s h = .error .valueNotPresent) ∧
    (∀ value, s.get (getBlobKey h) = some value → value.length < 24 →
      load env s h = .error (.tooShort h value.length)) ∧
    (∀ value, s.get (getBlobKey h) = some value → 24 ≤ value.length →
      readBE32 (value.drop 20) ≠ (value.drop 24).length →
      load env s h = .error (.inconsistentPathLength h)) := by
  unfold load
  cases hget : s.get (getBlobKey h) with
  | none => simp [StoreResult.extractValue]
  | some value =>
    simp only [StoreResult.extractValue, Option.some.injEq, exists_eq_left', reduceCtorEq,
      false_implies, true_and, forall_eq']
    refine ⟨?_, ?_, ?_, ?_⟩
    · constructor
      · rintro ⟨info, hinfo⟩
        have := (parseValue_eq_ok_iff env value h info).1 hinfo
        exact ⟨this.1, this.2.1, this.2.2.1⟩
      · rintro ⟨h1, h2, h3⟩
        exact ⟨⟨value, ⟨value.take 20, by
            rw [List.length_take]; exact Nat.min_eq_left (Nat.le_trans (by decide) h1)⟩,
          value.drop 24⟩, (parseValue_eq_ok_iff env value h _).2 ⟨h1, h2, h3, rfl, rfl, rfl⟩⟩
    · intro info hinfo
      have := (parseValue_eq_ok_iff env value h info).1 hinfo
      exact ⟨this.2.2.2.1, this.2.2.2.2.1, this.2.2.2.2.2⟩
    · intro hshort
      have hshort' : value.length < RAW_SIZE + SIZEOF_UINT32 := hshort
      simp only [parseValue, hshort', dite_true]
    · intro hlong hne
      have hshort : ¬ value.length < RAW_SIZE + SIZEOF_UINT32 := Nat.not_lt.2 hlong
      simp only [parseValue, hshort, dite_false, List.drop_drop]
      rw [if_pos (fun heq => hne heq.symm)]

/-- Evaluation of C4 on a corrupt record: a three-byte value under the key of the
identity 01...01 makes the constructor throw the "too short" length error. -/
theorem load_succeeds_iff_witness :
    load exampleExternals (LocalStore.empty.put (getBlobKey (Hash.replicate 1)) [1, 2, 3])
        (Hash.replicate 1) = .error (.tooShort (Hash.replicate 1) 3) :=
  (load_succeeds_iff exampleExternals
    (LocalStore.empty.put (getBlobKey (Hash.replicate 1)) [1, 2, 3]) (Hash.replicate 1)).2.2.2.1
    [1, 2, 3] (LocalStore.get_put_self _ _ _) (by decide)

/-- C5 (put writes one key). After HgBlobInfo::store returns an identity, the store maps
the 23-byte key made of the identity bytes followed by "hgx" to the serialized pair, every
other key keeps its value, and storing the same pair again returns the same identity and
leaves the store as it is. -/
theorem store_writes_one_key (env : Externals) (s : LocalStore) (p : RelativePathPiece)
    (r : Hash) :
    getBlobKey (store env s p r).1 = (store env s p r).1.getBytes ++ [104, 103, 120] ∧
    (getBlobKey (store env s p r).1).length = 23 ∧
    (store env s p r).2.get (getBlobKey (store env s p r).1) = some (serialize p r) ∧
    (∀ k, k ≠ getBlobKey (store env s p r).1 → (store env s p r).2.get k = s.get k) ∧
    store env (store env s p r).2 p r = store env s p r := by
  refine ⟨rfl, ?_, ?_, ?_, ?_⟩
  · simp only [getBlobKey, List.length_append, Hash.size_eq, List.length_cons,
      List.length_nil]
  · exact LocalStore.get_put_self _ _ _
  · intro k hk
    exact LocalStore.get_put_of_ne _ _ _ _ hk
  · simp only [store, LocalStore.put_put_self]

/-- C6 (injective serialization). Two pairs with the same serialization have the same
path and the same revision hash; hence two pairs that received the same blob identity
are either equal or have different serializations with the same sha1. -/
theorem serialize_injective (env : Externals) (p₁ p₂ : RelativePathPiece) (r₁ r₂ : Hash) :
    (serialize p₁ r₁ = serialize p₂ r₂ → p₁ = p₂ ∧ r₁ = r₂) ∧
    (∀ s₁ s₂ : LocalStore, (store env s₁ p₁ r₁).1 = (store env s₂ p₂ r₂).1 →
      (p₁ = p₂ ∧ r₁ = r₂) ∨
      (serialize p₁ r₁ ≠ serialize p₂ r₂ ∧
        env.sha1 (serialize p₁ r₁) = env.sha1 (serialize p₂ r₂))) := by
  have hinj : serialize p₁ r₁ = serialize p₂ r₂ → p₁ = p₂ ∧ r₁ = r₂ := by
    intro h
    constructor
    · rw [← drop_drop_serialize p₁ r₁, ← drop_drop_serialize p₂ r₂, h]
    · apply Hash.eq_of_getBytes_eq
      rw [← take_serialize p₁ r₁, ← take_serialize p₂ r₂, h]
  refine ⟨hinj, fun s₁ s₂ hid => ?_⟩
  by_cases hser : serialize p₁ r₁ = serialize p₂ r₂
  · exact Or.inl (hinj hser)
  · exact Or.inr ⟨hser, hid⟩

/-- Witness of C6: the pair ("b", 01...01) compared with itself. -/
theorem serialize_injective_witness :
    serialize [98] (Hash.replicate 1) = serialize [98] (Hash.replicate 1) ∧
    (([98] : RelativePathPiece) = [98] ∧ Hash.replicate 1 = Hash.replicate 1) :=
  ⟨rfl, (serialize_injective exampleExternals [98] [98] (Hash.replicate 1)
    (Hash.replicate 1)).1 rfl⟩

end HgBlobInfo

/-! ## Cursor primitives on structured input -/

theorem Cursor.pullHash_append (h : Hash) (rest : ByteString) :
    Cursor.pullHash (h.getBytes ++ rest) = .ok (h, rest) := by
  have hle : RAW_SIZE ≤ (h.getBytes ++ rest).length := by
    rw [List.length_append, h.size_eq]; exact Nat.le_add_right _ _
  have htake : (h.getBytes ++ rest).take RAW_SIZE = h.getBytes := by
    rw [← h.size_eq, List.take_left]
  have hdrop : (h.getBytes ++ rest).drop RAW_SIZE = rest := by
    rw [← h.size_eq, List.drop_left]
  simp only [Cursor.pullHash, hle, dite_true, hdrop]
  congr 2
  exact Hash.eq_of_getBytes_eq htake

theorem Cursor.readTerminatedString_append (p rest : ByteString) (hnul : CHAR_NUL ∉ p) :
    Cursor.readTerminatedString (p ++ CHAR_NUL :: rest) = .ok (p, rest) := by
  induction p with
  | nil => simp [Cursor.readTerminatedString]
  | cons b p ih =>
    have hb : b ≠ CHAR_NUL := fun hb => hnul (hb ▸ List.mem_cons_self _ _)
    have hp : CHAR_NUL ∉ p := fun hp => hnul (List.mem_cons_of_mem _ hp)
    have ih' := ih hp
    rw [List.cons_append, Cursor.readTerminatedString, if_neg hb, ih']

theorem Cursor.length_lt_of_readTerminatedString (cursor : Cursor) (str : ByteString)
    (rest : Cursor) (h : Cursor.readTerminatedString cursor = .ok (str, rest)) :
    rest.length < cursor.length := by
  induction cursor generalizing str with
  | nil => simp [Cursor.readTerminatedString] at h
  | cons b tl ih =>
    simp only [Cursor.readTerminatedString] at h
    split at h
    · simp only [Except.ok.injEq, Prod.mk.injEq] at h
      rw [← h.2]; exact Nat.lt_succ_self _
    · split at h
      · simp at h
      · rename_i s c hrec
        simp only [Except.ok.injEq, Prod.mk.injEq] at h
        have hc := h.2
        subst hc
        exact Nat.lt_succ_of_lt (ih s hrec)

theorem readManifestEntryFields_flagged (h : Hash) (f : UInt8) (p rest : ByteString)
    (hf : f ≠ CHAR_TAB) (hnul : CHAR_NUL ∉ p) :
    readManifestEntryFields (h.getBytes ++ CHAR_TAB :: f :: CHAR_TAB :: (p ++ CHAR_NUL :: rest)) =
      .ok (h, f, p, rest) := by
  simp only [readManifestEntryFields, Cursor.pullHash_append, Cursor.read, ne_eq,
    not_true_eq_false, ite_false, hf, Cursor.readTerminatedString_append p rest hnul]

theorem readManifestEntryFields_flagless (h : Hash) (p rest : ByteString)
    (hnul : CHAR_NUL ∉ p) :
    readManifestEntryFields (h.getBytes ++ CHAR_TAB :: CHAR_TAB :: (p ++ CHAR_NUL :: rest)) =
      .ok (h, CHAR_SPACE, p, rest) := by
  simp only [readManifestEntryFields, Cursor.pullHash_append, Cursor.read, ne_eq,
    not_true_eq_false, ite_false, ite_true, Cursor.readTerminatedString_append p rest hnul]

theorem Cursor.length_of_pullHash (cursor rest : Cursor) (h : Hash)
    (hpull : Cursor.pullHash cursor = .ok (h, rest)) :
    rest.length + RAW_SIZE = cursor.length := by
  unfold Cursor.pullHash at hpull
  by_cases hlen : RAW_SIZE ≤ cursor.length
  · simp only [hlen, dite_true, Except.ok.injEq, Prod.mk.injEq] at hpull
    rw [← hpull.2, List.length_drop]
    exact Nat.sub_add_cancel hlen
  · simp [hlen] at hpull

theorem Cursor.length_of_read (cursor rest : Cursor) (b : UInt8)
    (hread : Cursor.read cursor = .ok (b, rest)) :
    rest.length + 1 = cursor.length := by
  cases cursor with
  | nil => simp [Cursor.read] at hread
  | cons c cs =>
    simp only [Cursor.read, Except.ok.injEq, Prod.mk.injEq] at hread
    rw [← hread.2, List.length_cons]

theorem readManifestEntryFields_length_lt (cursor : Cursor) (h : Hash) (f : UInt8)
    (p : ByteString) (rest : Cursor)
    (hparse : readManifestEntryFields cursor = .ok (h, f, p, rest)) :
    rest.length < cursor.length := by
  unfold readManifestEntryFields at hparse
  split at hparse
  · simp at hparse
  · rename_i fh c₁ h₁
    have l₁ := Cursor.length_of_pullHash cursor c₁ fh h₁
    split at hparse
    · simp at hparse
    · rename_i sep c₂ h₂
      have l₂ := Cursor.length_of_read c₁ c₂ sep h₂
      split at hparse
      · simp at hparse
      · split at hparse
        · simp at hparse
        · rename_i flag c₃ h₃
          have l₃ := Cursor.length_of_read c₂ c₃ flag h₃
          simp only at hparse
          split at hparse
          · simp at hparse
          · rename_i f' c₄ hflag
            split at hparse
            · simp at hparse
            · rename_i str c₅ hstr
              simp only [Except.ok.injEq, Prod.mk.injEq] at hparse
              have hrest := hparse.2.2.2
              subst hrest
              have l₅ := Cursor.length_lt_of_readTerminatedString c₄ str c₅ hstr
              have l₄ : c₄.length ≤ c₃.length := by
                split at hflag
                · simp only [Except.ok.injEq, Prod.mk.injEq] at hflag
                  rw [← hflag.2]
                · split at hflag
                  · simp at hflag
                  · rename_i sep' c₃' h₃'
                    have l₃' := Cursor.length_of_read c₃ c₃' sep' h₃'
                    split at hflag
                    · simp at hflag
                    · simp only [Except.ok.injEq, Prod.mk.injEq] at hflag
                      rw [← hflag.2]
                      omega
              omega

theorem readManifestEntry_of_fields (env : Externals) (store : LocalStore)
    (importer : HgManifestImporter) (cursor : Cursor) (fileRevHash : Hash) (flag : UInt8)
    (pathStr : ByteString) (rest : Cursor) (fileType : FileType) (ownerPermissions : UInt8)
    (hparse : readManifestEntryFields cursor = .ok (fileRevHash, flag, pathStr, rest))
    (hflag : fileTypeOfFlag flag = some (fileType, ownerPermissions))
    (hvalid : env.sanityCheck pathStr = true) :
    readManifestEntry env store importer cursor =
      (.ok rest, (HgBlobInfo.store env store pathStr fileRevHash).2,
        importer.processEntry (env.dirname pathStr)
          ⟨(HgBlobInfo.store env store pathStr fileRevHash).1, env.basename pathStr,
            fileType, ownerPermissions⟩) := by
  simp only [readManifestEntry, hparse, hflag, hvalid, ite_true]

theorem readManifestEntry_unsupported (env : Externals) (store : LocalStore)
    (importer : HgManifestImporter) (cursor : Cursor) (fileRevHash : Hash) (flag : UInt8)
    (pathStr : ByteString) (rest : Cursor)
    (hparse : readManifestEntryFields cursor = .ok (fileRevHash, flag, pathStr, rest))
    (hflag : fileTypeOfFlag flag = none) :
    readManifestEntry env store importer cursor =
      (.error (.unsupportedFlags pathStr flag), store, importer) := by
  simp only [readManifestEntry, hparse, hflag]

theorem readManifestEntry_error_state (env : Externals) (store store' : LocalStore)
    (importer importer' : HgManifestImporter) (cursor : Cursor) (e : Error)
    (h : readManifestEntry env store importer cursor = (.error e, store', importer')) :
    store' = store ∧ importer' = importer := by
  unfold readManifestEntry at h
  split at h
  · simp only [Prod.mk.injEq] at h
    exact ⟨h.2.1.symm, h.2.2.symm⟩
  · split at h
    · simp only [Prod.mk.injEq] at h
      exact ⟨h.2.1.symm, h.2.2.symm⟩
    · split at h
      · simp at h
      · simp only [Prod.mk.injEq] at h
        exact ⟨h.2.1.symm, h.2.2.symm⟩

theorem readManifestEntry_length_lt (env : Externals) (store store' : LocalStore)
    (importer importer' : HgManifestImporter) (cursor rest : Cursor)
    (h : readManifestEntry env store importer cursor = (.ok rest, store', importer')) :
    rest.length < cursor.length := by
  unfold readManifestEntry at h
  split at h
  · simp at h
  · rename_i fileRevHash flag pathStr c hparse
    split at h
    · simp at h
    · split at h
      · simp only [Prod.mk.injEq, Except.ok.injEq] at h
        rw [← h.1]
        exact readManifestEntryFields_length_lt cursor fileRevHash flag pathStr c hparse
      · simp at h

theorem ManifestEntry.readManifestEntryFields_encode (env : Externals) (e : ManifestEntry)
    (rest : ByteString) (hwf : e.WellFormed env) :
    readManifestEntryFields (e.encode ++ rest) = .ok (e.fileRevHash, e.flag, e.path, rest) := by
  obtain ⟨hflag, hnul, -⟩ := hwf
  by_cases hsp : e.flag = CHAR_SPACE
  · have h := readManifestEntryFields_flagless e.fileRevHash e.path rest hnul
    simp only [ManifestEntry.encode, hsp, ite_true, List.append_nil, List.append_assoc,
      List.singleton_append] at h ⊢
    exact h
  · have hf : e.flag ≠ CHAR_TAB := by
      rcases hflag with h | h | h <;> rw [h] <;> decide
    have h := readManifestEntryFields_flagged e.fileRevHash e.flag e.path rest hf hnul
    simp only [ManifestEntry.encode, hsp, ite_false, List.append_assoc,
      List.singleton_append] at h ⊢
    exact h

theorem ManifestEntry.fileTypeOfFlag_wellFormed (env : Externals) (e : ManifestEntry)
    (hwf : e.WellFormed env) :
    fileTypeOfFlag e.flag = some ((e.registration env).2.fileType,
      (e.registration env).2.ownerPermissions) := by
  rcases hwf.1 with h | h | h <;> rw [ManifestEntry.registration, h] <;> rfl

theorem ManifestEntry.readManifestEntry_encode (env : Externals) (store : LocalStore)
    (importer : HgManifestImporter) (e : ManifestEntry) (rest : ByteString)
    (hwf : e.WellFormed env) :
    readManifestEntry env store importer (e.encode ++ rest) =
      (.ok rest, (HgBlobInfo.store env store e.path e.fileRevHash).2,
        importer.processEntry (e.registration env).1 (e.registration env).2) :=
  readManifestEntry_of_fields env store importer _ _ _ _ _ _ _
    (e.readManifestEntryFields_encode env rest hwf) (e.fileTypeOfFlag_wellFormed env hwf) hwf.2.2

theorem processChunkEntries_fuel (env : Externals) (fuel₁ : Nat) :
    ∀ (fuel₂ : Nat) (store : LocalStore) (importer : HgManifestImporter) (cursor : Cursor),
      cursor.length ≤ fuel₁ → cursor.length ≤ fuel₂ →
      processChunkEntries env fuel₁ store importer cursor =
        processChunkEntries env fuel₂ store importer cursor := by
  induction fuel₁ with
  | zero =>
    intro fuel₂ store importer cursor h₁ _
    have hnil : cursor = [] := List.length_eq_zero.1 (Nat.le_zero.1 h₁)
    subst hnil
    cases fuel₂ <;> simp [processChunkEntries]
  | succ n ih =>
    intro fuel₂ store importer cursor h₁ h₂
    by_cases hnil : cursor = []
    · subst hnil
      cases fuel₂ <;> simp [processChunkEntries]
    · cases fuel₂ with
      | zero => exact absurd (List.length_eq_zero.1 (Nat.le_zero.1 h₂)) hnil
      | succ m =>
        simp only [processChunkEntries, hnil, ite_false]
        rcases hr : readManifestEntry env store importer cursor with ⟨res, store', importer'⟩
        cases res with
        | error e => rfl
        | ok rest =>
          have hlt := readManifestEntry_length_lt env store store' importer importer' cursor
            rest hr
          exact ih m store' importer' rest (by omega) (by omega)

/-- The loop equation of processChunk: the fuel given by the chunk length never runs out,
so the function is the loop "while (!cursor.isAtEnd()) readManifestEntry(...)" itself. -/
theorem processChunk_unfold (env : Externals) (store : LocalStore)
    (importer : HgManifestImporter) (cursor : Cursor) :
    processChunk env store importer cursor =
      if cursor = [] then (.ok (), store, importer)
      else
        match readManifestEntry env store importer cursor with
        | (.error e, store, importer) => (.error e, store, importer)
        | (.ok cursor, store, importer) => processChunk env store importer cursor := by
  unfold processChunk
  by_cases hnil : cursor = []
  · subst hnil
    simp [processChunkEntries]
  · obtain ⟨b, tl, rfl⟩ := List.exists_cons_of_ne_nil hnil
    simp only [List.length_cons, processChunkEntries, hnil, ite_false]
    rcases hr : readManifestEntry env store importer (b :: tl) with ⟨res, store', importer'⟩
    cases res with
    | error e => rfl
    | ok rest =>
      have hlt := readManifestEntry_length_lt env store store' importer importer' (b :: tl)
        rest hr
      simp only [List.length_cons] at hlt
      exact processChunkEntries_fuel env _ _ store' importer' rest (by omega) (Nat.le_refl _)

theorem ManifestEntry.encode_ne_nil (e : ManifestEntry) (rest : ByteString) :
    e.encode ++ rest ≠ [] := by
  intro h
  have hlen := congrArg List.length h
  simp [ManifestEntry.encode] at hlen

theorem ManifestEntry.processChunk_encodeAll (env : Externals) (entries : List ManifestEntry) :
    ∀ (store : LocalStore) (importer : HgManifestImporter),
      (∀ e ∈ entries, e.WellFormed env) →
      processChunk env store importer (ManifestEntry.encodeAll entries) =
        (.ok (),
          entries.foldl (fun s e => (HgBlobInfo.store env s e.path e.fileRevHash).2) store,
          ⟨importer.entries ++ entries.map (ManifestEntry.registration env)⟩) := by
  induction entries with
  | nil =>
    intro store importer _
    rw [processChunk_unfold]
    simp [ManifestEntry.encodeAll]
  | cons e es ih =>
    intro store importer hwf
    have he := hwf e (List.mem_cons_self _ _)
    have hes : ∀ x ∈ es, x.WellFormed env := fun x hx => hwf x (List.mem_cons_of_mem _ hx)
    rw [processChunk_unfold, ManifestEntry.encodeAll, if_neg (e.encode_ne_nil _),
      e.readManifestEntry_encode env store importer _ he]
    simp only
    rw [ih _ _ hes]
    simp [HgManifestImporter.processEntry]

theorem readManifestEntryFields_wire_flag (h fileRevHash : Hash) (b flag : UInt8)
    (tail pathStr : ByteString) (rest : Cursor) (hb : b ≠ CHAR_TAB)
    (hparse : readManifestEntryFields (h.getBytes ++ CHAR_TAB :: b :: tail) =
      .ok (fileRevHash, flag, pathStr, rest)) :
    flag = b := by
  simp only [readManifestEntryFields, Cursor.pullHash_append, Cursor.read, ne_eq,
    not_true_eq_false, ite_false, hb] at hparse
  split at hparse
  · simp at hparse
  · rename_i flag' c hflag
    split at hparse
    · simp at hparse
    · simp only [Except.ok.injEq, Prod.mk.injEq] at hparse
      rw [← hparse.2.1]
      split at hflag
      · simp at hflag
      · split at hflag
        · simp at hflag
        · simp only [Except.ok.injEq, Prod.mk.injEq] at hflag
          exact hflag.1.symm

theorem readManifestEntry_ok_inv (env : Externals) (store store' : LocalStore)
    (importer importer' : HgManifestImporter) (cursor rest : Cursor)
    (h : readManifestEntry env store importer cursor = (.ok rest, store', importer')) :
    ∃ fileRevHash flag pathStr,
      readManifestEntryFields cursor = .ok (fileRevHash, flag, pathStr, rest) ∧
      fileTypeOfFlag flag ≠ none ∧ env.sanityCheck pathStr = true := by
  unfold readManifestEntry at h
  split at h
  · simp at h
  · rename_i fileRevHash flag pathStr c hparse
    split at h
    · simp at h
    · rename_i fileType perms hflag
      split at h
      · rename_i hvalid
        simp only [Prod.mk.injEq, Except.ok.injEq] at h
        refine ⟨fileRevHash, flag, pathStr, ?_, ?_, hvalid⟩
        · rw [hparse, h.1]
        · rw [hflag]; simp
      · simp at h

theorem fileTypeOfFlag_eq_none (flag : UInt8) (h₁ : flag ≠ CHAR_SPACE) (h₂ : flag ≠ CHAR_X)
    (h₃ : flag ≠ CHAR_L) : fileTypeOfFlag flag = none := by
  simp only [fileTypeOfFlag, h₁, h₂, h₃, ite_false]

/-- C7 (parse rule). For a hash h and a NUL-free path p, the entry h, tab, f, tab, p,
NUL with f one of 'x', 'l' is read as hash h, flag f and path p, and the entry h, tab,
tab, p, NUL is read as hash h, flag ' ' and path p (no further separator is consumed, so
p may itself start with a tab); in both cases the cursor is left on the byte that follows
the NUL, also in the result of readManifestEntry when p is accepted as a relative path. -/
theorem readManifestEntry_parse_rule (env : Externals) (store : LocalStore)
    (importer : HgManifestImporter) (h : Hash) (p rest : ByteString)
    (hnul : CHAR_NUL ∉ p) :
    (∀ f, f = CHAR_X ∨ f = CHAR_L →
      readManifestEntryFields
          (h.getBytes ++ [CHAR_TAB] ++ [f] ++ [CHAR_TAB] ++ p ++ [CHAR_NUL] ++ rest) =
        .ok (h, f, p, rest) ∧
      (env.sanityCheck p = true →
        (readManifestEntry env store importer
          (h.getBytes ++ [CHAR_TAB] ++ [f] ++ [CHAR_TAB] ++ p ++ [CHAR_NUL] ++ rest)).1 =
          .ok rest)) ∧
    (readManifestEntryFields
          (h.getBytes ++ [CHAR_TAB] ++ [CHAR_TAB] ++ p ++ [CHAR_NUL] ++ rest) =
        .ok (h, CHAR_SPACE, p, rest) ∧
      (env.sanityCheck p = true →
        (readManifestEntry env store importer
          (h.getBytes ++ [CHAR_TAB] ++ [CHAR_TAB] ++ p ++ [CHAR_NUL] ++ rest)).1 =
          .ok rest)) := by
  constructor
  · intro f hf
    have hf' : f ≠ CHAR_TAB := by rcases hf with h | h <;> rw [h] <;> decide
    have hflag : ∃ t, fileTypeOfFlag f = some t := by
      rcases hf with h | h <;> rw [h] <;> exact ⟨_, rfl⟩
    obtain ⟨⟨ty, perms⟩, hty⟩ := hflag
    have hparse := readManifestEntryFields_flagged h f p rest hf' hnul
    simp only [List.append_assoc, List.singleton_append, List.cons_append, List.nil_append]
    refine ⟨hparse, fun hvalid => ?_⟩
    rw [readManifestEntry_of_fields env store importer _ _ _ _ _ _ _ hparse hty hvalid]
  · have hparse := readManifestEntryFields_flagless h p rest hnul
    simp only [List.append_assoc, List.singleton_append, List.cons_append, List.nil_append]
    refine ⟨hparse, fun hvalid => ?_⟩
    rw [readManifestEntry_of_fields env store importer _ _ _ _ _ _ _ hparse rfl hvalid]

/-- Witness of C7: the flag-less entry of the path "b" followed by one more byte. -/
theorem readManifestEntry_parse_rule_witness :
    CHAR_NUL ∉ ([98] : ByteString) ∧
    readManifestEntryFields ((Hash.replicate 2).getBytes ++ [CHAR_TAB] ++ [CHAR_TAB] ++ [98] ++
        [CHAR_NUL] ++ [7]) = .ok (Hash.replicate 2, CHAR_SPACE, [98], [7]) :=
  ⟨by decide,
    (readManifestEntry_parse_rule exampleExternals LocalStore.empty ⟨[]⟩ (Hash.replicate 2)
      [98] [7] (by decide)).2.1⟩

/-- C8 (flag mapping). Once the fields of an entry are read and its path is accepted,
flag ' ' registers a regular file with owner bits 0b110, flag 'x' a regular file with
bits 0b111 and flag 'l' a symlink with bits 0b111. With any other flag readManifestEntry
throws, the store and the manifest importer being left as they were; so does every input
whose flag byte on the wire is neither a tab nor one of ' ', 'x', 'l'. -/
theorem readManifestEntry_flag_mapping (env : Externals) (store : LocalStore)
    (importer : HgManifestImporter) :
    (∀ cursor fileRevHash flag pathStr rest,
      readManifestEntryFields cursor = .ok (fileRevHash, flag, pathStr, rest) →
      env.sanityCheck pathStr = true →
      (flag = CHAR_SPACE →
        readManifestEntry env store importer cursor =
          (.ok rest, (HgBlobInfo.store env store pathStr fileRevHash).2,
            importer.processEntry (env.dirname pathStr)
              ⟨(HgBlobInfo.store env store pathStr fileRevHash).1, env.basename pathStr,
                .REGULAR_FILE, 0b110⟩)) ∧
      (flag = CHAR_X →
        readManifestEntry env store importer cursor =
          (.ok rest, (HgBlobInfo.store env store pathStr fileRevHash).2,
            importer.processEntry (env.dirname pathStr)
              ⟨(HgBlobInfo.store env store pathStr fileRevHash).1, env.basename pathStr,
                .REGULAR_FILE, 0b111⟩)) ∧
      (flag = CHAR_L →
        readManifestEntry env store importer cursor =
          (.ok rest, (HgBlobInfo.store env store pathStr fileRevHash).2,
            importer.processEntry (env.dirname pathStr)
              ⟨(HgBlobInfo.store env store pathStr fileRevHash).1, env.basename pathStr,
                .SYMLINK, 0b111⟩))) ∧
    (∀ cursor fileRevHash flag pathStr rest,
      readManifestEntryFields cursor = .ok (fileRevHash, flag, pathStr, rest) →
      flag ≠ CHAR_SPACE → flag ≠ CHAR_X → flag ≠ CHAR_L →
      readManifestEntry env store importer cursor =
        (.error (.unsupportedFlags pathStr flag), store, importer)) ∧
    (∀ (h : Hash) (b : UInt8) (tail : ByteString),
      b ≠ CHAR_TAB → b ≠ CHAR_SPACE → b ≠ CHAR_X → b ≠ CHAR_L →
      ∃ e, readManifestEntry env store importer (h.getBytes ++ [CHAR_TAB] ++ [b] ++ tail) =
        (.error e, store, importer)) := by
  refine ⟨?_, ?_, ?_⟩
  · intro cursor fileRevHash flag pathStr rest hparse hvalid
    refine ⟨fun hf => ?_, fun hf => ?_, fun hf => ?_⟩ <;> subst hf <;>
      exact readManifestEntry_of_fields env store importer _ _ _ _ _ _ _ hparse rfl hvalid
  · intro cursor fileRevHash flag pathStr rest hparse h₁ h₂ h₃
    exact readManifestEntry_unsupported env store importer _ _ _ _ _ hparse
      (fileTypeOfFlag_eq_none flag h₁ h₂ h₃)
  · intro h b tail hb h₁ h₂ h₃
    simp only [List.append_assoc, List.singleton_append, List.cons_append, List.nil_append]
    rcases hr : readManifestEntry env store importer (h.getBytes ++ CHAR_TAB :: b :: tail)
      with ⟨res, store', importer'⟩
    cases res with
    | error e =>
      obtain ⟨hs, hi⟩ := readManifestEntry_error_state env store store' importer importer'
        _ e hr
      exact ⟨e, by rw [hs, hi]⟩
    | ok rest =>
      obtain ⟨fileRevHash, flag, pathStr, hparse, hflag, -⟩ :=
        readManifestEntry_ok_inv env store store' importer importer' _ rest hr
      have hfb := readManifestEntryFields_wire_flag h fileRevHash b flag tail pathStr rest hb
        hparse
      exact absurd (fileTypeOfFlag_eq_none flag (hfb ▸ h₁) (hfb ▸ h₂) (hfb ▸ h₃)) hflag

/-- Evaluation of the flag mapping on the flag 'z': the entry is rejected. -/
theorem readManifestEntry_flag_mapping_witness :
    readManifestEntry exampleExternals LocalStore.empty ⟨[]⟩
        ((Hash.replicate 1).getBytes ++ [CHAR_TAB, 122, CHAR_TAB, 98, CHAR_NUL]) =
      (.error (.unsupportedFlags [98] 122), LocalStore.empty, ⟨[]⟩) :=
  (readManifestEntry_flag_mapping exampleExternals LocalStore.empty ⟨[]⟩).2.1
    ((Hash.replicate 1).getBytes ++ [CHAR_TAB, 122, CHAR_TAB, 98, CHAR_NUL])
    (Hash.replicate 1) 122 [98] [] rfl (by decide) (by decide) (by decide)

/-- C9 (entries of a chunk). Processing a chunk body that is the concatenation of n
well-formed entries succeeds and registers exactly n tree entries, in input order, after
those already registered: each under the parent directory of its path, with the base name
of the path, the blob identity that HgBlobInfo::store returns for (path, file revision
hash), and with file type and owner bits (regular file, rwx) for flag 'x', (regular file,
rw-) for an absent flag and (symlink, rwx) for flag 'l'; every entry is stored in the
byte-store on the way. -/
theorem processChunk_registers_entries (env : Externals) (store : LocalStore)
    (importer : HgManifestImporter) (entries : List ManifestEntry)
    (hwf : ∀ e ∈ entries, e.WellFormed env) :
    processChunk env store importer (ManifestEntry.encodeAll entries) =
      (.ok (),
        entries.foldl (fun s e => (HgBlobInfo.store env s e.path e.fileRevHash).2) store,
        ⟨importer.entries ++ entries.map (ManifestEntry.registration env)⟩) ∧
    (processChunk env store importer (ManifestEntry.encodeAll entries)).2.2.entries.length =
      importer.entries.length + entries.length ∧
    (∀ e ∈ entries, ∀ s : LocalStore,
      (e.registration env).1 = env.dirname e.path ∧
      (e.registration env).2.name = env.basename e.path ∧
      (e.registration env).2.hash = (HgBlobInfo.store env s e.path e.fileRevHash).1 ∧
      (e.flag = CHAR_X → (e.registration env).2.fileType = .REGULAR_FILE ∧
        (e.registration env).2.ownerPermissions = 0b111) ∧
      (e.flag = CHAR_SPACE → (e.registration env).2.fileType = .REGULAR_FILE ∧
        (e.registration env).2.ownerPermissions = 0b110) ∧
      (e.flag = CHAR_L → (e.registration env).2.fileType = .SYMLINK ∧
        (e.registration env).2.ownerPermissions = 0b111)) := by
  have hrun := ManifestEntry.processChunk_encodeAll env entries store importer hwf
  refine ⟨hrun, ?_, ?_⟩
  · rw [hrun]
    simp only [List.length_append, List.length_map]
  · intro e _ s
    refine ⟨rfl, rfl, rfl, ?_, ?_, ?_⟩ <;> intro hf <;>
      simp only [ManifestEntry.registration, hf] <;> decide

/-- Witness of C9: the scenario with paths "dir/a" (flag 'x'), "b" (no flag) and "link"
(flag 'l') yields three registrations, under "dir", "" and "", with names "a", "b" and
"link". -/
theorem processChunk_registers_entries_witness :
    (∀ e ∈ scenarioEntries, e.WellFormed exampleExternals) ∧
    (processChunk exampleExternals LocalStore.empty ⟨[]⟩
        (ManifestEntry.encodeAll scenarioEntries)).2.2.entries.map
        (fun r => (r.1, r.2.name, r.2.fileType, r.2.ownerPermissions)) =
      [([100, 105, 114], [97], FileType.REGULAR_FILE, 0b111),
       ([], [98], FileType.REGULAR_FILE, 0b110),
       ([], [108, 105, 110, 107], FileType.SYMLINK, 0b111)] := by
  refine ⟨by decide, ?_⟩
  rw [(processChunk_registers_entries exampleExternals LocalStore.empty ⟨[]⟩ scenarioEntries
    (by decide)).1]
  decide

/-- Counterexample to C10 as stated: the flag-less form of the wire grammar with one
separator, hash tab "b" NUL, is not accepted. Its first path byte is read as the flag and
the NUL as the separator after it. -/
theorem readManifestEntry_single_tab_rejected :
    readManifestEntry exampleExternals LocalStore.empty ⟨[]⟩
        ((Hash.replicate 1).getBytes ++ [CHAR_TAB] ++ [98] ++ [CHAR_NUL]) =
      (.error (.unexpectedSeparator CHAR_NUL), LocalStore.empty, ⟨[]⟩) := by
  rfl

/-- C10, amended. Every entry of the form hash, tab, flag, tab, path, NUL with flag 'x'
or 'l', and every flag-less entry of the form hash, tab, tab, path, NUL, whose path is
NUL-free and accepted as a relative path, is accepted by readManifestEntry: the flag-less
form registers a regular file with owner bits rw-, flag 'x' a regular file with bits rwx
and flag 'l' a symlink with bits rwx, each with the given path. -/
theorem readManifestEntry_accepts_wire_forms (env : Externals) (store : LocalStore)
    (importer : HgManifestImporter) (h : Hash) (p rest : ByteString)
    (hnul : CHAR_NUL ∉ p) (hvalid : env.sanityCheck p = true) :
    readManifestEntry env store importer
        (h.getBytes ++ [CHAR_TAB] ++ [CHAR_TAB] ++ p ++ [CHAR_NUL] ++ rest) =
      (.ok rest, (HgBlobInfo.store env store p h).2,
        importer.processEntry (env.dirname p)
          ⟨(HgBlobInfo.store env store p h).1, env.basename p, .REGULAR_FILE, 0b110⟩) ∧
    readManifestEntry env store importer
        (h.getBytes ++ [CHAR_TAB] ++ [CHAR_X] ++ [CHAR_TAB] ++ p ++ [CHAR_NUL] ++ rest) =
      (.ok rest, (HgBlobInfo.store env store p h).2,
        importer.processEntry (env.dirname p)
          ⟨(HgBlobInfo.store env store p h).1, env.basename p, .REGULAR_FILE, 0b111⟩) ∧
    readManifestEntry env store importer
        (h.getBytes ++ [CHAR_TAB] ++ [CHAR_L] ++ [CHAR_TAB] ++ p ++ [CHAR_NUL] ++ rest) =
      (.ok rest, (HgBlobInfo.store env store p h).2,
        importer.processEntry (env.dirname p)
          ⟨(HgBlobInfo.store env store p h).1, env.basename p, .SYMLINK, 0b111⟩) := by
  simp only [List.append_assoc, List.singleton_append, List.cons_append, List.nil_append]
  refine ⟨?_, ?_, ?_⟩
  · exact readManifestEntry_of_fields env store importer _ _ _ _ _ _ _
      (readManifestEntryFields_flagless h p rest hnul) rfl hvalid
  · exact readManifestEntry_of_fields env store importer _ _ _ _ _ _ _
      (readManifestEntryFields_flagged h CHAR_X p rest (by decide) hnul) rfl hvalid
  · exact readManifestEntry_of_fields env store importer _ _ _ _ _ _ _
      (readManifestEntryFields_flagged h CHAR_L p rest (by decide) hnul) rfl hvalid

/-- Witness of C10, amended: the flag-less entry of the path "b" with both separators is
accepted and registers a regular file named "b". -/
theorem readManifestEntry_accepts_wire_forms_witness :
    (CHAR_NUL ∉ ([98] : ByteString) ∧ exampleExternals.sanityCheck [98] = true) ∧
    readManifestEntry exampleExternals LocalStore.empty ⟨[]⟩
        ((Hash.replicate 1).getBytes ++ [CHAR_TAB] ++ [CHAR_TAB] ++ [98] ++ [CHAR_NUL] ++ []) =
      (.ok [], (HgBlobInfo.store exampleExternals LocalStore.empty [98] (Hash.replicate 1)).2,
        HgManifestImporter.processEntry ⟨[]⟩ (exampleExternals.dirname [98])
          ⟨(HgBlobInfo.store exampleExternals LocalStore.empty [98] (Hash.replicate 1)).1,
            exampleExternals.basename [98], .REGULAR_FILE, 0b110⟩) :=
  ⟨⟨by decide, by decide⟩,
    (readManifestEntry_accepts_wire_forms exampleExternals LocalStore.empty ⟨[]⟩
      (Hash.replicate 1) [98] [] (by decide) (by decide)).1⟩

/-! ## Reading from the helper -/

theorem readFull_of_le (input dest : ByteString) (count : Nat) (h : count ≤ input.length) :
    readFull input dest count = (input.take count, input.drop count) := by
  have hlen : (input.take count).length = count := by
    rw [List.length_take]; exact Nat.min_eq_left h
  have hnil : (dest.take count).drop (input.take count).length = [] := by
    rw [hlen]
    exact List.drop_eq_nil_of_le (List.length_take_le _ _)
  simp only [readFull, hnil, List.append_nil]

theorem readFull_append (bytes rest dest : ByteString) :
    readFull (bytes ++ rest) dest bytes.length = (bytes, rest) := by
  rw [readFull_of_le _ _ _ (by rw [List.length_append]; exact Nat.le_add_right _ _),
    List.take_left, List.drop_left]

theorem readFull_nil (dest : ByteString) (count : Nat) :
    (readFull [] dest count).2 = [] := by
  simp [readFull]

theorem ChunkHeader.length_encode (header : ChunkHeader) :
    header.encode.length = SIZEOF_HEADER := by
  simp only [ChunkHeader.encode, List.length_append, length_writeBE32]
  rfl

theorem ChunkHeader.decode_encode_append (header : ChunkHeader) (rest : ByteString) :
    ChunkHeader.decode (header.encode ++ rest) =
      ⟨header.requestID % 2 ^ 32, header.command % 2 ^ 32, header.flags % 2 ^ 32,
        header.dataLength % 2 ^ 32⟩ := by
  have h4 : ∀ (n : Nat) (tl : ByteString), (writeBE32 n ++ tl).drop 4 = tl :=
    fun n tl => drop_writeBE32_append n tl
  have h8 : ∀ (a b : Nat) (tl : ByteString), (writeBE32 a ++ (writeBE32 b ++ tl)).drop 8 = tl := by
    intro a b tl
    rw [show 8 = 4 + 4 from rfl, ← List.drop_drop, h4, h4]
  have h12 : ∀ (a b c : Nat) (tl : ByteString),
      (writeBE32 a ++ (writeBE32 b ++ (writeBE32 c ++ tl))).drop 12 = tl := by
    intro a b c tl
    rw [show 12 = 4 + 8 from rfl, ← List.drop_drop, h4, h8]
  simp only [ChunkHeader.decode, ChunkHeader.encode, List.append_assoc, h4, h8, h12,
    readBE32_writeBE32_append]

theorem ChunkHeader.decode_encode_of_lt (header : ChunkHeader) (rest : ByteString)
    (h₁ : header.requestID < 2 ^ 32) (h₂ : header.command < 2 ^ 32)
    (h₃ : header.flags < 2 ^ 32) (h₄ : header.dataLength < 2 ^ 32) :
    ChunkHeader.decode (header.encode ++ rest) = header := by
  rw [ChunkHeader.decode_encode_append, Nat.mod_eq_of_lt h₁, Nat.mod_eq_of_lt h₂,
    Nat.mod_eq_of_lt h₃, Nat.mod_eq_of_lt h₄]

theorem readChunkHeader_of_le (mem : Uninitialized) (stdout : ByteString)
    (hlen : SIZEOF_HEADER ≤ stdout.length)
    (herr : (ChunkHeader.decode (stdout.take SIZEOF_HEADER)).flags &&& FLAG_ERROR = 0) :
    readChunkHeader mem stdout =
      (.ok (ChunkHeader.decode (stdout.take SIZEOF_HEADER)), stdout.drop SIZEOF_HEADER) := by
  simp only [readChunkHeader, readFull_of_le _ _ _ hlen, herr, ne_eq, not_true_eq_false,
    ite_false]

theorem readChunkHeader_encode_ok (mem : Uninitialized) (header : ChunkHeader)
    (rest : ByteString) (h₁ : header.requestID < 2 ^ 32) (h₂ : header.command < 2 ^ 32)
    (h₃ : header.flags < 2 ^ 32) (h₄ : header.dataLength < 2 ^ 32)
    (herr : header.flags &&& FLAG_ERROR = 0) :
    readChunkHeader mem (header.encode ++ rest) = (.ok header, rest) := by
  have hread := readFull_append header.encode rest ((List.range SIZEOF_HEADER).map mem.header)
  rw [header.length_encode] at hread
  have hdec : ChunkHeader.decode header.encode = header := by
    have := ChunkHeader.decode_encode_of_lt header [] h₁ h₂ h₃ h₄
    rwa [List.append_nil] at this
  simp only [readChunkHeader, hread, hdec, herr, ne_eq, not_true_eq_false, ite_false]

theorem readChunkHeader_encode_error (mem : Uninitialized) (header : ChunkHeader)
    (body rest : ByteString) (h₁ : header.requestID < 2 ^ 32) (h₂ : header.command < 2 ^ 32)
    (h₃ : header.flags < 2 ^ 32) (h₄ : header.dataLength < 2 ^ 32)
    (hbody : header.dataLength = body.length) (herr : header.flags &&& FLAG_ERROR ≠ 0) :
    readChunkHeader mem (header.encode ++ (body ++ rest)) =
      (.error (.helperError (runtimeErrorMessage body)), rest) := by
  have hread := readFull_append header.encode (body ++ rest)
    ((List.range SIZEOF_HEADER).map mem.header)
  rw [header.length_encode] at hread
  have hdec : ChunkHeader.decode header.encode = header := by
    have := ChunkHeader.decode_encode_of_lt header [] h₁ h₂ h₃ h₄
    rwa [List.append_nil] at this
  simp only [readChunkHeader, hread, hdec, herr, ne_eq, not_false_eq_true, ite_true, hbody,
    readFull_append]

theorem IOBuf.readInto_of_le (buf : IOBuf) (stdout : ByteString) (n : Nat)
    (hbuf : buf.length = 0) (hn : n ≤ stdout.length) :
    (buf.readInto stdout n).1.data = stdout.take n ∧
      (buf.readInto stdout n).2 = stdout.drop n := by
  have hlen : (stdout.take n).length = n := by
    rw [List.length_take]; exact Nat.min_eq_left hn
  simp only [IOBuf.readInto, readFull_of_le _ _ _ hn, IOBuf.data, IOBuf.append,
    IOBuf.fillTail, hbuf, List.take_zero, List.nil_append, Nat.zero_add, and_true]
  rw [List.take_append_of_le_length (by rw [hlen]), List.take_of_length_le (by rw [hlen])]

theorem readChunkData_of_le (mem : Uninitialized) (chunkData : IOBuf) (stdout : ByteString)
    (n : Nat) (hn : n ≤ stdout.length) :
    (readChunkData mem chunkData n stdout).1.data = stdout.take n ∧
      (readChunkData mem chunkData n stdout).2 = stdout.drop n := by
  unfold readChunkData
  split
  · exact IOBuf.readInto_of_le _ _ _ rfl hn
  · exact IOBuf.readInto_of_le _ _ _ rfl hn

theorem readChunkData_append (mem : Uninitialized) (chunkData : IOBuf)
    (body rest : ByteString) :
    (readChunkData mem chunkData body.length (body ++ rest)).1.data = body ∧
      (readChunkData mem chunkData body.length (body ++ rest)).2 = rest := by
  have h := readChunkData_of_le mem chunkData (body ++ rest) body.length
    (by rw [List.length_append]; exact Nat.le_add_right _ _)
  rwa [List.take_left, List.drop_left] at h

theorem readChunkHeader_nil (mem : Uninitialized) : (readChunkHeader mem []).2 = [] := by
  unfold readChunkHeader
  simp only [readFull, List.take_nil, List.drop_nil, List.length_nil, List.drop_zero,
    List.nil_append]
  split <;> rfl

theorem readChunkData_nil (mem : Uninitialized) (chunkData : IOBuf) (n : Nat) :
    (readChunkData mem chunkData n []).2 = [] := by
  unfold readChunkData IOBuf.readInto
  simp only [readFull, List.drop_nil]

theorem importManifestChunks_step (env : Externals) (mem : Uninitialized) (fuel : Nat)
    (store : LocalStore) (importer : HgManifestImporter) (chunkData : IOBuf) (c : Chunk)
    (rest : ByteString) (hwf : c.WellFramed) (herr : c.header.flags &&& FLAG_ERROR = 0) :
    importManifestChunks env mem (fuel + 1) store importer chunkData (c.encode ++ rest) =
      match processChunk env store importer c.body with
      | (.error e, store, importer) => some (.error e, store, importer, rest)
      | (.ok _, store, importer) =>
        if c.header.flags &&& FLAG_MORE_CHUNKS = 0 then some (.ok (), store, importer, rest)
        else importManifestChunks env mem fuel store importer
          (readChunkData mem chunkData c.body.length (c.body ++ rest)).1 rest := by
  obtain ⟨h₁, h₂, h₃, h₄, hlen⟩ := hwf
  obtain ⟨hdata, hout⟩ := readChunkData_append mem chunkData c.body rest
  rcases hx : readChunkData mem chunkData c.body.length (c.body ++ rest) with ⟨cd, out⟩
  rw [hx] at hdata hout
  simp only at hdata hout
  subst hout
  simp only [importManifestChunks, Chunk.encode, List.append_assoc,
    readChunkHeader_encode_ok mem c.header _ h₁ h₂ h₃ h₄ herr, hlen, hx, hdata]

theorem importManifestChunks_error_chunk (env : Externals) (mem : Uninitialized) (fuel : Nat)
    (store : LocalStore) (importer : HgManifestImporter) (chunkData : IOBuf) (c : Chunk)
    (rest : ByteString) (hwf : c.WellFramed) (herr : c.header.flags &&& FLAG_ERROR ≠ 0) :
    importManifestChunks env mem (fuel + 1) store importer chunkData (c.encode ++ rest) =
      some (.error (.helperError (runtimeErrorMessage c.body)), store, importer, rest) := by
  obtain ⟨h₁, h₂, h₃, h₄, hlen⟩ := hwf
  simp only [importManifestChunks, Chunk.encode, List.append_assoc,
    readChunkHeader_encode_error mem c.header c.body rest h₁ h₂ h₃ h₄ hlen herr]

theorem importManifestChunks_boundary (env : Externals) (mem : Uninitialized) (fuel : Nat) :
    ∀ (store : LocalStore) (importer : HgManifestImporter) (chunkData : IOBuf)
      (cs : List Chunk), (∀ c ∈ cs, c.WellFramed) →
      ∀ (r : Except Error Unit) (store' : LocalStore) (importer' : HgManifestImporter)
        (out : ByteString),
        importManifestChunks env mem fuel store importer chunkData (Chunk.encodeAll cs) =
          some (r, store', importer', out) →
        ∃ k, k ≤ cs.length ∧ out = Chunk.encodeAll (cs.drop k) := by
  induction fuel with
  | zero =>
    intro store importer chunkData cs _ r store' importer' out h
    simp [importManifestChunks] at h
  | succ fuel ih =>
    intro store importer chunkData cs hwf r store' importer' out h
    cases cs with
    | nil =>
      simp only [Chunk.encodeAll, importManifestChunks] at h
      have hnil := readChunkHeader_nil mem
      rcases hh : readChunkHeader mem [] with ⟨res, out₁⟩
      rw [hh] at h hnil
      simp only at hnil
      subst hnil
      cases res with
      | error e =>
        simp only [Option.some.injEq, Prod.mk.injEq] at h
        exact ⟨0, Nat.le_refl _, h.2.2.2.symm⟩
      | ok header =>
        simp only at h
        have hnil₂ := readChunkData_nil mem chunkData header.dataLength
        rcases hd : readChunkData mem chunkData header.dataLength [] with ⟨cd, out₂⟩
        rw [hd] at h hnil₂
        simp only at hnil₂ h
        subst hnil₂
        rcases hp : processChunk env store importer cd.data with ⟨pres, s₂, i₂⟩
        rw [hp] at h
        cases pres with
        | error e =>
          simp only [Option.some.injEq, Prod.mk.injEq] at h
          exact ⟨0, Nat.le_refl _, h.2.2.2.symm⟩
        | ok u =>
          simp only at h
          split at h
          · simp only [Option.some.injEq, Prod.mk.injEq] at h
            exact ⟨0, Nat.le_refl _, h.2.2.2.symm⟩
          · exact ih s₂ i₂ cd [] (fun _ hc => absurd hc (List.not_mem_nil _)) r store'
              importer' out h
    | cons c cs' =>
      have hc := hwf c (List.mem_cons_self _ _)
      have hcs : ∀ x ∈ cs', x.WellFramed := fun x hx => hwf x (List.mem_cons_of_mem _ hx)
      simp only [Chunk.encodeAll] at h
      by_cases herr : c.header.flags &&& FLAG_ERROR = 0
      · rw [importManifestChunks_step env mem fuel store importer chunkData c _ hc herr] at h
        rcases hp : processChunk env store importer c.body with ⟨pres, s₂, i₂⟩
        rw [hp] at h
        cases pres with
        | error e =>
          simp only [Option.some.injEq, Prod.mk.injEq] at h
          exact ⟨1, Nat.succ_le_succ (Nat.zero_le _), h.2.2.2.symm⟩
        | ok u =>
          simp only at h
          split at h
          · simp only [Option.some.injEq, Prod.mk.injEq] at h
            exact ⟨1, Nat.succ_le_succ (Nat.zero_le _), h.2.2.2.symm⟩
          · obtain ⟨k, hk, hout⟩ := ih s₂ i₂ _ cs' hcs r store' importer' out h
            exact ⟨k + 1, Nat.succ_le_succ hk, hout⟩
      · rw [importManifestChunks_error_chunk env mem fuel store importer chunkData c _ hc
          herr] at h
        simp only [Option.some.injEq, Prod.mk.injEq] at h
        exact ⟨1, Nat.succ_le_succ (Nat.zero_le _), h.2.2.2.symm⟩

/-- C11 (chunk header decoding). The 16 bytes that encode a header (r, c, f, n) of 32-bit
values, requestID first, then command, flags and dataLength, each big-endian, are read
back by readChunkHeader as (r, c, f, n) when bit 1 of f is clear, and the bytes after
them are left unread; more generally any 16 bytes at the head of the output are read as
the four big-endian values at offsets 0, 4, 8 and 12. -/
theorem readChunkHeader_decodes (mem : Uninitialized) (r c f n : Nat) (rest : ByteString)
    (hr : r < 2 ^ 32) (hc : c < 2 ^ 32) (hf : f < 2 ^ 32) (hn : n < 2 ^ 32)
    (herr : f &&& FLAG_ERROR = 0) :
    readChunkHeader mem
        (writeBE32 r ++ writeBE32 c ++ writeBE32 f ++ writeBE32 n ++ rest) =
      (.ok ⟨r, c, f, n⟩, rest) ∧
    (writeBE32 r ++ writeBE32 c ++ writeBE32 f ++ writeBE32 n).length = 16 ∧
    (∀ bytes : ByteString, bytes.length = 16 →
      readBE32 (bytes.drop 8) &&& FLAG_ERROR = 0 →
      readChunkHeader mem (bytes ++ rest) =
        (.ok ⟨readBE32 bytes, readBE32 (bytes.drop 4), readBE32 (bytes.drop 8),
          readBE32 (bytes.drop 12)⟩, rest)) := by
  refine ⟨readChunkHeader_encode_ok mem ⟨r, c, f, n⟩ rest hr hc hf hn herr,
    ChunkHeader.length_encode ⟨r, c, f, n⟩, ?_⟩
  intro bytes hlen hflag
  have hlen' : bytes.length = SIZEOF_HEADER := hlen
  have hle : SIZEOF_HEADER ≤ (bytes ++ rest).length := by
    rw [List.length_append, hlen']; exact Nat.le_add_right _ _
  have htake : (bytes ++ rest).take SIZEOF_HEADER = bytes := by
    rw [← hlen', List.take_left]
  have hdrop : (bytes ++ rest).drop SIZEOF_HEADER = rest := by
    rw [← hlen', List.drop_left]
  have h := readChunkHeader_of_le mem (bytes ++ rest) hle (by rw [htake]; exact hflag)
  rw [htake, hdrop] at h
  exact h

/-- Witness of C11: the header (7, 1, 1, 3) followed by three more bytes. -/
theorem readChunkHeader_decodes_witness :
    ((7 : Nat) < 2 ^ 32 ∧ (1 : Nat) < 2 ^ 32 ∧ (3 : Nat) < 2 ^ 32 ∧ 1 &&& FLAG_ERROR = 0) ∧
    readChunkHeader zeroMemory
        (writeBE32 7 ++ writeBE32 1 ++ writeBE32 1 ++ writeBE32 3 ++ [97, 98, 99]) =
      (.ok ⟨7, 1, 1, 3⟩, [97, 98, 99]) :=
  ⟨⟨by decide, by decide, by decide, by decide⟩,
    (readChunkHeader_decodes zeroMemory 7 1 1 3 [97, 98, 99] (by decide) (by decide)
      (by decide) (by decide) (by decide)).1⟩

theorem importManifest_of_chunks (env : Externals) (mem : Uninitialized)
    (finish : HgManifestImporter → Hash) (fuel : Nat) (self : State) (revName : ByteString) :
    importManifest env mem finish fuel self revName =
      match importManifestChunks env mem fuel self.store_ ⟨[]⟩ IOBuf.empty self.stdout with
      | none => none
      | some (.error e, store, importer, stdout) =>
        some (.error e,
          { sendManifestRequest self revName with store_ := store, stdout := stdout },
          importer)
      | some (.ok _, store, importer, stdout) =>
        some (.ok (finish importer),
          { sendManifestRequest self revName with store_ := store, stdout := stdout },
          importer) := by
  rfl

/-- Counterexample to C12 as stated: with five bytes left on the helper's output
readChunkHeader returns a header; with one body byte left where the header announces
three, importFileContents returns three bytes of contents; on an output of three bytes
importManifest returns a root hash. No short read makes them fail. -/
theorem short_read_raises_no_error :
    readChunkHeader zeroMemory [0, 0, 0, 7, 0] = (.ok ⟨7, 0, 0, 0⟩, []) ∧
    (importFileContents exampleExternals zeroMemory
      (State.initial
        (HgBlobInfo.store exampleExternals LocalStore.empty [98] (Hash.replicate 1)).2
        ((⟨1, CMD_CAT_FILE, 0, 3⟩ : ChunkHeader).encode ++ [1]))
      (HgBlobInfo.store exampleExternals LocalStore.empty [98] (Hash.replicate 1)).1).1 =
      .ok [1, 0, 0] ∧
    (importManifest exampleExternals zeroMemory exampleFinish 1
      (State.initial LocalStore.empty [0, 0, 0]) [114]).map (fun r => r.1) =
      some (.ok (exampleFinish ⟨[]⟩)) := by
  refine ⟨?_, ?_, ?_⟩ <;> rfl

/-- C12, amended. When at least 16 bytes remain on the helper's output, readChunkHeader
consumes exactly 16 bytes and decodes them; when at least dataLength bytes remain, the
body read of importManifest and the body read of importFileContents consume exactly
dataLength bytes and yield exactly these bytes, whatever the buffer held before. Short
reads are not detected: whatever the output holds, readChunkHeader returns a header or
throws the error of the helper. -/
theorem reads_consume_exactly (mem : Uninitialized) (stdout : ByteString) :
    (SIZEOF_HEADER ≤ stdout.length →
      (ChunkHeader.decode (stdout.take SIZEOF_HEADER)).flags &&& FLAG_ERROR = 0 →
      readChunkHeader mem stdout =
        (.ok (ChunkHeader.decode (stdout.take SIZEOF_HEADER)), stdout.drop SIZEOF_HEADER)) ∧
    (∀ (chunkData : IOBuf) (n : Nat), n ≤ stdout.length →
      (readChunkData mem chunkData n stdout).1.data = stdout.take n ∧
      (readChunkData mem chunkData n stdout).2 = stdout.drop n) ∧
    (∀ n : Nat, n ≤ stdout.length →
      ((IOBuf.create mem n).readInto stdout n).1.data = stdout.take n ∧
      ((IOBuf.create mem n).readInto stdout n).2 = stdout.drop n) ∧
    ((∃ header, (readChunkHeader mem stdout).1 = .ok header) ∨
      (∃ errStr, (readChunkHeader mem stdout).1 = .error (.helperError errStr))) := by
  refine ⟨readChunkHeader_of_le mem stdout, fun chunkData n hn =>
    readChunkData_of_le mem chunkData stdout n hn, fun n hn =>
    IOBuf.readInto_of_le _ stdout n rfl hn, ?_⟩
  unfold readChunkHeader
  simp only
  split
  · exact Or.inr ⟨_, rfl⟩
  · exact Or.inl ⟨_, rfl⟩

/-- Evaluation of C12, amended, on an output of twenty bytes: the header (1, 2, 0, 3) is
read and four bytes are left. -/
theorem reads_consume_exactly_witness :
    readChunkHeader zeroMemory ((⟨1, 2, 0, 3⟩ : ChunkHeader).encode ++ [1, 2, 3, 4]) =
      (.ok ⟨1, 2, 0, 3⟩, [1, 2, 3, 4]) :=
  (reads_consume_exactly zeroMemory ((⟨1, 2, 0, 3⟩ : ChunkHeader).encode ++ [1, 2, 3, 4])).1
    (by decide) (by decide)

theorem runtimeErrorMessage_of_not_mem (errStr : ByteString) (h : CHAR_NUL ∉ errStr) :
    runtimeErrorMessage errStr = errStr := by
  unfold runtimeErrorMessage
  rw [List.takeWhile_eq_self_iff]
  intro b hb
  simp only [ne_eq, decide_eq_true_eq]
  exact fun heq => h (heq ▸ hb)

theorem runtimeErrorMessage_spec (errStr : ByteString) :
    CHAR_NUL ∉ runtimeErrorMessage errStr ∧
      (errStr = runtimeErrorMessage errStr ∨
        ∃ tail, errStr = runtimeErrorMessage errStr ++ CHAR_NUL :: tail) := by
  induction errStr with
  | nil => exact ⟨by simp [runtimeErrorMessage], Or.inl rfl⟩
  | cons b tl ih =>
    by_cases hb : b = CHAR_NUL
    · have hm : runtimeErrorMessage (b :: tl) = [] := by
        simp [runtimeErrorMessage, List.takeWhile, hb]
      rw [hm]
      exact ⟨List.not_mem_nil _, Or.inr ⟨tl, by rw [hb]; rfl⟩⟩
    · have hm : runtimeErrorMessage (b :: tl) = b :: runtimeErrorMessage tl := by
        simp [runtimeErrorMessage, List.takeWhile, hb]
      rw [hm]
      obtain ⟨hnot, hshape⟩ := ih
      refine ⟨?_, ?_⟩
      · intro hmem
        rcases List.mem_cons.1 hmem with h | h
        · exact hb h.symm
        · exact hnot h
      · rcases hshape with h | ⟨tail, h⟩
        · exact Or.inl (by rw [← h])
        · exact Or.inr ⟨tail, by rw [List.cons_append, ← h]⟩

/-- Counterexample to C13 as stated: the header has the ERROR bit set and is followed by
the six body bytes "no", NUL, "rev"; the message of the error that readChunkHeader and
importManifest throw is "no", not the six body bytes. -/
theorem helper_error_message_ends_at_nul :
    ((⟨⟨1, 1, 2, 6⟩, [110, 111, 0, 114, 101, 118]⟩ : Chunk).WellFramed ∧
      2 &&& FLAG_ERROR ≠ 0) ∧
    readChunkHeader zeroMemory
        ((⟨1, 1, 2, 6⟩ : ChunkHeader).encode ++ [110, 111, 0, 114, 101, 118]) =
      (.error (.helperError [110, 111]), []) ∧
    (importManifestChunks exampleExternals zeroMemory 1 LocalStore.empty ⟨[]⟩ IOBuf.empty
        ((⟨1, 1, 2, 6⟩ : ChunkHeader).encode ++ [110, 111, 0, 114, 101, 118])).map
        (fun r => r.1) =
      some (.error (.helperError [110, 111])) ∧
    ([110, 111] : ByteString) ≠ [110, 111, 0, 114, 101, 118] :=
  ⟨⟨by decide, by decide⟩, rfl, rfl, by decide⟩

/-- C13 (helper error propagation), amended. When the header read has bit 1 of its flags
set, whatever its other members and its other flag bits, readChunkHeader reads the
dataLength bytes that follow the header, leaves the output after these bytes, and throws
an error whose message is made of these bytes up to their first NUL, that one excluded:
exactly the dataLength body bytes when none of them is NUL. importManifest (at its first
header as at any later one) and importFileContents throw this same error and return
nothing else. -/
theorem helper_error_propagates (env : Externals) (mem : Uninitialized)
    (finish : HgManifestImporter → Hash) (header : ChunkHeader) (body rest : ByteString)
    (hwf : (⟨header, body⟩ : Chunk).WellFramed) (herr : header.flags &&& FLAG_ERROR ≠ 0) :
    readChunkHeader mem (header.encode ++ body ++ rest) =
      (.error (.helperError (runtimeErrorMessage body)), rest) ∧
    (CHAR_NUL ∉ body → runtimeErrorMessage body = body) ∧
    (CHAR_NUL ∉ runtimeErrorMessage body ∧
      (body = runtimeErrorMessage body ∨
        ∃ tail, body = runtimeErrorMessage body ++ CHAR_NUL :: tail)) ∧
    (∀ (fuel : Nat) (store : LocalStore) (importer : HgManifestImporter) (chunkData : IOBuf),
      importManifestChunks env mem (fuel + 1) store importer chunkData
          (header.encode ++ body ++ rest) =
        some (.error (.helperError (runtimeErrorMessage body)), store, importer, rest)) ∧
    (∀ (fuel : Nat) (self : State) (revName : ByteString),
      self.stdout = header.encode ++ body ++ rest →
      importManifest env mem finish (fuel + 1) self revName =
        some (.error (.helperError (runtimeErrorMessage body)),
          { sendManifestRequest self revName with store_ := self.store_, stdout := rest },
          ⟨[]⟩)) ∧
    (∀ (self : State) (blobHash : Hash) (hgInfo : HgBlobInfo),
      HgBlobInfo.load env self.store_ blobHash = .ok hgInfo →
      self.stdout = header.encode ++ body ++ rest →
      importFileContents env mem self blobHash =
        (.error (.helperError (runtimeErrorMessage body)),
          { sendFileRequest self hgInfo.path_ hgInfo.revHash_ with stdout := rest })) := by
  have hchunk := importManifestChunks_error_chunk env mem
  obtain ⟨h₁, h₂, h₃, h₄, hlen⟩ := hwf
  have hread := readChunkHeader_encode_error mem header body rest h₁ h₂ h₃ h₄ hlen herr
  rw [List.append_assoc]
  refine ⟨hread, runtimeErrorMessage_of_not_mem body, runtimeErrorMessage_spec body, ?_, ?_, ?_⟩
  · intro fuel store importer chunkData
    exact hchunk fuel store importer chunkData ⟨header, body⟩ rest ⟨h₁, h₂, h₃, h₄, hlen⟩ herr
  · intro fuel self revName hout
    rw [importManifest_of_chunks, hout]
    have := hchunk fuel self.store_ ⟨[]⟩ IOBuf.empty ⟨header, body⟩ rest
      ⟨h₁, h₂, h₃, h₄, hlen⟩ herr
    simp only [Chunk.encode, List.append_assoc] at this
    rw [this]
  · intro self blobHash hgInfo hload hout
    simp only [importFileContents, hload]
    have hout' : (sendFileRequest self hgInfo.path_ hgInfo.revHash_).stdout =
        header.encode ++ (body ++ rest) := hout
    rw [hout', hread]

/-- Witness of C13: a chunk with flags 2 and body "no such rev" makes importManifest throw
an error whose message is "no such rev". -/
theorem helper_error_propagates_witness :
    ((⟨⟨1, 1, 2, 11⟩, [110, 111, 32, 115, 117, 99, 104, 32, 114, 101, 118]⟩ :
        Chunk).WellFramed ∧ 2 &&& FLAG_ERROR ≠ 0) ∧
    importManifest exampleExternals zeroMemory exampleFinish 1
        (State.initial LocalStore.empty
          ((⟨1, 1, 2, 11⟩ : ChunkHeader).encode ++
            [110, 111, 32, 115, 117, 99, 104, 32, 114, 101, 118] ++ []))
        [116, 105, 112] =
      some (.error (.helperError [110, 111, 32, 115, 117, 99, 104, 32, 114, 101, 118]),
        { sendManifestRequest
            (State.initial LocalStore.empty
              ((⟨1, 1, 2, 11⟩ : ChunkHeader).encode ++
                [110, 111, 32, 115, 117, 99, 104, 32, 114, 101, 118] ++ []))
            [116, 105, 112] with
          store_ := LocalStore.empty, stdout := [] },
        ⟨[]⟩) :=
  ⟨⟨by decide, by decide⟩,
    (helper_error_propagates exampleExternals zeroMemory exampleFinish ⟨1, 1, 2, 11⟩
      [110, 111, 32, 115, 117, 99, 104, 32, 114, 101, 118] [] (by decide)
      (by decide)).2.2.2.2.1 0 _ [116, 105, 112] rfl⟩

/-! ## The channel after a failed import -/

theorem Chunk.encodeAll_append_eq_self (cs : List Chunk) (rest : ByteString) :
    Chunk.encodeAll cs ++ rest = rest ↔ cs = [] := by
  constructor
  · intro h
    cases cs with
    | nil => rfl
    | cons c cs' =>
      have hlen := congrArg List.length h
      simp only [Chunk.encodeAll, Chunk.encode, List.length_append,
        ChunkHeader.length_encode] at hlen
      have h16 : SIZEOF_HEADER = 16 := rfl
      omega
  · intro h
    rw [h]
    rfl

theorem importManifestChunks_failure (env : Externals) (mem : Uninitialized)
    (rest : ByteString) (cs : List Chunk) :
    ∀ (fuel : Nat) (store : LocalStore) (importer : HgManifestImporter) (chunkData : IOBuf),
      (∀ c ∈ cs, c.WellFramed) → (∃ last, cs.getLast? = some last ∧ last.Final) →
      ∀ (e : Error) (store' : LocalStore) (importer' : HgManifestImporter) (out : ByteString),
        importManifestChunks env mem fuel store importer chunkData
            (Chunk.encodeAll cs ++ rest) = some (.error e, store', importer', out) →
        ∃ (k : Nat) (c : Chunk), cs[k]? = some c ∧
          out = Chunk.encodeAll (cs.drop (k + 1)) ++ rest ∧
          (∀ d ∈ cs.take k,
            d.header.flags &&& FLAG_ERROR = 0 ∧ d.header.flags &&& FLAG_MORE_CHUNKS ≠ 0) ∧
          ((c.header.flags &&& FLAG_ERROR ≠ 0 ∧
              e = .helperError (runtimeErrorMessage c.body)) ∨
            (c.header.flags &&& FLAG_ERROR = 0 ∧
              ∃ s i, (processChunk env s i c.body).1 = .error e)) := by
  induction cs with
  | nil =>
    intro fuel store importer chunkData _ hlast
    obtain ⟨last, hl, -⟩ := hlast
    simp at hl
  | cons c cs' ih =>
    intro fuel store importer chunkData hwf hlast e store' importer' out h
    cases fuel with
    | zero => simp [importManifestChunks] at h
    | succ fuel =>
      have hc := hwf c (List.mem_cons_self _ _)
      have hcs : ∀ x ∈ cs', x.WellFramed := fun x hx => hwf x (List.mem_cons_of_mem _ hx)
      have hshape : Chunk.encodeAll (c :: cs') ++ rest =
          c.encode ++ (Chunk.encodeAll cs' ++ rest) := by
        simp only [Chunk.encodeAll, List.append_assoc]
      rw [hshape] at h
      by_cases herr : c.header.flags &&& FLAG_ERROR = 0
      · rw [importManifestChunks_step env mem fuel store importer chunkData c _ hc herr] at h
        rcases hp : processChunk env store importer c.body with ⟨pres, s₂, i₂⟩
        rw [hp] at h
        cases pres with
        | error e' =>
          simp only [Option.some.injEq, Prod.mk.injEq, Except.error.injEq] at h
          refine ⟨0, c, List.getElem?_cons_zero, ?_, ?_, Or.inr ⟨herr, store, importer, ?_⟩⟩
          · rw [← h.2.2.2]; rfl
          · intro d hd; simp at hd
          · rw [hp, ← h.1]
        | ok u =>
          simp only at h
          by_cases hmore : c.header.flags &&& FLAG_MORE_CHUNKS = 0
          · simp [hmore] at h
          · simp only [hmore, ite_false] at h
            have hlast' : ∃ last, cs'.getLast? = some last ∧ last.Final := by
              obtain ⟨last, hl, hfinal⟩ := hlast
              cases cs' with
              | nil =>
                simp only [List.getLast?_singleton, Option.some.injEq] at hl
                subst hl
                rcases hfinal with hf | hf
                · exact absurd hf hmore
                · exact absurd herr hf
              | cons d ds =>
                rw [List.getLast?_cons_cons] at hl
                exact ⟨last, hl, hfinal⟩
            obtain ⟨k, c', hk, hout, hbefore, hkind⟩ :=
              ih fuel s₂ i₂ _ hcs hlast' e store' importer' out h
            refine ⟨k + 1, c', ?_, ?_, ?_, hkind⟩
            · simpa using hk
            · simpa using hout
            · intro d hd
              simp only [List.take_succ_cons, List.mem_cons] at hd
              rcases hd with hd | hd
              · rw [hd]; exact ⟨herr, hmore⟩
              · exact hbefore d hd
      · rw [importManifestChunks_error_chunk env mem fuel store importer chunkData c _ hc
          herr] at h
        simp only [Option.some.injEq, Prod.mk.injEq, Except.error.injEq] at h
        refine ⟨0, c, List.getElem?_cons_zero, ?_, ?_, Or.inl ⟨herr, h.1.symm⟩⟩
        · rw [← h.2.2.2]; rfl
        · intro d hd; simp at hd

theorem importManifestChunks_returns (env : Externals) (mem : Uninitialized)
    (rest : ByteString) (cs : List Chunk) :
    ∀ (fuel : Nat) (store : LocalStore) (importer : HgManifestImporter) (chunkData : IOBuf),
      (∀ c ∈ cs, c.WellFramed) → (∃ last, cs.getLast? = some last ∧ last.Final) →
      cs.length ≤ fuel →
      ∃ r, importManifestChunks env mem fuel store importer chunkData
        (Chunk.encodeAll cs ++ rest) = some r := by
  induction cs with
  | nil =>
    intro fuel store importer chunkData _ hlast
    obtain ⟨last, hl, -⟩ := hlast
    simp at hl
  | cons c cs' ih =>
    intro fuel store importer chunkData hwf hlast hfuel
    cases fuel with
    | zero => simp at hfuel
    | succ fuel =>
      have hc := hwf c (List.mem_cons_self _ _)
      have hcs : ∀ x ∈ cs', x.WellFramed := fun x hx => hwf x (List.mem_cons_of_mem _ hx)
      have hshape : Chunk.encodeAll (c :: cs') ++ rest =
          c.encode ++ (Chunk.encodeAll cs' ++ rest) := by
        simp only [Chunk.encodeAll, List.append_assoc]
      rw [hshape]
      by_cases herr : c.header.flags &&& FLAG_ERROR = 0
      · rw [importManifestChunks_step env mem fuel store importer chunkData c _ hc herr]
        rcases processChunk env store importer c.body with ⟨pres, s₂, i₂⟩
        cases pres with
        | error e' => exact ⟨_, rfl⟩
        | ok u =>
          simp only
          by_cases hmore : c.header.flags &&& FLAG_MORE_CHUNKS = 0
          · simp only [hmore, ite_true]
            exact ⟨_, rfl⟩
          · simp only [hmore, ite_false]
            have hlast' : ∃ last, cs'.getLast? = some last ∧ last.Final := by
              obtain ⟨last, hl, hfinal⟩ := hlast
              cases cs' with
              | nil =>
                simp only [List.getLast?_singleton, Option.some.injEq] at hl
                subst hl
                rcases hfinal with hf | hf
                · exact absurd hf hmore
                · exact absurd herr hf
              | cons d ds =>
                rw [List.getLast?_cons_cons] at hl
                exact ⟨last, hl, hfinal⟩
            exact ih fuel s₂ i₂ _ hcs hlast' (Nat.le_of_succ_le_succ hfuel)
      · rw [importManifestChunks_error_chunk env mem fuel store importer chunkData c _ hc herr]
        exact ⟨_, rfl⟩

theorem importFileContents_of_chunk (env : Externals) (mem : Uninitialized) (self : State)
    (blobHash : Hash) (hgInfo : HgBlobInfo) (c : Chunk) (rest : ByteString)
    (hload : HgBlobInfo.load env self.store_ blobHash = .ok hgInfo) (hwf : c.WellFramed)
    (herr : c.header.flags &&& FLAG_ERROR = 0) (hout : self.stdout = c.encode ++ rest) :
    importFileContents env mem self blobHash =
      (.ok c.body,
        { sendFileRequest self hgInfo.path_ hgInfo.revHash_ with stdout := rest }) := by
  obtain ⟨h₁, h₂, h₃, h₄, hbody⟩ := hwf
  have hout' : (sendFileRequest self hgInfo.path_ hgInfo.revHash_).stdout =
      c.header.encode ++ (c.body ++ rest) := by
    rw [← List.append_assoc]; exact hout
  have hread := readChunkHeader_encode_ok mem c.header (c.body ++ rest) h₁ h₂ h₃ h₄ herr
  obtain ⟨hdata, hrest⟩ := IOBuf.readInto_of_le (IOBuf.create mem c.body.length)
    (c.body ++ rest) c.body.length rfl (by rw [List.length_append]; exact Nat.le_add_right _ _)
  rw [List.take_left] at hdata
  rw [List.drop_left] at hrest
  rcases hx : (IOBuf.create mem c.body.length).readInto (c.body ++ rest) c.body.length
    with ⟨buf, out⟩
  rw [hx] at hdata hrest
  simp only at hdata hrest
  simp only [importFileContents, hload, hout', hread, hbody, hx, hdata, hrest]

/-- Counterexample to C14 as stated: a manifest response of two chunks, the first of which
has MORE_CHUNKS set and holds bytes that are no manifest entry, is followed by the response
"xy" to the next request. importManifest throws on the first chunk, at a chunk boundary,
and leaves the second chunk of its response unread; the next request, an
importFileContents, then returns the body "abc" of that left-over chunk as the contents
of the file, not "xy". -/
theorem failed_import_leaves_chunks_unread :
    ((∀ c ∈ brokenResponse, c.WellFramed) ∧
      ∃ last, brokenResponse.getLast? = some last ∧ last.Final) ∧
    importManifest exampleExternals zeroMemory exampleFinish 2
        (State.initial storeWithRecord (Chunk.encodeAll brokenResponse ++ fileResponse.encode))
        [116, 105, 112] =
      some (.error .underflow,
        ⟨storeWithRecord, (⟨1, 1, 0, 3⟩ : ChunkHeader).encode ++ [116, 105, 112],
          Chunk.encodeAll (brokenResponse.drop 1) ++ fileResponse.encode, 2⟩,
        ⟨[]⟩) ∧
    (importFileContents exampleExternals zeroMemory
        ⟨storeWithRecord, (⟨1, 1, 0, 3⟩ : ChunkHeader).encode ++ [116, 105, 112],
          Chunk.encodeAll (brokenResponse.drop 1) ++ fileResponse.encode, 2⟩
        recordedBlob).1 = .ok [97, 98, 99] ∧
    ([97, 98, 99] : ByteString) ≠ fileResponse.body :=
  ⟨⟨by decide, ⟨⟨⟨1, 1, 0, 3⟩, [97, 98, 99]⟩, rfl, by decide⟩⟩, rfl, rfl, by decide⟩

/-- C14 (post-error channel state), amended. The helper's output holds a response made of
whole chunks, each header being followed by its dataLength body bytes and the last chunk
ending the response (MORE_CHUNKS clear or ERROR set), and then the bytes of later
responses. importManifest, given at least as many loop iterations as the response has
chunks, returns or throws. Whenever it throws, it does so in one chunk of the response,
all chunks before that one having been read without error with MORE_CHUNKS set; the error
is the error of the helper when that chunk has its ERROR bit set and an error of parsing
its body otherwise; and the output it has consumed ends exactly at the end of that chunk:
the later chunks of the response are left unread. So the first unread byte is the start of
the next response exactly when the failing chunk is the last chunk of the response; then
the next request is answered by the next response. Otherwise the next request reads the
left-over chunk of the manifest response as its own response. -/
theorem importManifest_stops_at_chunk_boundary (env : Externals) (mem : Uninitialized)
    (finish : HgManifestImporter → Hash) (fuel : Nat) (self : State) (revName : ByteString)
    (cs : List Chunk) (rest : ByteString) (hwf : ∀ c ∈ cs, c.WellFramed)
    (hlast : ∃ last, cs.getLast? = some last ∧ last.Final)
    (hout : self.stdout = Chunk.encodeAll cs ++ rest) :
    (cs.length ≤ fuel → ∃ r, importManifest env mem finish fuel self revName = some r) ∧
    ∀ (e : Error) (self' : State) (importer : HgManifestImporter),
      importManifest env mem finish fuel self revName = some (.error e, self', importer) →
      ∃ (k : Nat) (c : Chunk), cs[k]? = some c ∧
        self'.stdout = Chunk.encodeAll (cs.drop (k + 1)) ++ rest ∧
        (∀ d ∈ cs.take k,
          d.header.flags &&& FLAG_ERROR = 0 ∧ d.header.flags &&& FLAG_MORE_CHUNKS ≠ 0) ∧
        ((c.header.flags &&& FLAG_ERROR ≠ 0 ∧
            e = .helperError (runtimeErrorMessage c.body)) ∨
          (c.header.flags &&& FLAG_ERROR = 0 ∧
            ∃ s i, (processChunk env s i c.body).1 = .error e)) ∧
        (self'.stdout = rest ↔ k + 1 = cs.length) ∧
        (k + 1 = cs.length →
          ∀ (next : Chunk) (tail : ByteString) (blobHash : Hash) (hgInfo : HgBlobInfo),
            rest = next.encode ++ tail → next.WellFramed →
            next.header.flags &&& FLAG_ERROR = 0 →
            HgBlobInfo.load env self'.store_ blobHash = .ok hgInfo →
            importFileContents env mem self' blobHash =
              (.ok next.body,
                { sendFileRequest self' hgInfo.path_ hgInfo.revHash_ with stdout := tail })) ∧
        (∀ (left : Chunk) (blobHash : Hash) (hgInfo : HgBlobInfo),
          cs[k + 1]? = some left → left.header.flags &&& FLAG_ERROR = 0 →
          HgBlobInfo.load env self'.store_ blobHash = .ok hgInfo →
          importFileContents env mem self' blobHash =
            (.ok left.body,
              { sendFileRequest self' hgInfo.path_ hgInfo.revHash_ with
                stdout := Chunk.encodeAll (cs.drop (k + 2)) ++ rest })) := by
  constructor
  · intro hfuel
    obtain ⟨r, hr⟩ := importManifestChunks_returns env mem rest cs fuel self.store_ ⟨[]⟩
      IOBuf.empty hwf hlast hfuel
    rw [importManifest_of_chunks, hout, hr]
    obtain ⟨res, store', importer', out⟩ := r
    cases res with
    | error e => exact ⟨_, rfl⟩
    | ok u => exact ⟨_, rfl⟩
  · intro e self' importer h
    rw [importManifest_of_chunks, hout] at h
    rcases hc : importManifestChunks env mem fuel self.store_ ⟨[]⟩ IOBuf.empty
      (Chunk.encodeAll cs ++ rest) with _ | ⟨res, store', importer', out⟩
    · rw [hc] at h; simp at h
    · rw [hc] at h
      cases res with
      | ok u => simp at h
      | error e' =>
        simp only [Option.some.injEq, Prod.mk.injEq, Except.error.injEq] at h
        obtain ⟨he, hself, -⟩ := h
        subst he
        obtain ⟨k, c, hk, hko, hbefore, hkind⟩ := importManifestChunks_failure env mem rest cs
          fuel self.store_ ⟨[]⟩ IOBuf.empty hwf hlast e' store' importer' out hc
        have hstdout : self'.stdout = Chunk.encodeAll (cs.drop (k + 1)) ++ rest := by
          rw [← hself]; exact hko
        have hklt : k < cs.length := by
          by_contra hge
          rw [List.getElem?_eq_none (Nat.le_of_not_lt hge)] at hk
          exact absurd hk (by simp)
        refine ⟨k, c, hk, hstdout, hbefore, hkind, ?_, ?_, ?_⟩
        · rw [hstdout, Chunk.encodeAll_append_eq_self, List.drop_eq_nil_iff]
          omega
        · intro hend next tail blobHash hgInfo hrest hnext herr hload
          apply importFileContents_of_chunk env mem self' blobHash hgInfo next tail hload hnext
            herr
          rw [hstdout, List.drop_eq_nil_iff.2 (by omega), ← hrest]
          rfl
        · intro left blobHash hgInfo hleft herr hload
          have hmem : left ∈ cs := List.mem_iff_getElem?.2 ⟨_, hleft⟩
          apply importFileContents_of_chunk env mem self' blobHash hgInfo left _ hload
            (hwf left hmem) herr
          rw [hstdout]
          have hdrop : cs.drop (k + 1) = left :: cs.drop (k + 2) := by
            have hlt : k + 1 < cs.length := by
              by_contra hge
              rw [List.getElem?_eq_none (Nat.le_of_not_lt hge)] at hleft
              exact absurd hleft (by simp)
            rw [List.drop_eq_getElem_cons hlt]
            have := List.getElem?_eq_getElem hlt
            rw [this] at hleft
            simp only [Option.some.injEq] at hleft
            rw [hleft]
          rw [hdrop]
          simp only [Chunk.encodeAll, List.append_assoc]

/-- Witness of C14: a manifest response whose only chunk holds three bytes that are no
manifest entry, followed by the response "xy" to the next request. importManifest throws
in that chunk, and the output left unread is the next response. -/
theorem importManifest_stops_at_chunk_boundary_witness :
    ((∀ c ∈ ([⟨⟨1, 1, 0, 3⟩, [1, 2, 3]⟩] : List Chunk), c.WellFramed) ∧
      (∃ last, ([⟨⟨1, 1, 0, 3⟩, [1, 2, 3]⟩] : List Chunk).getLast? = some last ∧ last.Final) ∧
      (State.initial storeWithRecord
        (Chunk.encodeAll [⟨⟨1, 1, 0, 3⟩, [1, 2, 3]⟩] ++ fileResponse.encode)).stdout =
        Chunk.encodeAll [⟨⟨1, 1, 0, 3⟩, [1, 2, 3]⟩] ++ fileResponse.encode) ∧
    importManifest exampleExternals zeroMemory exampleFinish 1
        (State.initial storeWithRecord
          (Chunk.encodeAll [⟨⟨1, 1, 0, 3⟩, [1, 2, 3]⟩] ++ fileResponse.encode))
        [116, 105, 112] =
      some (.error .underflow,
        ⟨storeWithRecord, (⟨1, 1, 0, 3⟩ : ChunkHeader).encode ++ [116, 105, 112],
          fileResponse.encode, 2⟩, ⟨[]⟩) ∧
    ∃ (k : Nat) (c : Chunk), ([⟨⟨1, 1, 0, 3⟩, [1, 2, 3]⟩] : List Chunk)[k]? = some c ∧
      (⟨storeWithRecord, (⟨1, 1, 0, 3⟩ : ChunkHeader).encode ++ [116, 105, 112],
        fileResponse.encode, 2⟩ : State).stdout =
        Chunk.encodeAll (([⟨⟨1, 1, 0, 3⟩, [1, 2, 3]⟩] : List Chunk).drop (k + 1)) ++
          fileResponse.encode := by
  have hrun : importManifest exampleExternals zeroMemory exampleFinish 1
      (State.initial storeWithRecord
        (Chunk.encodeAll [⟨⟨1, 1, 0, 3⟩, [1, 2, 3]⟩] ++ fileResponse.encode))
      [116, 105, 112] =
      some (.error .underflow,
        ⟨storeWithRecord, (⟨1, 1, 0, 3⟩ : ChunkHeader).encode ++ [116, 105, 112],
          fileResponse.encode, 2⟩, ⟨[]⟩) := rfl
  refine ⟨⟨by decide, ⟨⟨⟨1, 1, 0, 3⟩, [1, 2, 3]⟩, rfl, by decide⟩, rfl⟩, hrun, ?_⟩
  obtain ⟨k, c, hk, hstdout, -⟩ :=
    (importManifest_stops_at_chunk_boundary exampleExternals zeroMemory exampleFinish 1
      (State.initial storeWithRecord
        (Chunk.encodeAll [⟨⟨1, 1, 0, 3⟩, [1, 2, 3]⟩] ++ fileResponse.encode))
      [116, 105, 112] [⟨⟨1, 1, 0, 3⟩, [1, 2, 3]⟩] fileResponse.encode (by decide)
      ⟨⟨⟨1, 1, 0, 3⟩, [1, 2, 3]⟩, rfl, by decide⟩ rfl).2 .underflow _ _ hrun
  exact ⟨k, c, hk, hstdout⟩

theorem ManifestChunk.importManifestChunks_response (env : Externals) (mem : Uninitialized)
    (last : ManifestChunk) (rest : ByteString)
    (hlast : last.WellFormed env ∧ last.header.flags &&& FLAG_MORE_CHUNKS = 0)
    (more : List ManifestChunk) :
    ∀ (fuel : Nat) (store : LocalStore) (importer : HgManifestImporter) (chunkData : IOBuf),
      (∀ mc ∈ more, mc.WellFormed env ∧ mc.header.flags &&& FLAG_MORE_CHUNKS ≠ 0) →
      more.length < fuel →
      importManifestChunks env mem fuel store importer chunkData
          (ManifestChunk.encodeAll (more ++ [last]) ++ rest) =
        some (.ok (),
          (ManifestChunk.allEntries (more ++ [last])).foldl
            (fun s e => (HgBlobInfo.store env s e.path e.fileRevHash).2) store,
          ⟨importer.entries ++
            (ManifestChunk.allEntries (more ++ [last])).map (ManifestEntry.registration env)⟩,
          rest) := by
  induction more with
  | nil =>
    intro fuel store importer chunkData _ hfuel
    obtain ⟨fuel', rfl⟩ : ∃ f, fuel = f + 1 := ⟨fuel - 1, by simp at hfuel; omega⟩
    obtain ⟨⟨hframed, herr, hentries⟩, hdone⟩ := hlast
    have hstep := importManifestChunks_step env mem fuel' store importer chunkData last.chunk
      rest hframed herr
    simp only [ManifestChunk.encodeAll, List.nil_append, List.map_cons, List.map_nil,
      Chunk.encodeAll, List.append_nil, ManifestChunk.allEntries]
    rw [hstep]
    have hproc := ManifestEntry.processChunk_encodeAll env last.entries store importer hentries
    have hbody : last.chunk.body = ManifestEntry.encodeAll last.entries := rfl
    have hflags : last.chunk.header.flags = last.header.flags := rfl
    rw [hbody, hproc]
    simp only [hflags, hdone, ite_true]
  | cons mc more ih =>
    intro fuel store importer chunkData hmore hfuel
    obtain ⟨fuel', rfl⟩ : ∃ f, fuel = f + 1 := ⟨fuel - 1, by simp at hfuel; omega⟩
    obtain ⟨⟨hframed, herr, hentries⟩, hcont⟩ := hmore mc (List.mem_cons_self _ _)
    have hmore' : ∀ x ∈ more, x.WellFormed env ∧ x.header.flags &&& FLAG_MORE_CHUNKS ≠ 0 :=
      fun x hx => hmore x (List.mem_cons_of_mem _ hx)
    have hfuel' : more.length < fuel' := by simp at hfuel; omega
    have hstep := importManifestChunks_step env mem fuel' store importer chunkData mc.chunk
      (ManifestChunk.encodeAll (more ++ [last]) ++ rest) hframed herr
    have hshape : ManifestChunk.encodeAll (mc :: more ++ [last]) ++ rest =
        mc.chunk.encode ++ (ManifestChunk.encodeAll (more ++ [last]) ++ rest) := by
      simp only [ManifestChunk.encodeAll, List.cons_append, List.map_cons, Chunk.encodeAll,
        List.append_assoc, List.append_eq]
    rw [hshape, hstep]
    have hproc := ManifestEntry.processChunk_encodeAll env mc.entries store importer hentries
    have hbody : mc.chunk.body = ManifestEntry.encodeAll mc.entries := rfl
    have hflags : mc.chunk.header.flags = mc.header.flags := rfl
    rw [hbody, hproc]
    simp only [hflags, hcont, ite_false]
    rw [ih fuel' _ _ _ hmore' hfuel']
    simp only [ManifestChunk.allEntries, List.cons_append, List.foldl_append, List.map_append,
      List.append_assoc, List.append_eq]

/-- C15 (manifest chunk loop). On a response made of well-formed chunks whose
MORE_CHUNKS bit (bit 0) is set, followed by a well-formed chunk whose bit is clear and by
any further bytes, importManifest, given at least as many loop iterations as there are
chunks, consumes these chunks and nothing after them, registers the entries of all of them
in stream order (a chunk without entries adds none), stores each entry, and returns the
hash that finish() gives for the manifest importer holding exactly these entries. -/
theorem importManifest_chunk_loop (env : Externals) (mem : Uninitialized)
    (finish : HgManifestImporter → Hash) (fuel : Nat) (self : State) (revName : ByteString)
    (more : List ManifestChunk) (last : ManifestChunk) (rest : ByteString)
    (hmore : ∀ mc ∈ more, mc.WellFormed env ∧ mc.header.flags &&& FLAG_MORE_CHUNKS ≠ 0)
    (hlast : last.WellFormed env ∧ last.header.flags &&& FLAG_MORE_CHUNKS = 0)
    (hout : self.stdout = ManifestChunk.encodeAll (more ++ [last]) ++ rest)
    (hfuel : more.length < fuel) :
    importManifest env mem finish fuel self revName =
      some (.ok (finish ⟨(ManifestChunk.allEntries (more ++ [last])).map
          (ManifestEntry.registration env)⟩),
        { sendManifestRequest self revName with
          store_ := (ManifestChunk.allEntries (more ++ [last])).foldl
            (fun s e => (HgBlobInfo.store env s e.path e.fileRevHash).2) self.store_
          stdout := rest },
        ⟨(ManifestChunk.allEntries (more ++ [last])).map (ManifestEntry.registration env)⟩) := by
  rw [importManifest_of_chunks, hout,
    ManifestChunk.importManifestChunks_response env mem last rest hlast more fuel self.store_
      ⟨[]⟩ IOBuf.empty hmore hfuel]
  simp only [List.nil_append]

/-- Witness of C15: a chunk with the three entries of the parsing scenario and the
MORE_CHUNKS bit set, then an empty chunk with the bit clear, then two bytes that are
left unread. -/
theorem importManifest_chunk_loop_witness :
    ((∀ mc ∈ [scenarioChunk],
        mc.WellFormed exampleExternals ∧ mc.header.flags &&& FLAG_MORE_CHUNKS ≠ 0) ∧
      (scenarioLastChunk.WellFormed exampleExternals ∧
        scenarioLastChunk.header.flags &&& FLAG_MORE_CHUNKS = 0)) ∧
    (importManifest exampleExternals zeroMemory exampleFinish 2
        (State.initial LocalStore.empty
          (ManifestChunk.encodeAll ([scenarioChunk] ++ [scenarioLastChunk]) ++ [9, 9]))
        [116, 105, 112]).map (fun r => (r.1, r.2.1.stdout, r.2.2.entries.length)) =
      some (.ok (Hash.replicate 3), [9, 9], 3) := by
  refine ⟨⟨by decide, by decide⟩, ?_⟩
  rw [importManifest_chunk_loop exampleExternals zeroMemory exampleFinish 2
    (State.initial LocalStore.empty
      (ManifestChunk.encodeAll ([scenarioChunk] ++ [scenarioLastChunk]) ++ [9, 9]))
    [116, 105, 112] [scenarioChunk] scenarioLastChunk [9, 9]
    (by decide) (by decide) rfl (by decide)]
  rfl

/-! ## Requests -/

theorem writeBE32_mod (n : Nat) : writeBE32 (n % 2 ^ 32) = writeBE32 n := by
  simp only [writeBE32, Nat.mod_mod]

theorem State.nextRequestID_sendAll (requests : List Request) :
    ∀ self : State, self.nextRequestID_ < 2 ^ 32 →
      (self.sendAll requests).nextRequestID_ =
        (self.nextRequestID_ + requests.length) % 2 ^ 32 := by
  induction requests with
  | nil =>
    intro self h
    simp only [State.sendAll, List.foldl_nil, List.length_nil, Nat.add_zero]
    exact (Nat.mod_eq_of_lt h).symm
  | cons r rs ih =>
    intro self _
    have hnext : (self.send r).nextRequestID_ = (self.nextRequestID_ + 1) % 2 ^ 32 := by
      cases r <;> rfl
    have hlt : (self.send r).nextRequestID_ < 2 ^ 32 := by
      rw [hnext]; exact Nat.mod_lt _ (by decide)
    have := ih (self.send r) hlt
    simp only [State.sendAll, List.foldl_cons, List.length_cons] at this ⊢
    rw [this, hnext]
    omega

theorem State.stdin_send (self : State) (r : Request) :
    ∃ payload, (self.send r).stdin = self.stdin ++ (writeBE32 self.nextRequestID_ ++ payload) := by
  cases r with
  | manifest revName =>
    refine ⟨writeBE32 CMD_MANIFEST ++ (writeBE32 0 ++ (writeBE32 revName.length ++ revName)),
      ?_⟩
    simp only [State.send, sendManifestRequest, ChunkHeader.encode, List.append_assoc]
  | file path revHash =>
    refine ⟨writeBE32 CMD_CAT_FILE ++ (writeBE32 0 ++
      (writeBE32 (RAW_SIZE + path.length) ++ (revHash.getBytes ++ path))), ?_⟩
    simp only [State.send, sendFileRequest, ChunkHeader.encode, List.append_assoc]

/-- C16 (request framing). The method sendManifestRequest writes the 16 header bytes
holding, big-endian, the request ID, command 1, flags 0 and the size of the revision name
(as a uint32_t), and then the revision name; sendFileRequest writes the header with
command 2, flags 0 and 20 plus the size of the path, then the 20 bytes of the revision
hash, then the path. In both the dataLength member is the number of payload bytes
written, whenever that number fits a uint32_t. -/
theorem request_framing (self : State) (revName : ByteString) (path : RelativePathPiece)
    (revHash : Hash) :
    (sendManifestRequest self revName).stdin =
      self.stdin ++ (writeBE32 self.nextRequestID_ ++ [0, 0, 0, 1] ++ [0, 0, 0, 0] ++
        writeBE32 revName.length ++ revName) ∧
    (sendFileRequest self path revHash).stdin =
      self.stdin ++ (writeBE32 self.nextRequestID_ ++ [0, 0, 0, 2] ++ [0, 0, 0, 0] ++
        writeBE32 (20 + path.length) ++ (revHash.getBytes ++ path)) ∧
    (writeBE32 self.nextRequestID_ ++ [0, 0, 0, 1] ++ [0, 0, 0, 0] ++
      writeBE32 revName.length).length = 16 ∧
    (writeBE32 self.nextRequestID_ ++ [0, 0, 0, 2] ++ [0, 0, 0, 0] ++
      writeBE32 (20 + path.length)).length = 16 ∧
    ChunkHeader.decode (writeBE32 self.nextRequestID_ ++ [0, 0, 0, 1] ++ [0, 0, 0, 0] ++
        writeBE32 revName.length ++ revName) =
      ⟨self.nextRequestID_ % 2 ^ 32, 1, 0, revName.length % 2 ^ 32⟩ ∧
    ChunkHeader.decode (writeBE32 self.nextRequestID_ ++ [0, 0, 0, 2] ++ [0, 0, 0, 0] ++
        writeBE32 (20 + path.length) ++ (revHash.getBytes ++ path)) =
      ⟨self.nextRequestID_ % 2 ^ 32, 2, 0, (20 + path.length) % 2 ^ 32⟩ ∧
    (revHash.getBytes ++ path).length = 20 + path.length ∧
    (revName.length < 2 ^ 32 → revName.length % 2 ^ 32 = revName.length) ∧
    (20 + path.length < 2 ^ 32 →
      (20 + path.length) % 2 ^ 32 = (revHash.getBytes ++ path).length) := by
  have h1 : ([0, 0, 0, 1] : ByteString) = writeBE32 CMD_MANIFEST := by decide
  have h2 : ([0, 0, 0, 2] : ByteString) = writeBE32 CMD_CAT_FILE := by decide
  have h0 : ([0, 0, 0, 0] : ByteString) = writeBE32 0 := by decide
  have hpay : (revHash.getBytes ++ path).length = 20 + path.length := by
    rw [List.length_append, revHash.size_eq]
  rw [h1, h2, h0]
  refine ⟨?_, ?_, ?_, ?_, ?_, ?_, hpay, fun h => Nat.mod_eq_of_lt h, fun h => ?_⟩
  · simp only [sendManifestRequest, ChunkHeader.encode, List.append_assoc]
  · simp only [sendFileRequest, ChunkHeader.encode, List.append_assoc]
  · exact ChunkHeader.length_encode ⟨self.nextRequestID_, CMD_MANIFEST, 0, revName.length⟩
  · exact ChunkHeader.length_encode ⟨self.nextRequestID_, CMD_CAT_FILE, 0, 20 + path.length⟩
  · exact ChunkHeader.decode_encode_append
      ⟨self.nextRequestID_, CMD_MANIFEST, 0, revName.length⟩ revName
  · exact ChunkHeader.decode_encode_append
      ⟨self.nextRequestID_, CMD_CAT_FILE, 0, 20 + path.length⟩ (revHash.getBytes ++ path)
  · rw [hpay]; exact Nat.mod_eq_of_lt h

/-- C17 (request IDs). A request, manifest or file, carries the value of the request
counter as its ID (the first four bytes it writes) and advances the counter by one modulo
2 ^ 32. Hence on an importer whose IDs start at 1, the request sent after k others carries
the ID k + 1, and two requests less than 2 ^ 32 sends apart carry different IDs. -/
theorem request_ids (self : State) (store : LocalStore) (stdout : ByteString)
    (before : List Request) (r : Request) :
    (∃ payload,
      (self.send r).stdin = self.stdin ++ (writeBE32 self.nextRequestID_ ++ payload)) ∧
    (self.send r).nextRequestID_ = (self.nextRequestID_ + 1) % 2 ^ 32 ∧
    ((State.initial store stdout).sendAll before).nextRequestID_ =
      (before.length + 1) % 2 ^ 32 ∧
    (∃ payload,
      (((State.initial store stdout).sendAll before).send r).stdin =
        ((State.initial store stdout).sendAll before).stdin ++
          (writeBE32 (before.length + 1) ++ payload)) ∧
    (∀ i j : Nat, i < j → j < i + 2 ^ 32 → (i + 1) % 2 ^ 32 ≠ (j + 1) % 2 ^ 32) := by
  have hcount : ((State.initial store stdout).sendAll before).nextRequestID_ =
      (before.length + 1) % 2 ^ 32 := by
    have hone : (State.initial store stdout).nextRequestID_ < 2 ^ 32 :=
      show 1 < 2 ^ 32 by decide
    rw [State.nextRequestID_sendAll before (State.initial store stdout) hone]
    simp only [State.initial, Nat.add_comm]
  refine ⟨self.stdin_send r, ?_, hcount, ?_, ?_⟩
  · cases r <;> rfl
  · obtain ⟨payload, hp⟩ := ((State.initial store stdout).sendAll before).stdin_send r
    rw [hcount, writeBE32_mod] at hp
    exact ⟨payload, hp⟩
  · intro i j hij hj
    omega

/-- C18 (file contents end to end). When the record of (p, r) is stored under the
identity h and the helper's output starts with a chunk whose ERROR bit is clear,
importFileContents(h) writes one request, command 2 with payload r followed by p, and
returns exactly the body of that chunk, whatever its MORE_CHUNKS bit; the output after the
chunk is left unread. For an identity without a record it throws and leaves the importer,
its standard input included, as it was. -/
theorem importFileContents_end_to_end (env : Externals) (mem : Uninitialized) (self : State)
    (h : Hash) (p : RelativePathPiece) (r : Hash) (header : ChunkHeader)
    (body rest : ByteString)
    (hstored : self.store_.get (HgBlobInfo.getBlobKey h) = some (HgBlobInfo.serialize p r))
    (hvalid : env.sanityCheck p = true) (hlen : p.length < 2 ^ 32)
    (hwf : (⟨header, body⟩ : Chunk).WellFramed) (herr : header.flags &&& FLAG_ERROR = 0)
    (hout : self.stdout = header.encode ++ body ++ rest) :
    importFileContents env mem self h =
      (.ok body,
        { self with
          stdin := self.stdin ++
            ((⟨self.nextRequestID_, CMD_CAT_FILE, 0, 20 + p.length⟩ : ChunkHeader).encode ++
              (r.getBytes ++ p))
          nextRequestID_ := (self.nextRequestID_ + 1) % 2 ^ 32
          stdout := rest }) ∧
    (∀ (self' : State) (h' : Hash), self'.store_.get (HgBlobInfo.getBlobKey h') = none →
      importFileContents env mem self' h' = (.error .valueNotPresent, self')) := by
  constructor
  · obtain ⟨h₁, h₂, h₃, h₄, hbody⟩ := hwf
    have hload : HgBlobInfo.load env self.store_ h =
        .ok ⟨HgBlobInfo.serialize p r, r, p⟩ := by
      simp only [HgBlobInfo.load, hstored, StoreResult.extractValue]
      exact HgBlobInfo.parseValue_serialize env p r h hvalid hlen
    have hout' : (sendFileRequest self p r).stdout = header.encode ++ (body ++ rest) := by
      rw [← List.append_assoc]; exact hout
    have hread := readChunkHeader_encode_ok mem header (body ++ rest) h₁ h₂ h₃ h₄ herr
    simp only at hbody
    obtain ⟨hdata, hrest⟩ := IOBuf.readInto_of_le (IOBuf.create mem body.length) (body ++ rest)
      body.length rfl (by rw [List.length_append]; exact Nat.le_add_right _ _)
    rw [List.take_left] at hdata
    rw [List.drop_left] at hrest
    rcases hx : (IOBuf.create mem body.length).readInto (body ++ rest) body.length
      with ⟨buf, out⟩
    rw [hx] at hdata hrest
    simp only at hdata hrest
    simp only [importFileContents, hload, hout', hread, hbody, hx, hdata, hrest]
    rfl
  · intro self' h' hnone
    simp only [importFileContents, HgBlobInfo.load, hnone, StoreResult.extractValue]

/-- Witness of C18: the record of ("b", 01...01) is stored; the helper answers with a
chunk whose flags are 1 (MORE_CHUNKS) and whose body is three bytes, followed by one more
byte. -/
theorem importFileContents_end_to_end_witness :
    (exampleExternals.sanityCheck [98] = true ∧ [(98 : UInt8)].length < 2 ^ 32 ∧
      (⟨⟨1, 2, 1, 3⟩, [1, 2, 3]⟩ : Chunk).WellFramed ∧ 1 &&& FLAG_ERROR = 0) ∧
    (importFileContents exampleExternals zeroMemory
      (State.initial
        (HgBlobInfo.store exampleExternals LocalStore.empty [98] (Hash.replicate 1)).2
        ((⟨1, 2, 1, 3⟩ : ChunkHeader).encode ++ [1, 2, 3] ++ [5]))
      (HgBlobInfo.store exampleExternals LocalStore.empty [98] (Hash.replicate 1)).1).1 =
      .ok [1, 2, 3] :=
  ⟨⟨by decide, by decide, by decide, by decide⟩,
    congrArg Prod.fst (importFileContents_end_to_end exampleExternals zeroMemory
      (State.initial
        (HgBlobInfo.store exampleExternals LocalStore.empty [98] (Hash.replicate 1)).2
        ((⟨1, 2, 1, 3⟩ : ChunkHeader).encode ++ [1, 2, 3] ++ [5]))
      (HgBlobInfo.store exampleExternals LocalStore.empty [98] (Hash.replicate 1)).1
      [98] (Hash.replicate 1) ⟨1, 2, 1, 3⟩ [1, 2, 3] [5]
      (LocalStore.get_put_self _ _ _) (by decide) (by decide) (by decide) (by decide) rfl).1⟩

end HgImporter

namespace ScmStatusCache

/-! ## Lists of completed entries -/

theorem lookup_filter_ne (key : ObjectId) (items : List (ObjectId × SeqStatusPair)) :
    (items.filter (fun kv => kv.1 ≠ key)).lookup key = none := by
  induction items with
  | nil => rfl
  | cons a rest ih =>
    obtain ⟨ak, av⟩ := a
    by_cases h : ak = key
    · simp only [List.filter, h, ne_eq, not_true_eq_false, decide_False]
      exact ih
    · have hb : (key == ak) = false := by
        simp only [beq_eq_false_iff_ne, ne_eq]; exact fun hk => h hk.symm
      simp only [List.filter, h, ne_eq, not_false_eq_true, decide_True, List.lookup, hb]
      exact ih

theorem lookup_drop_append (key : ObjectId) (v : SeqStatusPair)
    (items : List (ObjectId × SeqStatusPair)) (hnone : items.lookup key = none) :
    ∀ j, ((items ++ [(key, v)]).drop j).lookup key = some v ∨
      ((items ++ [(key, v)]).drop j).lookup key = none := by
  induction items with
  | nil =>
    intro j
    cases j with
    | zero => left; simp [List.lookup]
    | succ j => right; simp
  | cons a rest ih =>
    obtain ⟨ak, av⟩ := a
    have hb : (key == ak) = false := by
      cases hbeq : (key == ak) with
      | false => rfl
      | true => simp [List.lookup, hbeq] at hnone
    have hrest : rest.lookup key = none := by
      simpa [List.lookup, hb] using hnone
    intro j
    cases j with
    | zero =>
      have := ih hrest 0
      simpa [List.lookup, hb] using this
    | succ j =>
      have := ih hrest j
      simpa using this

theorem length_filter_ne (key : ObjectId) (old : SeqStatusPair)
    (items : List (ObjectId × SeqStatusPair)) (hnodup : (items.map Prod.fst).Nodup)
    (hlook : items.lookup key = some old) :
    (items.filter (fun kv => kv.1 ≠ key)).length + 1 = items.length := by
  induction items with
  | nil => simp [List.lookup] at hlook
  | cons a rest ih =>
    obtain ⟨ak, av⟩ := a
    simp only [List.map_cons, List.nodup_cons, List.mem_map, not_exists, not_and] at hnodup
    by_cases h : ak = key
    · have hall : ∀ kv ∈ rest, decide (kv.1 ≠ key) = true := by
        intro kv hkv
        simp only [ne_eq, decide_eq_true_eq]
        intro hk
        exact hnodup.1 kv hkv (hk.trans h.symm)
      simp only [List.filter, h, ne_eq, not_true_eq_false, decide_False, List.length_cons]
      have := List.filter_eq_self.2 hall
      simp only [ne_eq] at this
      rw [this]
    · have hb : (key == ak) = false := by
        simp only [beq_eq_false_iff_ne, ne_eq]; exact fun hk => h hk.symm
      have hrest : rest.lookup key = some old := by
        simpa [List.lookup, hb] using hlook
      simp only [List.filter, h, ne_eq, not_false_eq_true, decide_True, List.length_cons]
      rw [ih hnodup.2 hrest]

theorem totalCost_append (cfg : Config) (xs ys : List (ObjectId × SeqStatusPair)) :
    totalCost cfg (xs ++ ys) = totalCost cfg xs + totalCost cfg ys := by
  simp only [totalCost, List.map_append, List.sum_append]

/-! ## Eviction -/

theorem not_settled_iff (cfg : Config) (items : List (ObjectId × SeqStatusPair)) :
    ¬ Settled cfg items ↔
      totalCost cfg items > cfg.maxSizeBytes ∧ items.length > cfg.minimumItems := by
  unfold Settled
  omega

theorem evict_of_settled (cfg : Config) (items : List (ObjectId × SeqStatusPair))
    (h : Settled cfg items) : evict cfg items = items := by
  cases items with
  | nil => rfl
  | cons a rest =>
    have hn : ¬ (totalCost cfg (a :: rest) > cfg.maxSizeBytes ∧
        (a :: rest).length > cfg.minimumItems) :=
      fun hc => (not_settled_iff cfg _).2 hc h
    simp only [evict, hn, ite_false]

theorem evict_eq_drop (cfg : Config) (items : List (ObjectId × SeqStatusPair)) :
    ∃ j, evict cfg items = items.drop j ∧ Settled cfg (items.drop j) ∧
      ∀ i, i < j → ¬ Settled cfg (items.drop i) := by
  induction items with
  | nil =>
    refine ⟨0, rfl, Or.inl ?_, fun i hi => absurd hi (Nat.not_lt_zero i)⟩
    simp [totalCost]
  | cons a rest ih =>
    by_cases hc : totalCost cfg (a :: rest) > cfg.maxSizeBytes ∧
        (a :: rest).length > cfg.minimumItems
    · obtain ⟨j, hj, hs, hmin⟩ := ih
      refine ⟨j + 1, ?_, hs, ?_⟩
      · simp only [evict, hc, and_self, ite_true, List.drop_succ_cons]
        exact hj
      · intro i hi
        cases i with
        | zero => exact (not_settled_iff cfg _).2 hc
        | succ i => exact hmin i (Nat.lt_of_succ_lt_succ hi)
    · refine ⟨0, ?_, ?_, fun i hi => absurd hi (Nat.not_lt_zero i)⟩
      · simp only [evict, hc, ite_false, List.drop_zero]
      · by_contra hns
        exact hc ((not_settled_iff cfg _).1 hns)

theorem settled_evict (cfg : Config) (items : List (ObjectId × SeqStatusPair)) :
    Settled cfg (evict cfg items) := by
  obtain ⟨j, hj, hs, -⟩ := evict_eq_drop cfg items
  rw [hj]; exact hs

/-! ## Insertion -/

theorem Cache.fulfilRegistered_items (c : Cache) (key : ObjectId) (v : SeqStatusPair) :
    (c.fulfilRegistered key v).items = c.items ∧
      (c.fulfilRegistered key v).config = c.config := by
  unfold Cache.fulfilRegistered
  split
  · exact ⟨rfl, rfl⟩
  · unfold Cache.setValue
    split <;> exact ⟨rfl, rfl⟩

theorem Cache.config_insert (c : Cache) (key : ObjectId) (v : SeqStatusPair) :
    (c.insert key v).config = c.config := by
  have hc := (c.fulfilRegistered_items key v).2
  unfold Cache.insert
  simp only
  split
  · exact hc
  · split
    · exact hc
    · exact hc

theorem Cache.insert_items_of_none (c : Cache) (key : ObjectId) (v : SeqStatusPair)
    (h : c.items.lookup key = none) :
    (c.insert key v).items = evict c.config (c.items ++ [(key, v)]) := by
  obtain ⟨hi, hc⟩ := c.fulfilRegistered_items key v
  unfold Cache.insert
  simp only [hi, h, hc]

theorem Cache.insert_items_of_gt (c : Cache) (key : ObjectId) (v old : SeqStatusPair)
    (h : c.items.lookup key = some old) (hgt : v.seq > old.seq) :
    (c.insert key v).items =
      evict c.config (c.items.filter (fun kv => kv.1 ≠ key) ++ [(key, v)]) := by
  obtain ⟨hi, hc⟩ := c.fulfilRegistered_items key v
  unfold Cache.insert
  simp only [hi, h, hc, hgt, ite_true]

theorem Cache.insert_items_of_le (c : Cache) (key : ObjectId) (v old : SeqStatusPair)
    (h : c.items.lookup key = some old) (hle : v.seq ≤ old.seq) :
    (c.insert key v).items = c.items := by
  obtain ⟨hi, -⟩ := c.fulfilRegistered_items key v
  have hn : ¬ v.seq > old.seq := Nat.not_lt.2 hle
  unfold Cache.insert
  simp only [hi, h, hn, ite_false]

theorem Cache.settled_insert (c : Cache) (key : ObjectId) (v : SeqStatusPair)
    (h : Settled c.config c.items) : Settled c.config (c.insert key v).items := by
  cases hl : c.items.lookup key with
  | none =>
    rw [c.insert_items_of_none key v hl]
    exact settled_evict _ _
  | some old =>
    by_cases hgt : v.seq > old.seq
    · rw [c.insert_items_of_gt key v old hl hgt]
      exact settled_evict _ _
    · rw [c.insert_items_of_le key v old hl (Nat.le_of_not_lt hgt)]
      exact h

theorem Cache.settled_insertAll (ops : List (ObjectId × SeqStatusPair)) :
    ∀ c : Cache, Settled c.config c.items →
      (c.insertAll ops).config = c.config ∧ Settled c.config (c.insertAll ops).items := by
  induction ops with
  | nil => intro c h; exact ⟨rfl, h⟩
  | cons op ops ih =>
    intro c h
    have hcfg := c.config_insert op.1 op.2
    have hstep := c.settled_insert op.1 op.2 h
    rw [← hcfg] at hstep
    obtain ⟨h₁, h₂⟩ := ih (c.insert op.1 op.2) hstep
    simp only [Cache.insertAll, List.foldl_cons] at h₁ h₂ ⊢
    rw [hcfg] at h₁ h₂
    exact ⟨h₁, h₂⟩

theorem Cache.lookup_insert_of_contains (c : Cache) (key : ObjectId) (v : SeqStatusPair)
    (hinst : c.items.lookup key = none ∨ ∃ old, c.items.lookup key = some old ∧ v.seq > old.seq)
    (hkept : (c.insert key v).contains key = true) :
    (c.insert key v).items.lookup key = some v := by
  have hsuffix : ∀ base : List (ObjectId × SeqStatusPair), base.lookup key = none →
      (c.insert key v).items = evict c.config (base ++ [(key, v)]) →
      (c.insert key v).items.lookup key = some v := by
    intro base hbase heq
    obtain ⟨j, hj, -, -⟩ := evict_eq_drop c.config (base ++ [(key, v)])
    rcases lookup_drop_append key v base hbase j with h | h
    · rw [heq, hj]; exact h
    · rw [Cache.contains, heq, hj, h] at hkept
      exact absurd hkept (by decide)
  rcases hinst with hnone | ⟨old, hold, hgt⟩
  · exact hsuffix c.items hnone (c.insert_items_of_none key v hnone)
  · exact hsuffix _ (lookup_filter_ne key c.items) (c.insert_items_of_gt key v old hold hgt)

theorem latest_mem_and_max (pairs : List SeqStatusPair) :
    ∀ first : SeqStatusPair, latest first pairs ∈ first :: pairs ∧
      ∀ w ∈ first :: pairs, w.seq ≤ (latest first pairs).seq := by
  induction pairs with
  | nil =>
    intro first
    simp [latest]
  | cons v vs ih =>
    intro first
    have hstep : latest first (v :: vs) = latest (if v.seq > first.seq then v else first) vs := rfl
    rw [hstep]
    obtain ⟨hmem, hmax⟩ := ih (if v.seq > first.seq then v else first)
    constructor
    · rcases List.mem_cons.1 hmem with h | h
      · rw [h]
        split
        · exact List.mem_cons_of_mem _ (List.mem_cons_self _ _)
        · exact List.mem_cons_self _ _
      · exact List.mem_cons_of_mem _ (List.mem_cons_of_mem _ h)
    · intro w hw
      have hbase := hmax _ (List.mem_cons_self _ _)
      rcases List.mem_cons.1 hw with h | h
      · rw [h]
        refine Nat.le_trans ?_ hbase
        split <;> omega
      · rcases List.mem_cons.1 h with h' | h'
        · rw [h']
          refine Nat.le_trans ?_ hbase
          split <;> omega
        · exact hmax w (List.mem_cons_of_mem _ h')

theorem Cache.lookup_insertSeq (key : ObjectId) (pairs : List SeqStatusPair) :
    ∀ (c : Cache) (stored : SeqStatusPair), c.items.lookup key = some stored →
      (∀ n, n ≤ pairs.length → (c.insertSeq key (pairs.take n)).contains key = true) →
      (c.insertSeq key pairs).items.lookup key = some (latest stored pairs) := by
  induction pairs with
  | nil => intro c stored h _; exact h
  | cons v vs ih =>
    intro c stored h hkept
    have hkept' : ∀ n, n ≤ vs.length →
        ((c.insert key v).insertSeq key (vs.take n)).contains key = true := by
      intro n hn
      exact hkept (n + 1) (Nat.succ_le_succ hn)
    have hone : (c.insert key v).contains key = true := hkept 1 (Nat.succ_le_succ (Nat.zero_le _))
    have hstep : latest stored (v :: vs) = latest (if v.seq > stored.seq then v else stored) vs :=
      rfl
    have hfold : c.insertSeq key (v :: vs) = (c.insert key v).insertSeq key vs := rfl
    rw [hfold, hstep]
    by_cases hgt : v.seq > stored.seq
    · rw [if_pos hgt]
      exact ih (c.insert key v) v
        (c.lookup_insert_of_contains key v (Or.inr ⟨stored, h, hgt⟩) hone) hkept'
    · rw [if_neg hgt]
      have hitems := c.insert_items_of_le key v stored h (Nat.le_of_not_lt hgt)
      exact ih (c.insert key v) stored (by rw [hitems]; exact h) hkept'

/-- C19 (cache sequence monotonicity). For inserts v, v₁, ..., vₙ under a key that the
cache did not contain, the key being contained after each of them (it is not evicted in
between), the pair stored at the end is one of the inserted pairs, its sequence is the
largest of the inserted sequences and its status is the one inserted with that sequence
(the first such pair). An insert whose sequence is at most the stored one leaves all
entries, hence the stored pair and the object count, as they were; insert is total, so no
insert raises an error. -/
theorem insert_sequence_monotone (c : Cache) (key : ObjectId) (v : SeqStatusPair)
    (vs : List SeqStatusPair) (habsent : c.contains key = false)
    (hkept : ∀ n, n ≤ vs.length → (c.insertSeq key (v :: vs.take n)).contains key = true) :
    (c.insertSeq key (v :: vs)).items.lookup key = some (latest v vs) ∧
    latest v vs ∈ v :: vs ∧
    (∀ w ∈ v :: vs, w.seq ≤ (latest v vs).seq) ∧
    (∀ (c' : Cache) (stored w : SeqStatusPair), c'.items.lookup key = some stored →
      w.seq ≤ stored.seq →
      (c'.insert key w).items = c'.items ∧
      (c'.insert key w).items.lookup key = some stored ∧
      (c'.insert key w).getObjectCount = c'.getObjectCount) := by
  have hnone : c.items.lookup key = none := by
    simpa [Cache.contains] using habsent
  have hfirst : (c.insert key v).items.lookup key = some v :=
    c.lookup_insert_of_contains key v (Or.inl hnone) (hkept 0 (Nat.zero_le _))
  refine ⟨?_, (latest_mem_and_max vs v).1, (latest_mem_and_max vs v).2, ?_⟩
  · exact Cache.lookup_insertSeq key vs (c.insert key v) v hfirst hkept
  · intro c' stored w hl hle
    have hitems := c'.insert_items_of_le key w stored hl hle
    exact ⟨hitems, by rw [hitems]; exact hl, by rw [Cache.getObjectCount, hitems]; rfl⟩

/-- Witness of C19: the first scenario of the test, inserts of sequence 5, then 4, then 6
under one key into an empty cache; the pair of sequence 6 is the one stored. -/
theorem insert_sequence_monotone_witness :
    ((create testConfig).contains [1, 35, 69] = false ∧
      ∀ n, n ≤ ([⟨4, ⟨[]⟩⟩, ⟨6, ⟨[]⟩⟩] : List SeqStatusPair).length →
        ((create testConfig).insertSeq [1, 35, 69]
          (⟨5, smallStatus⟩ :: ([⟨4, ⟨[]⟩⟩, ⟨6, ⟨[]⟩⟩] : List SeqStatusPair).take n)).contains
          [1, 35, 69] = true) ∧
    ((create testConfig).insertSeq [1, 35, 69]
        (⟨5, smallStatus⟩ :: [⟨4, ⟨[]⟩⟩, ⟨6, ⟨[]⟩⟩])).items.lookup [1, 35, 69] =
      some ⟨6, ⟨[]⟩⟩ := by
  have hkept : ∀ n, n ≤ ([⟨4, ⟨[]⟩⟩, ⟨6, ⟨[]⟩⟩] : List SeqStatusPair).length →
      ((create testConfig).insertSeq [1, 35, 69]
        (⟨5, smallStatus⟩ :: ([⟨4, ⟨[]⟩⟩, ⟨6, ⟨[]⟩⟩] : List SeqStatusPair).take n)).contains
        [1, 35, 69] = true := by
    intro n hn
    have h3 : n < 3 := Nat.lt_succ_of_le hn
    interval_cases n <;> rfl
  exact ⟨⟨rfl, hkept⟩,
    (insert_sequence_monotone (create testConfig) [1, 35, 69] ⟨5, smallStatus⟩
      [⟨4, ⟨[]⟩⟩, ⟨6, ⟨[]⟩⟩] rfl hkept).1⟩

/-- C20 (cache eviction bound). After any sequence of inserts into an empty cache, the
total accounted cost is at most max_size_bytes or the object count is at most
minimum_items; every insert keeps this true. Eviction removes least recently used entries
and stops at the first point where one of the two holds. So when one of N entries is
replaced by a pair whose cost alone exceeds max_size_bytes, minimum_items being N - 1,
exactly N - 1 objects are left. -/
theorem eviction_bound (cfg : Config) (ops : List (ObjectId × SeqStatusPair)) :
    (totalCost cfg ((create cfg).insertAll ops).items ≤ cfg.maxSizeBytes ∨
      ((create cfg).insertAll ops).getObjectCount ≤ cfg.minimumItems) ∧
    (∀ (c : Cache) (key : ObjectId) (v : SeqStatusPair),
      (totalCost c.config c.items ≤ c.config.maxSizeBytes ∨
        c.items.length ≤ c.config.minimumItems) →
      (totalCost c.config (c.insert key v).items ≤ c.config.maxSizeBytes ∨
        (c.insert key v).items.length ≤ c.config.minimumItems)) ∧
    (∀ items : List (ObjectId × SeqStatusPair),
      ∃ j, evict cfg items = items.drop j ∧
        (totalCost cfg (items.drop j) ≤ cfg.maxSizeBytes ∨
          (items.drop j).length ≤ cfg.minimumItems) ∧
        ∀ i, i < j →
          totalCost cfg (items.drop i) > cfg.maxSizeBytes ∧
            (items.drop i).length > cfg.minimumItems) ∧
    (∀ (c : Cache) (key : ObjectId) (stored v : SeqStatusPair),
      (c.items.map Prod.fst).Nodup → c.items.lookup key = some stored →
      stored.seq < v.seq → c.config.minimumItems = c.items.length - 1 →
      cost c.config v > c.config.maxSizeBytes →
      (c.insert key v).getObjectCount = c.items.length - 1) := by
  refine ⟨?_, fun c key v h => c.settled_insert key v h, ?_, ?_⟩
  · have h := Cache.settled_insertAll ops (create cfg) (Or.inl (by simp [create, totalCost]))
    exact h.2
  · intro items
    obtain ⟨j, hj, hs, hmin⟩ := evict_eq_drop cfg items
    exact ⟨j, hj, hs, fun i hi => (not_settled_iff cfg _).1 (hmin i hi)⟩
  · intro c key stored v hnodup hl hlt hmin hcost
    have hlen := length_filter_ne key stored c.items hnodup hl
    rw [Cache.getObjectCount, c.insert_items_of_gt key v stored hl hlt]
    generalize hbase : c.items.filter (fun kv => kv.1 ≠ key) = base at hlen
    have hcostL : totalCost c.config (base ++ [(key, v)]) > c.config.maxSizeBytes := by
      rw [totalCost_append]
      have : totalCost c.config [(key, v)] = cost c.config v := by simp [totalCost]
      omega
    have hlenL : (base ++ [(key, v)]).length = c.items.length := by
      rw [List.length_append, List.length_singleton]; exact hlen
    cases hL : base ++ [(key, v)] with
    | nil => simp at hL
    | cons a rest =>
      rw [hL] at hcostL hlenL
      have hrestlen : rest.length = c.items.length - 1 := by
        simp only [List.length_cons] at hlenL; omega
      have hcond : totalCost c.config (a :: rest) > c.config.maxSizeBytes ∧
          (a :: rest).length > c.config.minimumItems := by
        refine ⟨hcostL, ?_⟩
        simp only [List.length_cons]; omega
      have hsettled : Settled c.config rest := Or.inr (by omega)
      simp only [evict, hcond, and_self, ite_true]
      rw [evict_of_settled _ _ hsettled, hrestlen]

/-- Evaluation of C20 on the test evict_on_update: four items of 122 bytes in a cache of
600 bytes with a minimum of three items; replacing the first key by the status with one
hundred entries leaves three objects. -/
theorem eviction_bound_witness :
    (((create testConfig).insertAll
        [([0], ⟨0, smallStatus⟩), ([1], ⟨1, smallStatus⟩), ([2], ⟨2, smallStatus⟩),
          ([3], ⟨3, smallStatus⟩)]).insert [0] ⟨1, largeStatus⟩).getObjectCount = 3 :=
  (eviction_bound testConfig []).2.2.2
    ((create testConfig).insertAll
      [([0], ⟨0, smallStatus⟩), ([1], ⟨1, smallStatus⟩), ([2], ⟨2, smallStatus⟩),
        ([3], ⟨3, smallStatus⟩)])
    [0] ⟨0, smallStatus⟩ ⟨1, largeStatus⟩ (by decide) rfl (by decide) rfl (by decide)

end ScmStatusCache

namespace EdenServiceHandler

theorem mem_insertRange (range : List HgImporter.ByteString) :
    ∀ (set : List HgImporter.ByteString) (p : HgImporter.ByteString),
      p ∈ insertRange set range ↔ p ∈ set ∨ p ∈ range := by
  induction range with
  | nil => intro set p; simp [insertRange]
  | cons q qs ih =>
    intro set p
    have hstep : insertRange set (q :: qs) =
        insertRange (if q ∈ set then set else set ++ [q]) qs := rfl
    rw [hstep, ih]
    by_cases hq : q ∈ set
    · simp only [hq, ite_true, List.mem_cons]
      constructor
      · rintro (h | h)
        · exact Or.inl h
        · exact Or.inr (Or.inr h)
      · rintro (h | h | h)
        · exact Or.inl h
        · exact Or.inl (h ▸ hq)
        · exact Or.inr h
    · simp only [hq, ite_false, List.mem_append, List.mem_singleton, List.mem_cons]
      tauto

theorem nodup_insertRange (range : List HgImporter.ByteString) :
    ∀ set : List HgImporter.ByteString, set.Nodup → (insertRange set range).Nodup := by
  induction range with
  | nil => intro set h; exact h
  | cons q qs ih =>
    intro set h
    have hstep : insertRange set (q :: qs) =
        insertRange (if q ∈ set then set else set ++ [q]) qs := rfl
    rw [hstep]
    apply ih
    by_cases hq : q ∈ set
    · simp only [hq, ite_true]; exact h
    · simp only [hq, ite_false]
      exact List.Nodup.append h (List.nodup_singleton q)
        (by
          intro x hx hx'
          rw [List.mem_singleton] at hx'
          exact hq (hx' ▸ hx))

theorem walkDeltas_spec (sequenceNumber mountGeneration : Nat) (deltas : List JournalDelta) :
    ∀ (changedFiles : List HgImporter.ByteString) (fromPosition : JournalPosition),
      changedFiles.Nodup →
      (walkDeltas sequenceNumber mountGeneration deltas (changedFiles, fromPosition)).1.Nodup ∧
      (∀ p, p ∈ (walkDeltas sequenceNumber mountGeneration deltas
            (changedFiles, fromPosition)).1 ↔
          p ∈ changedFiles ∨
            ∃ d ∈ deltas.takeWhile (fun delta => ¬ delta.toSequence ≤ sequenceNumber),
              p ∈ d.changedFilesInOverlay) ∧
      (walkDeltas sequenceNumber mountGeneration deltas (changedFiles, fromPosition)).2 =
        match (deltas.takeWhile (fun delta => ¬ delta.toSequence ≤ sequenceNumber)).getLast? with
        | none => fromPosition
        | some d => ⟨mountGeneration, d.fromSequence, d.fromHash.getBytes⟩ := by
  induction deltas with
  | nil =>
    intro changedFiles fromPosition h
    simp [walkDeltas, h]
  | cons delta previous ih =>
    intro changedFiles fromPosition h
    by_cases hstop : delta.toSequence ≤ sequenceNumber
    · simp [walkDeltas, hstop, h, List.takeWhile]
    · obtain ⟨h₁, h₂, h₃⟩ := ih (insertRange changedFiles delta.changedFilesInOverlay)
        ⟨mountGeneration, delta.fromSequence, delta.fromHash.getBytes⟩
        (nodup_insertRange _ _ h)
      have htake : (delta :: previous).takeWhile
            (fun delta => ¬ delta.toSequence ≤ sequenceNumber) =
          delta :: previous.takeWhile (fun delta => ¬ delta.toSequence ≤ sequenceNumber) := by
        simp [List.takeWhile, hstop]
      simp only [walkDeltas, hstop, ite_false, htake]
      refine ⟨h₁, ?_, ?_⟩
      · intro p
        rw [h₂ p, mem_insertRange]
        simp only [List.mem_cons, exists_eq_or_imp]
        tauto
      · rw [h₃]
        cases hl : previous.takeWhile (fun delta => ¬ delta.toSequence ≤ sequenceNumber) with
        | nil => simp
        | cons d ds =>
          obtain ⟨x, hx⟩ : ∃ x, (d :: ds).getLast? = some x :=
            ⟨_, List.getLast?_eq_getLast _ (List.cons_ne_nil _ _)⟩
          rw [List.getLast?_cons_cons, hx]

/-- C29 (files changed since a position). When the generation of fromPosition is that of
the mount, getFilesChangedSince returns a FileDelta whose toPosition holds the generation
of the mount and the toSequence and toHash of the latest delta, whose paths hold, each
exactly once, precisely the paths in changedFilesInOverlay of the deltas visited (those
before the first delta, walking backwards from the latest, whose toSequence is at most
fromPosition.sequenceNumber), and whose fromPosition holds the fromSequence and fromHash
of the oldest visited delta, or equals toPosition when no delta was visited, the paths
being empty then. When the generations differ it throws the error ERANGE. -/
theorem getFilesChangedSince_spec (edenMount : EdenMount) (fromPosition : JournalPosition) :
    (fromPosition.mountGeneration = edenMount.mountGeneration →
      ∃ out, getFilesChangedSince edenMount fromPosition = .ok out ∧
        out.toPosition = ⟨edenMount.mountGeneration, edenMount.journal.latest.toSequence,
          edenMount.journal.latest.toHash.getBytes⟩ ∧
        out.paths.Nodup ∧
        (∀ p, p ∈ out.paths ↔
          ∃ d ∈ visitedDeltas edenMount fromPosition, p ∈ d.changedFilesInOverlay) ∧
        out.fromPosition =
          (match (visitedDeltas edenMount fromPosition).getLast? with
            | none => out.toPosition
            | some d => ⟨edenMount.mountGeneration, d.fromSequence, d.fromHash.getBytes⟩) ∧
        (visitedDeltas edenMount fromPosition = [] → out.paths = [])) ∧
    (fromPosition.mountGeneration ≠ edenMount.mountGeneration →
      getFilesChangedSince edenMount fromPosition = .error ⟨ERANGE⟩) := by
  constructor
  · intro hgen
    obtain ⟨h₁, h₂, h₃⟩ := walkDeltas_spec fromPosition.sequenceNumber
      edenMount.mountGeneration (edenMount.journal.latest :: edenMount.journal.previous) []
      ⟨edenMount.mountGeneration, edenMount.journal.latest.toSequence,
        edenMount.journal.latest.toHash.getBytes⟩ List.nodup_nil
    rcases hw : walkDeltas fromPosition.sequenceNumber edenMount.mountGeneration
      (edenMount.journal.latest :: edenMount.journal.previous)
      ([], ⟨edenMount.mountGeneration, edenMount.journal.latest.toSequence,
        edenMount.journal.latest.toHash.getBytes⟩) with ⟨changedFiles, pos⟩
    rw [hw] at h₁ h₂ h₃
    simp only at h₁ h₂ h₃
    have hmem : ∀ p, p ∈ changedFiles ↔
        ∃ d ∈ visitedDeltas edenMount fromPosition, p ∈ d.changedFilesInOverlay := by
      intro p
      rw [h₂ p]
      simp only [List.not_mem_nil, false_or, visitedDeltas]
    refine ⟨⟨pos, _, changedFiles⟩, ?_, rfl, h₁, hmem, h₃, ?_⟩
    · simp only [getFilesChangedSince, hgen, ne_eq, not_true_eq_false, ite_false, hw]
    · intro hnone
      apply List.eq_nil_iff_forall_not_mem.2
      intro p hp
      obtain ⟨d, hd, -⟩ := (hmem p).1 hp
      rw [hnone] at hd
      exact absurd hd (List.not_mem_nil d)
  · intro hgen
    simp only [getFilesChangedSince, hgen, ne_eq, not_false_eq_true, ite_true]

/-- Evaluation of C29 on a journal of three deltas of sequences 5 to 6, 4 to 5 and 3 to 4,
asked for the changes since sequence 4: the deltas visited are the first two, the path
"a", which both changed, is reported once, and fromPosition is the start of the second
delta. -/
theorem getFilesChangedSince_spec_witness :
    getFilesChangedSince exampleMount ⟨7, 4, []⟩ =
      .ok ⟨⟨7, 4, (HgImporter.Hash.replicate 4).getBytes⟩,
        ⟨7, 6, (HgImporter.Hash.replicate 6).getBytes⟩, [[97], [98], [99]]⟩ ∧
    getFilesChangedSince exampleMount ⟨8, 4, []⟩ = .error ⟨ERANGE⟩ :=
  ⟨rfl, (getFilesChangedSince_spec exampleMount ⟨8, 4, []⟩).2 (by decide)⟩

end EdenServiceHandler

namespace HgImporter

/-! ## The entry format, read backwards -/

theorem Cursor.pullHash_inv (cursor rest : Cursor) (h : Hash)
    (hpull : Cursor.pullHash cursor = .ok (h, rest)) : cursor = h.getBytes ++ rest := by
  unfold Cursor.pullHash at hpull
  by_cases hlen : RAW_SIZE ≤ cursor.length
  · simp only [hlen, dite_true, Except.ok.injEq, Prod.mk.injEq] at hpull
    rw [← hpull.1, ← hpull.2]
    exact (List.take_append_drop RAW_SIZE cursor).symm
  · simp [hlen] at hpull

theorem Cursor.read_inv (cursor rest : Cursor) (b : UInt8)
    (hread : Cursor.read cursor = .ok (b, rest)) : cursor = b :: rest := by
  cases cursor with
  | nil => simp [Cursor.read] at hread
  | cons c cs =>
    simp only [Cursor.read, Except.ok.injEq, Prod.mk.injEq] at hread
    rw [hread.1, hread.2]

theorem Cursor.readTerminatedString_inv (cursor : Cursor) :
    ∀ (str : ByteString) (rest : Cursor),
      Cursor.readTerminatedString cursor = .ok (str, rest) →
      cursor = str ++ CHAR_NUL :: rest ∧ CHAR_NUL ∉ str := by
  induction cursor with
  | nil => intro str rest h; simp [Cursor.readTerminatedString] at h
  | cons b tl ih =>
    intro str rest h
    simp only [Cursor.readTerminatedString] at h
    split at h
    · rename_i hb
      simp only [Except.ok.injEq, Prod.mk.injEq] at h
      rw [← h.1, ← h.2, hb]
      exact ⟨rfl, List.not_mem_nil _⟩
    · rename_i hb
      split at h
      · simp at h
      · rename_i s c hrec
        simp only [Except.ok.injEq, Prod.mk.injEq] at h
        obtain ⟨htl, hnul⟩ := ih s c hrec
        rw [← h.1, ← h.2]
        refine ⟨by rw [List.cons_append, ← htl], ?_⟩
        intro hmem
        rcases List.mem_cons.1 hmem with h0 | h0
        · exact hb h0.symm
        · exact hnul h0

theorem readManifestEntryFields_inv (cursor : Cursor) (h : Hash) (flag : UInt8)
    (p : ByteString) (rest : Cursor)
    (hparse : readManifestEntryFields cursor = .ok (h, flag, p, rest)) :
    CHAR_NUL ∉ p ∧
      ((flag = CHAR_SPACE ∧
          cursor = h.getBytes ++ CHAR_TAB :: CHAR_TAB :: (p ++ CHAR_NUL :: rest)) ∨
        (flag ≠ CHAR_TAB ∧
          cursor = h.getBytes ++ CHAR_TAB :: flag :: CHAR_TAB :: (p ++ CHAR_NUL :: rest))) := by
  unfold readManifestEntryFields at hparse
  split at hparse
  · simp at hparse
  · rename_i fh c₁ h₁
    have e₁ := Cursor.pullHash_inv cursor c₁ fh h₁
    split at hparse
    · simp at hparse
    · rename_i sep c₂ h₂
      have e₂ := Cursor.read_inv c₁ c₂ sep h₂
      split at hparse
      · simp at hparse
      · rename_i hsep
        have hsep' : sep = CHAR_TAB := by
          by_contra hne; exact hsep hne
        split at hparse
        · simp at hparse
        · rename_i fb c₃ h₃
          have e₃ := Cursor.read_inv c₂ c₃ fb h₃
          simp only at hparse
          split at hparse
          · simp at hparse
          · rename_i f' c₄ hflag
            split at hparse
            · simp at hparse
            · rename_i str c₅ hstr
              simp only [Except.ok.injEq, Prod.mk.injEq] at hparse
              obtain ⟨hh, hf, hp, hr⟩ := hparse
              subst hh hf hp hr
              obtain ⟨e₅, hnul⟩ := Cursor.readTerminatedString_inv c₄ str c₅ hstr
              refine ⟨hnul, ?_⟩
              split at hflag
              · rename_i hfb
                simp only [Except.ok.injEq, Prod.mk.injEq] at hflag
                left
                refine ⟨hflag.1.symm, ?_⟩
                rw [e₁, e₂, e₃, hsep', hfb, hflag.2, e₅]
              · rename_i hfb
                split at hflag
                · simp at hflag
                · rename_i sep' c₃' h₃'
                  have e₃' := Cursor.read_inv c₃ c₃' sep' h₃'
                  split at hflag
                  · simp at hflag
                  · rename_i hsep₂
                    have hsep₂' : sep' = CHAR_TAB := by
                      by_contra hne; exact hsep₂ hne
                    simp only [Except.ok.injEq, Prod.mk.injEq] at hflag
                    right
                    refine ⟨by rw [← hflag.1]; exact hfb, ?_⟩
                    rw [e₁, e₂, e₃, hsep', e₃', hsep₂', hflag.2, e₅, hflag.1]

theorem fileTypeOfFlag_ne_none (flag : UInt8) (h : fileTypeOfFlag flag ≠ none) :
    flag = CHAR_SPACE ∨ flag = CHAR_X ∨ flag = CHAR_L := by
  by_contra hne
  simp only [not_or] at hne
  exact h (fileTypeOfFlag_eq_none flag hne.1 hne.2.1 hne.2.2)

/-- Counterexample to C27 as stated: an entry with an explicit ' ' in flag position,
hash tab ' ' tab "b" NUL, is accepted and registered as a regular file. -/
theorem readManifestEntry_explicit_space_accepted :
    (readManifestEntry exampleExternals LocalStore.empty ⟨[]⟩
        ((Hash.replicate 1).getBytes ++ [CHAR_TAB, CHAR_SPACE, CHAR_TAB, 98, CHAR_NUL])).1 =
      .ok [] ∧
    (readManifestEntry exampleExternals LocalStore.empty ⟨[]⟩
        ((Hash.replicate 1).getBytes ++
          [CHAR_TAB, CHAR_SPACE, CHAR_TAB, 98, CHAR_NUL])).2.2.entries.map
        (fun r => (r.2.name, r.2.fileType, r.2.ownerPermissions)) =
      [([98], FileType.REGULAR_FILE, 0b110)] := by
  constructor <;> rfl

/-- C27, amended. The method readManifestEntry succeeds on the remaining chunk bytes if
and only if they begin with 20 hash bytes, then a tab, then either a tab alone or a flag
byte out of 'x', 'l', ' ' followed by a tab, then a path without NUL that is accepted as a
relative path, then a NUL; in every other case it throws, and whenever it throws the
byte-store and the manifest importer are as they were. -/
theorem readManifestEntry_succeeds_iff (env : Externals) (store : LocalStore)
    (importer : HgManifestImporter) (cursor : Cursor) :
    ((∃ rest store' importer',
        readManifestEntry env store importer cursor = (.ok rest, store', importer')) ↔
      ∃ (h : Hash) (flagBytes p rest : ByteString),
        (flagBytes = [] ∨ flagBytes = [CHAR_X] ∨ flagBytes = [CHAR_L] ∨
          flagBytes = [CHAR_SPACE]) ∧
        CHAR_NUL ∉ p ∧ env.sanityCheck p = true ∧
        cursor = h.getBytes ++ [CHAR_TAB] ++ flagBytes ++ [CHAR_TAB] ++ p ++ [CHAR_NUL] ++ rest) ∧
    (∀ (e : Error) (store' : LocalStore) (importer' : HgManifestImporter),
      readManifestEntry env store importer cursor = (.error e, store', importer') →
      store' = store ∧ importer' = importer) ∧
    ((∃ rest store' importer',
        readManifestEntry env store importer cursor = (.ok rest, store', importer')) ∨
      ∃ e, readManifestEntry env store importer cursor = (.error e, store, importer)) := by
  refine ⟨⟨?_, ?_⟩, fun e store' importer' h =>
    readManifestEntry_error_state env store store' importer importer' cursor e h, ?_⟩
  · rintro ⟨rest, store', importer', hok⟩
    obtain ⟨h, flag, p, hparse, hflag, hvalid⟩ :=
      readManifestEntry_ok_inv env store store' importer importer' cursor rest hok
    obtain ⟨hnul, hshape⟩ := readManifestEntryFields_inv cursor h flag p rest hparse
    rcases hshape with ⟨-, hcur⟩ | ⟨-, hcur⟩
    · refine ⟨h, [], p, rest, Or.inl rfl, hnul, hvalid, ?_⟩
      rw [hcur]
      simp only [List.append_assoc, List.singleton_append, List.nil_append, List.cons_append]
    · have hf := fileTypeOfFlag_ne_none flag hflag
      refine ⟨h, [flag], p, rest, ?_, hnul, hvalid, ?_⟩
      · rcases hf with hf | hf | hf
        · exact Or.inr (Or.inr (Or.inr (by rw [hf])))
        · exact Or.inr (Or.inl (by rw [hf]))
        · exact Or.inr (Or.inr (Or.inl (by rw [hf])))
      · rw [hcur]
        simp only [List.append_assoc, List.singleton_append, List.nil_append, List.cons_append]
  · rintro ⟨h, flagBytes, p, rest, hfb, hnul, hvalid, hcur⟩
    rw [hcur]
    simp only [List.append_assoc, List.singleton_append, List.nil_append, List.cons_append]
    rcases hfb with hfb | hfb | hfb | hfb <;> subst hfb <;>
      simp only [List.append_assoc, List.singleton_append, List.nil_append, List.cons_append]
    · exact ⟨_, _, _, readManifestEntry_of_fields env store importer _ _ _ _ _ _ _
        (readManifestEntryFields_flagless h p rest hnul) rfl hvalid⟩
    · exact ⟨_, _, _, readManifestEntry_of_fields env store importer _ _ _ _ _ _ _
        (readManifestEntryFields_flagged h CHAR_X p rest (by decide) hnul) rfl hvalid⟩
    · exact ⟨_, _, _, readManifestEntry_of_fields env store importer _ _ _ _ _ _ _
        (readManifestEntryFields_flagged h CHAR_L p rest (by decide) hnul) rfl hvalid⟩
    · exact ⟨_, _, _, readManifestEntry_of_fields env store importer _ _ _ _ _ _ _
        (readManifestEntryFields_flagged h CHAR_SPACE p rest (by decide) hnul) rfl hvalid⟩
  · rcases hr : readManifestEntry env store importer cursor with ⟨res, store', importer'⟩
    cases res with
    | error e =>
      obtain ⟨hs, hi⟩ := readManifestEntry_error_state env store store' importer importer'
        cursor e hr
      exact Or.inr ⟨e, by rw [hs, hi]⟩
    | ok rest => exact Or.inl ⟨rest, store', importer', rfl⟩

/-- Evaluation of C27, amended: an entry whose twentieth byte is not a tab is rejected
and nothing is stored or registered. -/
theorem readManifestEntry_succeeds_iff_witness :
    readManifestEntry exampleExternals LocalStore.empty ⟨[]⟩
        ((Hash.replicate 1).getBytes ++ [32, 98, CHAR_NUL]) =
      (.error (.unexpectedSeparator 32), LocalStore.empty, ⟨[]⟩) ∧
    (∀ store' importer',
      readManifestEntry exampleExternals LocalStore.empty ⟨[]⟩
          ((Hash.replicate 1).getBytes ++ [32, 98, CHAR_NUL]) =
        (.error (.unexpectedSeparator 32), store', importer') →
      store' = LocalStore.empty ∧ importer' = ⟨[]⟩) :=
  ⟨rfl, fun store' importer' h =>
    (readManifestEntry_succeeds_iff exampleExternals LocalStore.empty ⟨[]⟩
      ((Hash.replicate 1).getBytes ++ [32, 98, CHAR_NUL])).2.1 _ store' importer' h⟩

/-! ## The reusable chunk buffer -/

end HgImporter

namespace ScmStatusCache

/-! ## Keys of the completed entries -/

theorem lookup_eq_none_of_not_mem (key : ObjectId) (items : List (ObjectId × SeqStatusPair))
    (h : key ∉ items.map Prod.fst) : items.lookup key = none := by
  rw [List.lookup_eq_none_iff]
  intro p hp
  simp only [bne_iff_ne, ne_eq]
  intro hk
  exact h (List.mem_map.2 ⟨p, hp, hk.symm⟩)

theorem not_mem_of_lookup_eq_none (key : ObjectId) (items : List (ObjectId × SeqStatusPair))
    (h : items.lookup key = none) : key ∉ items.map Prod.fst := by
  rw [List.lookup_eq_none_iff] at h
  intro hm
  obtain ⟨p, hp, hk⟩ := List.mem_map.1 hm
  have hne := h p hp
  simp only [bne_iff_ne, ne_eq] at hne
  exact hne hk.symm

theorem lookup_eq_some_iff_mem (key : ObjectId) (v : SeqStatusPair)
    (items : List (ObjectId × SeqStatusPair)) (hnodup : (items.map Prod.fst).Nodup) :
    items.lookup key = some v ↔ (key, v) ∈ items := by
  induction items with
  | nil => simp
  | cons a rest ih =>
    obtain ⟨ak, av⟩ := a
    simp only [List.map_cons, List.nodup_cons] at hnodup
    by_cases h : key = ak
    · subst h
      simp only [List.lookup_cons, beq_self_eq_true, Option.some.injEq, List.mem_cons,
        Prod.mk.injEq, true_and]
      constructor
      · intro h; exact Or.inl h.symm
      · rintro (h | h)
        · exact h.symm
        · exact absurd (List.mem_map.2 ⟨_, h, rfl⟩) hnodup.1
    · have hb : (key == ak) = false := by simpa using h
      simp only [List.lookup_cons, hb, List.mem_cons, Prod.mk.injEq, h, false_and, false_or]
      exact ih hnodup.2

theorem totalCost_of_equal_cost (cfg : Config) (c : Nat) (ops : List (ObjectId × SeqStatusPair))
    (h : ∀ op ∈ ops, cost cfg op.2 = c) : totalCost cfg ops = ops.length * c := by
  induction ops with
  | nil => simp [totalCost]
  | cons a rest ih =>
    have h1 := h a (List.mem_cons_self _ _)
    have h2 := ih (fun op hop => h op (List.mem_cons_of_mem _ hop))
    simp only [totalCost, List.map_cons, List.sum_cons, List.length_cons] at h2 ⊢
    rw [h1, h2]; ring

theorem Cache.insertAll_of_fits (ops : List (ObjectId × SeqStatusPair)) :
    ∀ c : Cache, ((c.items ++ ops).map Prod.fst).Nodup →
      totalCost c.config (c.items ++ ops) ≤ c.config.maxSizeBytes →
      (c.insertAll ops).items = c.items ++ ops ∧ (c.insertAll ops).config = c.config := by
  induction ops with
  | nil => intro c _ _; simp [Cache.insertAll]
  | cons op ops ih =>
    intro c hnodup hfit
    obtain ⟨k, v⟩ := op
    have hsplit : c.items ++ (k, v) :: ops = (c.items ++ [(k, v)]) ++ ops := by simp
    rw [hsplit] at hnodup hfit
    have hnone : c.items.lookup k = none := by
      apply lookup_eq_none_of_not_mem
      intro hm
      simp only [List.map_append, List.map_cons, List.map_nil, List.append_assoc] at hnodup
      have hd := (List.nodup_append.1 hnodup).2.2
      exact hd hm (List.mem_append_left _ (List.mem_singleton_self k))
    have hitems : (c.insert k v).items = c.items ++ [(k, v)] := by
      rw [c.insert_items_of_none k v hnone]
      apply evict_of_settled
      left
      rw [totalCost_append] at hfit
      omega
    have hcfg := c.config_insert k v
    obtain ⟨h₁, h₂⟩ := ih (c.insert k v) (by rw [hitems]; exact hnodup)
      (by rw [hitems, hcfg]; exact hfit)
    refine ⟨?_, ?_⟩
    · simp only [Cache.insertAll, List.foldl_cons] at h₁ ⊢
      rw [h₁, hitems, hsplit]
    · simp only [Cache.insertAll, List.foldl_cons] at h₂ ⊢
      rw [h₂, hcfg]

/-- Evaluation for C21: with max_size_bytes 600 and items of 122 bytes, four items fit; in a
cache whose minimum_items is five, the fifth insert evicts nothing: five objects are left
and the first key is still contained. -/
theorem lru_eviction_stops_at_minimum_items :
    cost roomyConfig ⟨1, smallStatus⟩ = 122 ∧ roomyConfig.maxSizeBytes / 122 = 4 ∧
    (fiveInserts.map Prod.fst).Nodup ∧
    (∀ op ∈ fiveInserts, cost roomyConfig op.2 = 122) ∧
    fiveInserts.length = roomyConfig.maxSizeBytes / 122 + 1 ∧
    ((create roomyConfig).insertAll fiveInserts).getObjectCount = 5 ∧
    ((create roomyConfig).insertAll fiveInserts).contains [1] = true := by
  refine ⟨rfl, rfl, by decide, by decide, rfl, rfl, rfl⟩

/-- C21 (LRU eviction order), amended. Eviction removes a prefix of the completed entries
in recency order, least recently used first. For every item cost c, with
N = floor(max_size_bytes / c) and minimum_items at most N: when N + 1 distinct keys are
inserted with values of cost c into an empty cache, with no get in between, the object
count after m inserts is m for every m up to N, and after the last insert exactly N
objects are left, those of all keys but the first one inserted, in the order of their
insertion. -/
theorem lru_eviction_order (cfg : Config) (c : Nat) (ops : List (ObjectId × SeqStatusPair))
    (hkeys : (ops.map Prod.fst).Nodup) (hcost : ∀ op ∈ ops, cost cfg op.2 = c)
    (hlen : ops.length = cfg.maxSizeBytes / c + 1)
    (hmin : cfg.minimumItems ≤ cfg.maxSizeBytes / c) :
    (∀ items, ∃ j, evict cfg items = items.drop j) ∧
    (∀ m, m ≤ cfg.maxSizeBytes / c →
      ((create cfg).insertAll (ops.take m)).getObjectCount = m ∧
      ((create cfg).insertAll (ops.take m)).items = ops.take m) ∧
    ((create cfg).insertAll ops).getObjectCount = cfg.maxSizeBytes / c ∧
    ((create cfg).insertAll ops).items = ops.drop 1 ∧
    (∀ first ∈ ops.head?, ((create cfg).insertAll ops).contains first.1 = false) ∧
    (∀ op ∈ ops.drop 1, ((create cfg).insertAll ops).contains op.1 = true) := by
  have hfits : ∀ m, m ≤ cfg.maxSizeBytes / c →
      ((create cfg).insertAll (ops.take m)).items = ops.take m ∧
      ((create cfg).insertAll (ops.take m)).config = cfg := by
    intro m hm
    have hsub : ((ops.take m).map Prod.fst).Nodup :=
      List.Nodup.sublist ((List.take_sublist m ops).map Prod.fst) hkeys
    have hcostm : totalCost cfg (ops.take m) = (ops.take m).length * c :=
      totalCost_of_equal_cost cfg c _ (fun op hop => hcost op (List.mem_of_mem_take hop))
    have hlenm : (ops.take m).length = m := by
      rw [List.length_take, hlen]; omega
    have hle : m * c ≤ cfg.maxSizeBytes :=
      Nat.le_trans (Nat.mul_le_mul_right c hm) (Nat.div_mul_le_self _ _)
    have h := Cache.insertAll_of_fits (ops.take m) (create cfg)
      (by simpa [create] using hsub)
      (by simp only [create, List.nil_append]; rw [hcostm, hlenm]; exact hle)
    simpa [create] using h
  have hall : ((create cfg).insertAll ops).items = ops.drop 1 := by
    obtain ⟨hitems, hcfg⟩ := hfits (cfg.maxSizeBytes / c) (Nat.le_refl _)
    generalize hN : cfg.maxSizeBytes / c = N at *
    have hsplit : ops = ops.take N ++ ops.drop N := (List.take_append_drop N ops).symm
    have hdroplen : (ops.drop N).length = 1 := by rw [List.length_drop, hlen]; omega
    obtain ⟨x, hx⟩ := List.length_eq_one.1 hdroplen
    rw [hx] at hsplit
    have hrun : (create cfg).insertAll ops =
        ((create cfg).insertAll (ops.take N)).insert x.1 x.2 := by
      conv_lhs => rw [hsplit]
      simp only [Cache.insertAll, List.foldl_append, List.foldl_cons, List.foldl_nil]
    have hnone : ((create cfg).insertAll (ops.take N)).items.lookup x.1 = none := by
      rw [hitems]
      apply lookup_eq_none_of_not_mem
      intro hm
      rw [hsplit] at hkeys
      simp only [List.map_append, List.map_cons, List.map_nil] at hkeys
      exact (List.nodup_append.1 hkeys).2.2 hm (List.mem_singleton_self _)
    rw [hrun, Cache.insert_items_of_none _ _ _ hnone, hitems, hcfg]
    have hback : ops.take N ++ [(x.1, x.2)] = ops := hsplit.symm
    rw [hback]
    cases hops : ops with
    | nil => rw [hops] at hlen; simp at hlen
    | cons a rest =>
      rw [hops] at hlen hcost
      have hrestlen : rest.length = N := by simpa using hlen
      have hc8 : 8 ≤ c := by
        have := hcost a (List.mem_cons_self _ _)
        unfold cost at this
        omega
      have hcostall : totalCost cfg (a :: rest) = (a :: rest).length * c :=
        totalCost_of_equal_cost cfg c _ hcost
      have hcostrest : totalCost cfg rest = rest.length * c :=
        totalCost_of_equal_cost cfg c _ (fun op hop => hcost op (List.mem_cons_of_mem _ hop))
      have hover : cfg.maxSizeBytes < c * (cfg.maxSizeBytes / c + 1) :=
        Nat.lt_mul_div_succ _ (by omega)
      have hunder : cfg.maxSizeBytes / c * c ≤ cfg.maxSizeBytes := Nat.div_mul_le_self _ _
      rw [hN] at hover hunder
      have hcond : totalCost cfg (a :: rest) > cfg.maxSizeBytes ∧
          (a :: rest).length > cfg.minimumItems := by
        rw [hcostall, List.length_cons, hrestlen]
        constructor
        · rw [Nat.mul_comm]; exact hover
        · omega
      have hsettled : Settled cfg rest := Or.inl (by rw [hcostrest, hrestlen]; exact hunder)
      simp only [evict, hcond, and_self, ite_true, List.drop_succ_cons, List.drop_zero]
      exact evict_of_settled _ _ hsettled
  refine ⟨fun items => ?_, fun m hm => ?_, ?_, hall, ?_, ?_⟩
  · obtain ⟨j, hj, -⟩ := evict_eq_drop cfg items
    exact ⟨j, hj⟩
  · obtain ⟨hitems, -⟩ := hfits m hm
    refine ⟨?_, hitems⟩
    rw [Cache.getObjectCount, hitems, List.length_take, hlen]; omega
  · rw [Cache.getObjectCount, hall, List.length_drop, hlen]; omega
  · intro first hfirst
    rw [Cache.contains, hall]
    cases hops : ops with
    | nil => rw [hops] at hfirst; simp at hfirst
    | cons a rest =>
      rw [hops] at hfirst hkeys
      simp only [List.head?_cons, Option.mem_def, Option.some.injEq] at hfirst
      subst hfirst
      simp only [List.map_cons, List.nodup_cons] at hkeys
      simp only [List.drop_succ_cons, List.drop_zero]
      rw [lookup_eq_none_of_not_mem _ _ hkeys.1]
      rfl
  · intro op hop
    rw [Cache.contains, hall]
    cases hl : (ops.drop 1).lookup op.1 with
    | some v => rfl
    | none =>
      exact absurd (List.mem_map.2 ⟨op, hop, rfl⟩) (not_mem_of_lookup_eq_none _ _ hl)

/-- Witness of C21: the test evict_when_cache_size_too_large on Linux, five inserts of
items of 122 bytes into a cache of 600 bytes with a minimum of three items. -/
theorem lru_eviction_order_witness :
    ((fiveInserts.map Prod.fst).Nodup ∧ (∀ op ∈ fiveInserts, cost testConfig op.2 = 122) ∧
      fiveInserts.length = testConfig.maxSizeBytes / 122 + 1 ∧
      testConfig.minimumItems ≤ testConfig.maxSizeBytes / 122) ∧
    ((create testConfig).insertAll fiveInserts).getObjectCount = testConfig.maxSizeBytes / 122 ∧
    ((create testConfig).insertAll fiveInserts).items = fiveInserts.drop 1 :=
  ⟨⟨by decide, by decide, rfl, by decide⟩,
    (lru_eviction_order testConfig 122 fiveInserts (by decide) (by decide) rfl
      (by decide)).2.2.1,
    (lru_eviction_order testConfig 122 fiveInserts (by decide) (by decide) rfl
      (by decide)).2.2.2.1⟩

/-! ## Consistency of the reachable states -/

theorem nodup_keys_evict (cfg : Config) (items : List (ObjectId × SeqStatusPair))
    (h : (items.map Prod.fst).Nodup) : ((evict cfg items).map Prod.fst).Nodup := by
  obtain ⟨j, hj, -⟩ := evict_eq_drop cfg items
  rw [hj]
  exact List.Nodup.sublist ((List.drop_sublist j items).map Prod.fst) h

theorem nodup_keys_append_of_none (items : List (ObjectId × SeqStatusPair)) (key : ObjectId)
    (v : SeqStatusPair) (h : (items.map Prod.fst).Nodup) (hnone : items.lookup key = none) :
    ((items ++ [(key, v)]).map Prod.fst).Nodup := by
  simp only [List.map_append, List.map_cons, List.map_nil]
  refine List.Nodup.append h (List.nodup_singleton _) ?_
  intro k hk hk'
  rw [List.mem_singleton] at hk'
  subst hk'
  exact not_mem_of_lookup_eq_none _ _ hnone hk

theorem nodup_keys_filter_append (items : List (ObjectId × SeqStatusPair)) (key : ObjectId)
    (v : SeqStatusPair) (h : (items.map Prod.fst).Nodup) :
    ((items.filter (fun kv => kv.1 ≠ key) ++ [(key, v)]).map Prod.fst).Nodup :=
  nodup_keys_append_of_none _ key v
    (List.Nodup.sublist ((List.filter_sublist items).map Prod.fst) h) (lookup_filter_ne key items)

theorem perm_filter_append (key : ObjectId) (pair : SeqStatusPair)
    (items : List (ObjectId × SeqStatusPair)) (hnodup : (items.map Prod.fst).Nodup)
    (hl : items.lookup key = some pair) :
    (items.filter (fun kv => kv.1 ≠ key) ++ [(key, pair)]).Perm items := by
  induction items with
  | nil => simp at hl
  | cons a rest ih =>
    obtain ⟨ak, av⟩ := a
    simp only [List.map_cons, List.nodup_cons, List.mem_map, not_exists, not_and] at hnodup
    by_cases h : ak = key
    · subst h
      have hv : av = pair := by simpa [List.lookup_cons] using hl
      subst hv
      have hall : ∀ kv ∈ rest, decide (kv.1 ≠ ak) = true := by
        intro kv hkv
        simp only [ne_eq, decide_eq_true_eq]
        intro hk
        exact hnodup.1 kv hkv hk
      have hf := List.filter_eq_self.2 hall
      simp only [ne_eq] at hf
      simp only [List.filter, ne_eq, not_true_eq_false, decide_False]
      rw [hf]
      exact List.perm_append_singleton _ _
    · have hb : (key == ak) = false := by
        simp only [beq_eq_false_iff_ne, ne_eq]; exact fun hk => h hk.symm
      have hrest : rest.lookup key = some pair := by
        simpa [List.lookup_cons, hb] using hl
      simp only [List.filter, h, ne_eq, not_false_eq_true, decide_True, List.cons_append]
      exact List.Perm.cons _ (ih hnodup.2 hrest)

theorem lookup_eq_of_perm (xs ys : List (ObjectId × SeqStatusPair)) (h : xs.Perm ys)
    (hnodup : (ys.map Prod.fst).Nodup) (k : ObjectId) : xs.lookup k = ys.lookup k := by
  have hx : (xs.map Prod.fst).Nodup := ((h.map Prod.fst).nodup_iff).2 hnodup
  cases hy : ys.lookup k with
  | some v =>
    exact (lookup_eq_some_iff_mem k v xs hx).2
      (h.mem_iff.2 ((lookup_eq_some_iff_mem k v ys hnodup).1 hy))
  | none =>
    apply lookup_eq_none_of_not_mem
    intro hm
    exact not_mem_of_lookup_eq_none _ _ hy ((h.map Prod.fst).mem_iff.1 hm)

theorem Cache.inv_create (cfg : Config) : (create cfg).Inv := by
  simp [Cache.Inv, create]

theorem Cache.setValue_fields (c : Cache) (p : Nat) (status : ScmStatus) :
    (c.setValue p status).items = c.items ∧ (c.setValue p status).promises = c.promises ∧
      (c.setValue p status).nextPromise = c.nextPromise ∧
      (c.setValue p status).config = c.config := by
  unfold Cache.setValue
  split <;> exact ⟨rfl, rfl, rfl, rfl⟩

theorem Cache.inv_setValue (c : Cache) (p : Nat) (status : ScmStatus) (h : c.Inv)
    (hp : p < c.nextPromise) : (c.setValue p status).Inv := by
  unfold Cache.setValue
  split
  · exact h
  · obtain ⟨h1, h2, h3, h4⟩ := h
    refine ⟨h1, h2, h3, ?_⟩
    intro f hf
    rcases List.mem_append.1 hf with hf | hf
    · exact h4 f hf
    · rw [List.mem_singleton] at hf
      subst hf
      exact hp

theorem Cache.inv_fulfilRegistered (c : Cache) (key : ObjectId) (v : SeqStatusPair)
    (h : c.Inv) : (c.fulfilRegistered key v).Inv := by
  unfold Cache.fulfilRegistered
  split
  · exact h
  · rename_i r hr
    have hmem := List.mem_of_find?_eq_some hr
    obtain ⟨g1, g2, g3, g4⟩ := c.inv_setValue r.promise v.status h (h.2.2.1 r hmem)
    obtain ⟨f1, f2, f3, -⟩ := c.setValue_fields r.promise v.status
    refine ⟨g1, ?_, ?_, g4⟩
    · exact List.Nodup.sublist ((List.filter_sublist _).map _) h.2.1
    · intro r' hr'
      show r'.promise < (c.setValue r.promise v.status).nextPromise
      rw [f3]
      exact h.2.2.1 r' (List.mem_of_mem_filter hr')

theorem Cache.inv_insert (c : Cache) (key : ObjectId) (v : SeqStatusPair) (h : c.Inv) :
    (c.insert key v).Inv := by
  have h' := c.inv_fulfilRegistered key v h
  unfold Cache.insert
  simp only
  generalize c.fulfilRegistered key v = c' at h'
  obtain ⟨h1, h2, h3, h4⟩ := h'
  split
  · rename_i hnone
    exact ⟨nodup_keys_evict _ _ (nodup_keys_append_of_none _ _ _ h1 hnone), h2, h3, h4⟩
  · split
    · exact ⟨nodup_keys_evict _ _ (nodup_keys_filter_append _ _ _ h1), h2, h3, h4⟩
    · exact ⟨h1, h2, h3, h4⟩

theorem Cache.get_of_hit (c : Cache) (key : ObjectId) (seq : Nat) (pair : SeqStatusPair)
    (hl : c.items.lookup key = some pair) (hge : seq ≤ pair.seq) :
    c.get key seq = (.future (.ready pair.status),
      { c with items := c.items.filter (fun kv => kv.1 ≠ key) ++ [(key, pair)] }) := by
  unfold Cache.get
  simp only [hl, ge_iff_le, hge, ite_true]

theorem Cache.get_of_misses (c : Cache) (key : ObjectId) (seq : Nat) (hmiss : c.Misses key seq) :
    c.get key seq =
      match c.promises.find? (fun r => r.key = key ∧ r.seq = seq) with
      | some r => (.future (.chained r.promise), c)
      | none =>
        (.promise c.nextPromise,
          { c with
            promises := c.promises ++ [⟨key, seq, c.nextPromise⟩]
            nextPromise := c.nextPromise + 1 }) := by
  unfold Cache.get
  cases hl : c.items.lookup key with
  | none => rfl
  | some pair =>
    have hlt : ¬ pair.seq ≥ seq := Nat.not_le.2 (hmiss pair hl)
    simp only [hlt, ite_false]

theorem Cache.hit_of_not_misses (c : Cache) (key : ObjectId) (seq : Nat)
    (h : ¬ c.Misses key seq) : ∃ pair, c.items.lookup key = some pair ∧ seq ≤ pair.seq := by
  unfold Cache.Misses at h
  push_neg at h
  exact h

theorem Cache.get_of_registered (c : Cache) (key : ObjectId) (seq : Nat) (h : c.Inv)
    (hmiss : c.Misses key seq) (r : Registration) (hr : r ∈ c.promises) (hkey : r.key = key)
    (hseq : r.seq = seq) : c.get key seq = (.future (.chained r.promise), c) := by
  rw [c.get_of_misses key seq hmiss]
  cases hf : c.promises.find? (fun r => r.key = key ∧ r.seq = seq) with
  | none =>
    have := List.find?_eq_none.1 hf r hr
    simp only [decide_eq_true_eq, not_and] at this
    exact absurd hseq (this hkey)
  | some r' =>
    have hr' := List.mem_of_find?_eq_some hf
    have hp := List.find?_some hf
    simp only [decide_eq_true_eq] at hp
    have heq : r' = r := by
      apply List.inj_on_of_nodup_map h.2.1 hr' hr
      simp only [Prod.mk.injEq]
      exact ⟨hp.1.trans hkey.symm, hp.2.trans hseq.symm⟩
    rw [heq]

theorem Cache.get_of_unregistered (c : Cache) (key : ObjectId) (seq : Nat)
    (hmiss : c.Misses key seq) (hnone : ∀ r ∈ c.promises, ¬ (r.key = key ∧ r.seq = seq)) :
    c.get key seq = (.promise c.nextPromise,
      { c with
        promises := c.promises ++ [⟨key, seq, c.nextPromise⟩]
        nextPromise := c.nextPromise + 1 }) := by
  rw [c.get_of_misses key seq hmiss]
  have hf : c.promises.find? (fun r => r.key = key ∧ r.seq = seq) = none := by
    rw [List.find?_eq_none]
    intro r hr
    simp only [decide_eq_true_eq]
    exact hnone r hr
  rw [hf]

theorem Cache.inv_get (c : Cache) (key : ObjectId) (seq : Nat) (h : c.Inv) :
    (c.get key seq).2.Inv := by
  by_cases hmiss : c.Misses key seq
  · by_cases hreg : ∃ r ∈ c.promises, r.key = key ∧ r.seq = seq
    · obtain ⟨r, hr, hk, hs⟩ := hreg
      rw [c.get_of_registered key seq h hmiss r hr hk hs]
      exact h
    · push_neg at hreg
      rw [c.get_of_unregistered key seq hmiss (fun r hr hc => hreg r hr hc.1 hc.2)]
      obtain ⟨h1, h2, h3, h4⟩ := h
      refine ⟨h1, ?_, ?_, ?_⟩
      · simp only [List.map_append, List.map_cons, List.map_nil]
        refine List.Nodup.append h2 (List.nodup_singleton _) ?_
        intro x hx hx'
        rw [List.mem_singleton] at hx'
        subst hx'
        obtain ⟨r, hr, hrx⟩ := List.mem_map.1 hx
        simp only [Prod.mk.injEq] at hrx
        exact hreg r hr hrx.1 hrx.2
      · intro r hr
        rcases List.mem_append.1 hr with hr | hr
        · exact Nat.lt_succ_of_lt (h3 r hr)
        · rw [List.mem_singleton] at hr
          subst hr
          exact Nat.lt_succ_self _
      · intro f hf
        exact Nat.lt_succ_of_lt (h4 f hf)
  · obtain ⟨pair, hl, hge⟩ := c.hit_of_not_misses key seq hmiss
    rw [c.get_of_hit key seq pair hl hge]
    exact ⟨nodup_keys_filter_append _ _ _ h.1, h.2.1, h.2.2.1, h.2.2.2⟩

theorem Cache.inv_dropPromise (c : Cache) (key : ObjectId) (seq : Nat) (h : c.Inv) :
    (c.dropPromise key seq).Inv := by
  obtain ⟨h1, h2, h3, h4⟩ := h
  refine ⟨h1, ?_, ?_, h4⟩
  · exact List.Nodup.sublist ((List.filter_sublist _).map _) h2
  · intro r hr
    exact h3 r (List.mem_of_mem_filter hr)

theorem Cache.inv_step (c : Cache) (op : Op) (h : c.Inv) : (c.step op).Inv := by
  cases op with
  | insert key v => exact c.inv_insert key v h
  | get key seq => exact c.inv_get key seq h
  | dropPromise key seq => exact c.inv_dropPromise key seq h
  | setValue p status =>
    simp only [Cache.step]
    split
    · rename_i hp; exact c.inv_setValue p status h hp
    · exact h

theorem Cache.inv_run (ops : List Op) : ∀ c : Cache, c.Inv → (c.run ops).Inv := by
  induction ops with
  | nil => intro c h; exact h
  | cons op ops ih => intro c h; exact ih (c.step op) (c.inv_step op h)

theorem Cache.Reachable.inv {c : Cache} (h : c.Reachable) : c.Inv := by
  obtain ⟨cfg, ops, rfl⟩ := h
  exact Cache.inv_run ops _ (Cache.inv_create cfg)

theorem Cache.Reachable.step {c : Cache} (h : c.Reachable) (op : Op) :
    (c.step op).Reachable := by
  obtain ⟨cfg, ops, rfl⟩ := h
  exact ⟨cfg, ops ++ [op], by simp [Cache.run, List.foldl_append]⟩

/-! ## Hits -/

/-- C22 (cache hit). In a state that the cache can reach, get(k, s) returns a ready Future
exactly when a completed entry for k is stored whose sequence is at least s; the Future
then carries the status of that entry (also when its sequence is strictly greater than
s). Such a get leaves the set of completed entries as it was (the entries are permuted:
the entry read becomes the most recently used one), and with it the object count, what
contains answers and what is stored under every key; the registrations of promises are
untouched too. -/
theorem get_hit (c : Cache) (key : ObjectId) (seq : Nat) (hc : c.Reachable) :
    ((∃ status, (c.get key seq).1 = .future (.ready status)) ↔
      ∃ pair, (key, pair) ∈ c.items ∧ seq ≤ pair.seq) ∧
    (∀ pair, (key, pair) ∈ c.items → seq ≤ pair.seq →
      (c.get key seq).1 = .future (.ready pair.status) ∧
      (c.get key seq).2.items.Perm c.items ∧
      (c.get key seq).2.getObjectCount = c.getObjectCount ∧
      (∀ k, (c.get key seq).2.contains k = c.contains k) ∧
      (∀ k, (c.get key seq).2.items.lookup k = c.items.lookup k) ∧
      (c.get key seq).2.promises = c.promises ∧
      (c.get key seq).2.fulfilled = c.fulfilled) := by
  have hnodup := hc.inv.1
  have hhit : ∀ pair, (key, pair) ∈ c.items → seq ≤ pair.seq →
      c.get key seq = (.future (.ready pair.status),
        { c with items := c.items.filter (fun kv => kv.1 ≠ key) ++ [(key, pair)] }) := by
    intro pair hmem hge
    exact c.get_of_hit key seq pair ((lookup_eq_some_iff_mem key pair c.items hnodup).2 hmem) hge
  constructor
  · constructor
    · rintro ⟨status, hres⟩
      by_cases hmiss : c.Misses key seq
      · rw [c.get_of_misses key seq hmiss] at hres
        split at hres
        · simp at hres
        · simp at hres
      · obtain ⟨pair, hl, hge⟩ := c.hit_of_not_misses key seq hmiss
        exact ⟨pair, (lookup_eq_some_iff_mem key pair c.items hnodup).1 hl, hge⟩
    · rintro ⟨pair, hmem, hge⟩
      exact ⟨pair.status, by rw [hhit pair hmem hge]⟩
  · intro pair hmem hge
    have hl := (lookup_eq_some_iff_mem key pair c.items hnodup).2 hmem
    have hperm := perm_filter_append key pair c.items hnodup hl
    rw [hhit pair hmem hge]
    refine ⟨rfl, hperm, hperm.length_eq, fun k => ?_, fun k => ?_, rfl, rfl⟩
    · simp only [Cache.contains]
      rw [lookup_eq_of_perm _ _ hperm hnodup k]
    · exact lookup_eq_of_perm _ _ hperm hnodup k

/-- Witness of C22: sequence 6 is stored and sequence 5 is requested, as at the end of the
test insert_sequence_status_pair. -/
theorem get_hit_witness :
    ((create testConfig).run [.insert [1, 35, 69] ⟨6, ⟨[]⟩⟩]).Reachable ∧
    (((create testConfig).run [.insert [1, 35, 69] ⟨6, ⟨[]⟩⟩]).get [1, 35, 69] 5).1 =
      .future (.ready ⟨[]⟩) :=
  ⟨⟨testConfig, [.insert [1, 35, 69] ⟨6, ⟨[]⟩⟩], rfl⟩,
    ((get_hit ((create testConfig).run [.insert [1, 35, 69] ⟨6, ⟨[]⟩⟩]) [1, 35, 69] 5
      ⟨testConfig, [.insert [1, 35, 69] ⟨6, ⟨[]⟩⟩], rfl⟩).2 ⟨6, ⟨[]⟩⟩
        (by decide) (by decide)).1⟩

/-! ## Promises -/

theorem Cache.gets_of_fixed (c : Cache) (key : ObjectId) (seq : Nat) (result : GetResult)
    (h : c.get key seq = (result, c)) :
    ∀ n, c.gets key seq n = (List.replicate n result, c) := by
  intro n
  induction n with
  | zero => rfl
  | succ n ih =>
    simp only [Cache.gets, h, ih, List.replicate_succ]

theorem Cache.fulfilled_step (c : Cache) (op : Op) :
    ∃ extra, (c.step op).fulfilled = c.fulfilled ++ extra := by
  have hset : ∀ (c : Cache) (p : Nat) (status : ScmStatus),
      ∃ extra, (c.setValue p status).fulfilled = c.fulfilled ++ extra := by
    intro c p status
    unfold Cache.setValue
    split
    · exact ⟨[], by simp⟩
    · exact ⟨[(p, status)], rfl⟩
  cases op with
  | insert key v =>
    have hful : ∃ extra, (c.fulfilRegistered key v).fulfilled = c.fulfilled ++ extra := by
      unfold Cache.fulfilRegistered
      split
      · exact ⟨[], by simp⟩
      · rename_i r hr
        exact hset c r.promise v.status
    obtain ⟨extra, hextra⟩ := hful
    refine ⟨extra, ?_⟩
    rw [← hextra]
    simp only [Cache.step]
    unfold Cache.insert
    simp only
    split
    · rfl
    · split <;> rfl
  | get key seq =>
    refine ⟨[], ?_⟩
    simp only [Cache.step, Cache.get, List.append_nil]
    split
    · split <;> rfl
    · split
      · rfl
      · split <;> rfl
  | dropPromise key seq => exact ⟨[], by simp [Cache.step, Cache.dropPromise]⟩
  | setValue p status =>
    simp only [Cache.step]
    split
    · exact hset c p status
    · exact ⟨[], by simp⟩

theorem Cache.fulfilled_run (ops : List Op) :
    ∀ (c : Cache) (p : Nat) (status : ScmStatus), c.fulfilled.lookup p = some status →
      (c.run ops).fulfilled.lookup p = some status := by
  induction ops with
  | nil => intro c p status h; exact h
  | cons op ops ih =>
    intro c p status h
    obtain ⟨extra, hextra⟩ := c.fulfilled_step op
    apply ih (c.step op) p status
    rw [hextra, List.lookup_append, h]
    rfl

theorem Cache.fresh_promise (c : Cache) (h : c.Inv) :
    c.fulfilled.lookup c.nextPromise = none ∧ ∀ r ∈ c.promises, r.promise ≠ c.nextPromise := by
  constructor
  · rw [List.lookup_eq_none_iff]
    intro f hf
    simp only [bne_iff_ne, ne_eq]
    exact fun heq => absurd (h.2.2.2 f hf) (by rw [← heq]; exact Nat.lt_irrefl _)
  · intro r hr heq
    exact absurd (h.2.2.1 r hr) (by rw [heq]; exact Nat.lt_irrefl _)

/-- C23 (promise coalescing). In a state that the cache can reach and in which no
completed entry answers a request for k at sequence s: if no promise is registered for
(k, s), get(k, s) returns a Promise, registers it and leaves the completed entries alone;
the Promise is fresh (not fulfilled, not registered for anything else), and however many
gets of (k, s) follow, each of them returns a Future chained to that Promise and changes
nothing. In general a get of (k, s) while a registration for (k, s) exists returns the
Future chained to the registered promise and leaves the state as it is, and no two
registrations have the same key and sequence. When a Promise that was handed out and is
not fulfilled is fulfilled with a status, every Future chained to it holds that status,
and keeps it whatever is done later. -/
theorem promise_coalescing (c : Cache) (key : ObjectId) (seq : Nat) (hc : c.Reachable)
    (hmiss : c.Misses key seq) :
    ((∀ r ∈ c.promises, ¬ (r.key = key ∧ r.seq = seq)) →
      (c.get key seq).1 = .promise c.nextPromise ∧
      (c.get key seq).2.promises = c.promises ++ [⟨key, seq, c.nextPromise⟩] ∧
      (c.get key seq).2.items = c.items ∧
      c.fulfilled.lookup c.nextPromise = none ∧
      (∀ r ∈ c.promises, r.promise ≠ c.nextPromise) ∧
      ∀ n, c.gets key seq (n + 1) =
        (.promise c.nextPromise :: List.replicate n (.future (.chained c.nextPromise)),
          (c.get key seq).2)) ∧
    (∀ r ∈ c.promises, r.key = key → r.seq = seq →
      c.get key seq = (.future (.chained r.promise), c)) ∧
    (∀ r₁ ∈ c.promises, ∀ r₂ ∈ c.promises, r₁.key = r₂.key → r₁.seq = r₂.seq → r₁ = r₂) ∧
    (∀ p status, p < c.nextPromise → c.fulfilled.lookup p = none →
      ∀ later : List Op,
        ((c.setValue p status).run later).futureValue (.chained p) = some status) := by
  have hinv := hc.inv
  refine ⟨fun hnone => ?_, fun r hr hk hs => c.get_of_registered key seq hinv hmiss r hr hk hs,
    fun r₁ h₁ r₂ h₂ hk hs => ?_, fun p status _ hp later => ?_⟩
  · have hget := c.get_of_unregistered key seq hmiss hnone
    obtain ⟨hfresh₁, hfresh₂⟩ := c.fresh_promise hinv
    refine ⟨by rw [hget], by rw [hget], by rw [hget], hfresh₁, hfresh₂, fun n => ?_⟩
    have hinv' : (c.get key seq).2.Inv := c.inv_get key seq hinv
    have hmiss' : (c.get key seq).2.Misses key seq := by rw [hget]; exact hmiss
    have hfixed := (c.get key seq).2.get_of_registered key seq hinv' hmiss'
      ⟨key, seq, c.nextPromise⟩ (by rw [hget]; simp) rfl rfl
    have hrest := (c.get key seq).2.gets_of_fixed key seq _ hfixed n
    simp only [Cache.gets, hrest]
    rw [hget]
  · apply List.inj_on_of_nodup_map hinv.2.1 h₁ h₂
    simp only [Prod.mk.injEq]
    exact ⟨hk, hs⟩
  · have hnow : (c.setValue p status).fulfilled.lookup p = some status := by
      unfold Cache.setValue
      simp only [hp, List.lookup_append, List.lookup_cons, beq_self_eq_true, Option.or]
    exact Cache.fulfilled_run later _ p status hnow

/-- Witness of C23: the test get_results_as_promise_or_future, a get of sequence 1 on an
empty cache followed by ten more. -/
theorem promise_coalescing_witness :
    ((create testConfig).Reachable ∧ (create testConfig).Misses [102] 1) ∧
    (create testConfig).gets [102] 1 11 =
      (.promise 0 :: List.replicate 10 (.future (.chained 0)),
        ((create testConfig).get [102] 1).2) :=
  ⟨⟨⟨testConfig, [], rfl⟩, by decide⟩,
    ((promise_coalescing (create testConfig) [102] 1 ⟨testConfig, [], rfl⟩ (by decide)).1
      (by decide)).2.2.2.2.2 10⟩

/-! ## Promises are not objects -/

theorem contains_iff_mem_keys (items : List (ObjectId × SeqStatusPair)) (key : ObjectId) :
    (items.lookup key).isSome = true ↔ key ∈ items.map Prod.fst := by
  constructor
  · intro h
    by_contra hn
    rw [lookup_eq_none_of_not_mem key items hn] at h
    exact absurd h (by decide)
  · intro h
    cases hl : items.lookup key with
    | some v => rfl
    | none => exact absurd h (not_mem_of_lookup_eq_none key items hl)

theorem mem_keys_of_evict (cfg : Config) (items : List (ObjectId × SeqStatusPair))
    (key : ObjectId) (h : key ∈ (evict cfg items).map Prod.fst) : key ∈ items.map Prod.fst := by
  obtain ⟨j, hj, -⟩ := evict_eq_drop cfg items
  rw [hj] at h
  exact ((List.drop_sublist j items).map Prod.fst).subset h

theorem mem_keys_of_filter_append (items : List (ObjectId × SeqStatusPair)) (k key : ObjectId)
    (v : SeqStatusPair)
    (h : key ∈ (items.filter (fun kv => kv.1 ≠ k) ++ [(k, v)]).map Prod.fst) :
    key ∈ items.map Prod.fst ∨ key = k := by
  simp only [List.map_append, List.map_cons, List.map_nil, List.mem_append,
    List.mem_singleton] at h
  rcases h with h | h
  · exact Or.inl (((List.filter_sublist items).map Prod.fst).subset h)
  · exact Or.inr h

theorem Cache.mem_keys_of_insert (c : Cache) (k key : ObjectId) (v : SeqStatusPair)
    (h : key ∈ (c.insert k v).items.map Prod.fst) : key ∈ c.items.map Prod.fst ∨ key = k := by
  cases hl : c.items.lookup k with
  | none =>
    rw [c.insert_items_of_none k v hl] at h
    have h' := mem_keys_of_evict _ _ _ h
    simp only [List.map_append, List.map_cons, List.map_nil, List.mem_append,
      List.mem_singleton] at h'
    exact h'
  | some old =>
    by_cases hgt : v.seq > old.seq
    · rw [c.insert_items_of_gt k v old hl hgt] at h
      exact mem_keys_of_filter_append _ _ _ _ (mem_keys_of_evict _ _ _ h)
    · rw [c.insert_items_of_le k v old hl (Nat.le_of_not_lt hgt)] at h
      exact Or.inl h

theorem Cache.mem_keys_of_get (c : Cache) (k key : ObjectId) (seq : Nat)
    (h : key ∈ (c.get k seq).2.items.map Prod.fst) : key ∈ c.items.map Prod.fst := by
  by_cases hmiss : c.Misses k seq
  · rw [c.get_of_misses k seq hmiss] at h
    split at h
    · exact h
    · exact h
  · obtain ⟨pair, hl, hge⟩ := c.hit_of_not_misses k seq hmiss
    rw [c.get_of_hit k seq pair hl hge] at h
    rcases mem_keys_of_filter_append _ _ _ _ h with h' | h'
    · exact h'
    · rw [h']
      exact (contains_iff_mem_keys c.items k).1 (by rw [hl]; rfl)

theorem Cache.lookup_insert_of_room (c : Cache) (key : ObjectId) (v : SeqStatusPair)
    (hnone : c.items.lookup key = none)
    (hroom : cost c.config v ≤ c.config.maxSizeBytes ∨ 1 ≤ c.config.minimumItems) :
    (c.insert key v).items.lookup key = some v := by
  rw [c.insert_items_of_none key v hnone]
  obtain ⟨j, hj, -, hmin⟩ := evict_eq_drop c.config (c.items ++ [(key, v)])
  have hlast : Settled c.config ((c.items ++ [(key, v)]).drop c.items.length) := by
    rw [List.drop_left]
    rcases hroom with h | h
    · left; simpa [totalCost] using h
    · right; simpa using h
  have hle : j ≤ c.items.length := by
    by_contra hlt
    exact hmin _ (Nat.lt_of_not_le hlt) hlast
  rw [hj, List.drop_append_of_le_length hle, List.lookup_append]
  have hdrop : (c.items.drop j).lookup key = none := by
    apply lookup_eq_none_of_not_mem
    intro hm
    exact not_mem_of_lookup_eq_none key c.items hnone
      (((List.drop_sublist j c.items).map Prod.fst).subset hm)
  rw [hdrop]
  simp [List.lookup_cons]

/-- C24 (promises are not objects). contains(k) is true exactly when a completed entry
for k is stored; the registrations of promises, the fulfilled promises and the counter of
promises have no part in what contains answers nor in the object count. A get that no
completed entry answers (it registers a Promise or chains a Future to a registered one),
the fulfilment of a Promise by its owner and drop_promise leave the completed entries as
they are. The only operation after which contains(k) is true when it was false before is
an insert(k, pair); and insert(k, pair) into a cache without an entry for k does make
contains(k) true, with pair stored, when the entry is not evicted at once (its cost fits
max_size_bytes or minimum_items is at least one). -/
theorem contains_iff_completed (c : Cache) (key : ObjectId) :
    (c.contains key = true ↔ ∃ pair, (key, pair) ∈ c.items) ∧
    (∀ promises fulfilled nextPromise,
      (⟨c.config, c.items, promises, fulfilled, nextPromise⟩ : Cache).contains key =
        c.contains key ∧
      (⟨c.config, c.items, promises, fulfilled, nextPromise⟩ : Cache).getObjectCount =
        c.getObjectCount) ∧
    (∀ k seq, c.Misses k seq → (c.get k seq).2.items = c.items) ∧
    (∀ p status, (c.setValue p status).items = c.items) ∧
    (∀ k seq, (c.dropPromise k seq).items = c.items) ∧
    (∀ op, c.contains key = false → (c.step op).contains key = true →
      ∃ v, op = .insert key v) ∧
    (∀ v, c.contains key = false →
      (cost c.config v ≤ c.config.maxSizeBytes ∨ 1 ≤ c.config.minimumItems) →
      (c.insert key v).contains key = true ∧ (c.insert key v).items.lookup key = some v) := by
  refine ⟨?_, fun _ _ _ => ⟨rfl, rfl⟩, fun k seq hmiss => ?_,
    fun p status => (c.setValue_fields p status).1, fun _ _ => rfl, fun op hbefore hafter => ?_,
    fun v hbefore hroom => ?_⟩
  · rw [Cache.contains, contains_iff_mem_keys]
    constructor
    · intro h
      obtain ⟨kv, hkv, hk⟩ := List.mem_map.1 h
      exact ⟨kv.2, by rw [← hk]; exact hkv⟩
    · rintro ⟨pair, hmem⟩
      exact List.mem_map.2 ⟨(key, pair), hmem, rfl⟩
  · rw [c.get_of_misses k seq hmiss]
    split <;> rfl
  · have hnot : key ∉ c.items.map Prod.fst := by
      intro hm
      rw [Cache.contains, (contains_iff_mem_keys c.items key).2 hm] at hbefore
      exact absurd hbefore (by decide)
    have hin : key ∈ (c.step op).items.map Prod.fst :=
      (contains_iff_mem_keys _ key).1 hafter
    cases op with
    | insert k v =>
      rcases c.mem_keys_of_insert k key v hin with h | h
      · exact absurd h hnot
      · exact ⟨v, by rw [h]⟩
    | get k seq => exact absurd (c.mem_keys_of_get k key seq hin) hnot
    | dropPromise k seq => exact absurd hin hnot
    | setValue p status =>
      simp only [Cache.step] at hin
      split at hin
      · rw [(c.setValue_fields p status).1] at hin
        exact absurd hin hnot
      · exact absurd hin hnot
  · have hnone : c.items.lookup key = none := by
      simpa [Cache.contains] using hbefore
    have hl := c.lookup_insert_of_room key v hnone hroom
    exact ⟨by rw [Cache.contains, hl]; rfl, hl⟩

/-! ## Dropping a promise -/

/-- C25 (drop_promise). In a state that the cache can reach and in which no completed
entry answers a request for k at sequence s: drop_promise(k, s) removes exactly the
registration of k at sequence s (every other registration stays, and so do the completed
entries and the fulfilled promises), and the next get(k, s) returns a fresh Promise, not
a Future. Called with a sequence at which no promise is registered for k, drop_promise
leaves the state of the cache unchanged; so with a promise registered for k at s and any
other sequence dropped, the next get(k, s) returns the Future chained to the promise
registered at s. -/
theorem drop_promise_exact (c : Cache) (key : ObjectId) (seq : Nat) (hc : c.Reachable)
    (hmiss : c.Misses key seq) :
    (∀ r, r ∈ (c.dropPromise key seq).promises ↔
      r ∈ c.promises ∧ ¬ (r.key = key ∧ r.seq = seq)) ∧
    ((c.dropPromise key seq).items = c.items ∧
      (c.dropPromise key seq).fulfilled = c.fulfilled ∧
      (c.dropPromise key seq).nextPromise = c.nextPromise) ∧
    (((c.dropPromise key seq).get key seq).1 = .promise c.nextPromise ∧
      c.fulfilled.lookup c.nextPromise = none ∧
      ∀ r ∈ c.promises, r.promise ≠ c.nextPromise) ∧
    (∀ other, (∀ r ∈ c.promises, r.key = key → r.seq ≠ other) →
      c.dropPromise key other = c) ∧
    (∀ r ∈ c.promises, r.key = key → r.seq = seq → ∀ other, other ≠ seq →
      (r ∈ (c.dropPromise key other).promises) ∧
      (c.dropPromise key other).get key seq =
        (.future (.chained r.promise), c.dropPromise key other)) := by
  have hinv := hc.inv
  have hmem : ∀ other r, r ∈ (c.dropPromise key other).promises ↔
      r ∈ c.promises ∧ ¬ (r.key = key ∧ r.seq = other) := by
    intro other r
    simp only [Cache.dropPromise, List.mem_filter, decide_eq_true_eq]
  refine ⟨hmem seq, ⟨rfl, rfl, rfl⟩, ⟨?_, (c.fresh_promise hinv).1, (c.fresh_promise hinv).2⟩,
    fun other hother => ?_, fun r hr hk hs other hne => ?_⟩
  · have hget := (c.dropPromise key seq).get_of_unregistered key seq hmiss
      (fun r hr => ((hmem seq r).1 hr).2)
    rw [hget]
    rfl
  · have hall : ∀ r ∈ c.promises, decide (¬ (r.key = key ∧ r.seq = other)) = true := by
      intro r hr
      simp only [decide_eq_true_eq, not_and]
      exact fun hk => hother r hr hk
    have hf := List.filter_eq_self.2 hall
    simp only [Cache.dropPromise]
    rw [hf]
  · have hr' : r ∈ (c.dropPromise key other).promises :=
      (hmem other r).2 ⟨hr, fun h => hne (h.2.symm.trans hs)⟩
    exact ⟨hr', (c.dropPromise key other).get_of_registered key seq
      (c.inv_dropPromise key other hinv) hmiss r hr' hk hs⟩

/-- Witness of C25: the end of the test drop_cached_promise, a promise registered at
sequence 1, drop_promise at sequence 0, then a get at sequence 1. -/
theorem drop_promise_exact_witness :
    (((create testConfig).run [.get [102] 1]).Reachable ∧
      ((create testConfig).run [.get [102] 1]).Misses [102] 1) ∧
    ((((create testConfig).run [.get [102] 1]).dropPromise [102] 0).get [102] 1).1 =
      .future (.chained 0) ∧
    ((((create testConfig).run [.get [102] 1]).dropPromise [102] 1).get [102] 1).1 =
      .promise 1 :=
  ⟨⟨⟨testConfig, [.get [102] 1], rfl⟩, by decide⟩,
    by
      rw [((drop_promise_exact ((create testConfig).run [.get [102] 1]) [102] 1
        ⟨testConfig, [.get [102] 1], rfl⟩ (by decide)).2.2.2.2 ⟨[102], 1, 0⟩
          (by decide) rfl rfl 0 (by decide)).2],
    (drop_promise_exact ((create testConfig).run [.get [102] 1]) [102] 1
      ⟨testConfig, [.get [102] 1], rfl⟩ (by decide)).2.2.1.1⟩

end ScmStatusCache

namespace HgImporter

/-! ## The manifest assembler does not depend on the order of the registrations -/

theorem insertionSort_eq_of_perm {α β : Type} [LinearOrder β] (key : α → β)
    (hinj : Function.Injective key) (r : α → α → Prop) [DecidableRel r]
    (hr : ∀ a b, r a b ↔ key a ≤ key b) {l₁ l₂ : List α} (h : l₁.Perm l₂) :
    l₁.insertionSort r = l₂.insertionSort r := by
  haveI : IsAntisymm α r :=
    ⟨fun a b hab hba => hinj (le_antisymm ((hr a b).1 hab) ((hr b a).1 hba))⟩
  haveI : IsTotal α r := ⟨fun a b => by rw [hr, hr]; exact le_total _ _⟩
  haveI : IsTrans α r :=
    ⟨fun a b c hab hbc => (hr a c).2 (le_trans ((hr a b).1 hab) ((hr b c).1 hbc))⟩
  exact List.eq_of_perm_of_sorted
    ((List.perm_insertionSort r l₁).trans (h.trans (List.perm_insertionSort r l₂).symm))
    (List.sorted_insertionSort r l₁) (List.sorted_insertionSort r l₂)

theorem toNat_injective : Function.Injective UInt8.toNat := by
  intro a b h
  exact UInt8.ext h

theorem map_toNat_injective : Function.Injective (List.map UInt8.toNat) :=
  List.map_injective_iff.2 toNat_injective

theorem directoryKey_injective (env : Externals) : Function.Injective (directoryKey env) := by
  intro a b h
  have h' := congrArg (fun k => (ofLex k).2) h
  exact map_toNat_injective h'

theorem FileType.code_injective : Function.Injective FileType.code := by
  intro a b h
  cases a <;> cases b <;> first | rfl | exact absurd h (by decide)

theorem TreeEntry.key_injective : Function.Injective TreeEntry.key := by
  intro a b h
  have h₁ : a.name.map UInt8.toNat = b.name.map UInt8.toNat :=
    congrArg (fun k => (ofLex k).1) h
  have h₂ : a.hash.getBytes.map UInt8.toNat = b.hash.getBytes.map UInt8.toNat :=
    congrArg (fun k => (ofLex (ofLex k).2).1) h
  have h₃ : a.fileType.code = b.fileType.code :=
    congrArg (fun k => (ofLex (ofLex (ofLex k).2).2).1) h
  have h₄ : a.ownerPermissions.toNat = b.ownerPermissions.toNat :=
    congrArg (fun k => (ofLex (ofLex (ofLex k).2).2).2) h
  cases a with
  | mk ah an at_ ap =>
    cases b with
    | mk bh bn bt bp =>
      simp only at h₁ h₂ h₃ h₄
      rw [Hash.eq_of_getBytes_eq (map_toNat_injective h₂), map_toNat_injective h₁,
        FileType.code_injective h₃, toNat_injective h₄]

theorem canonicalEntries_eq_of_perm {l₁ l₂ : List TreeEntry} (h : l₁.Perm l₂) :
    canonicalEntries l₁ = canonicalEntries l₂ :=
  insertionSort_eq_of_perm TreeEntry.key TreeEntry.key_injective TreeEntry.le
    (fun _ _ => Iff.rfl) h

theorem hashDirectory_eq_of_perm (env : Externals) (serializeTree : List TreeEntry → ByteString)
    {l₁ l₂ : List TreeEntry} (h : l₁.Perm l₂) :
    hashDirectory env serializeTree l₁ = hashDirectory env serializeTree l₂ := by
  unfold hashDirectory
  rw [canonicalEntries_eq_of_perm h]

theorem HgManifestImporter.children_perm (a b : HgManifestImporter)
    (h : a.entries.Perm b.entries) (dir : RelativePathPiece) :
    (a.children dir).Perm (b.children dir) :=
  (h.filter _).map _

theorem HgManifestImporter.directories_eq_of_perm (env : Externals) (a b : HgManifestImporter)
    (h : a.entries.Perm b.entries) : a.directories env = b.directories env :=
  insertionSort_eq_of_perm (directoryKey env) (directoryKey_injective env) (directoryLE env)
    (fun _ _ => Iff.rfl) ((h.flatMap_right _).dedup)

theorem finishDirectory_perm (env : Externals) (serializeTree : List TreeEntry → ByteString)
    (c₁ c₂ : RelativePathPiece → List TreeEntry) (h : ∀ d, (c₁ d).Perm (c₂ d))
    (dir : RelativePathPiece) :
    ∀ d, (finishDirectory env serializeTree c₁ dir d).Perm
      (finishDirectory env serializeTree c₂ dir d) := by
  intro d
  unfold finishDirectory
  rw [hashDirectory_eq_of_perm env serializeTree (h dir)]
  split
  · exact (h d).append_right _
  · exact h d

theorem foldl_finishDirectory_perm (env : Externals)
    (serializeTree : List TreeEntry → ByteString) (dirs : List RelativePathPiece) :
    ∀ c₁ c₂ : RelativePathPiece → List TreeEntry, (∀ d, (c₁ d).Perm (c₂ d)) →
      ∀ d, ((dirs.foldl (finishDirectory env serializeTree) c₁) d).Perm
        ((dirs.foldl (finishDirectory env serializeTree) c₂) d) := by
  induction dirs with
  | nil => intro c₁ c₂ h; exact h
  | cons dir dirs ih =>
    intro c₁ c₂ h
    exact ih _ _ (finishDirectory_perm env serializeTree c₁ c₂ h dir)

theorem HgManifestImporter.finish_eq_of_perm (env : Externals)
    (serializeTree : List TreeEntry → ByteString) (a b : HgManifestImporter)
    (h : a.entries.Perm b.entries) : a.finish env serializeTree = b.finish env serializeTree := by
  unfold HgManifestImporter.finish
  rw [HgManifestImporter.directories_eq_of_perm env a b h]
  exact hashDirectory_eq_of_perm env serializeTree
    (foldl_finishDirectory_perm env serializeTree _ _ _ (a.children_perm b h) [])

theorem HgManifestImporter.entries_processEntries
    (registrations : List (RelativePathPiece × TreeEntry)) :
    ∀ importer : HgManifestImporter,
      (importer.processEntries registrations).entries = importer.entries ++ registrations := by
  induction registrations with
  | nil => intro importer; simp [HgManifestImporter.processEntries]
  | cons r rs ih =>
    intro importer
    have := ih (importer.processEntry r.1 r.2)
    simp only [HgManifestImporter.processEntries, List.foldl_cons] at this ⊢
    rw [this]
    simp [HgManifestImporter.processEntry]

/-- C26 (manifest assembler order-independence). For every two orderings of the same
registrations (lists that are permutations of each other), the calls of processEntry in
the one order followed by finish() and the calls in the other order followed by finish()
return the same root hash, whatever the hash function and the tree format are. So the
root hash that importManifest returns for the entries of a manifest does not depend on
the order in which the entries arrive. -/
theorem finish_order_independent (env : Externals)
    (serializeTree : List TreeEntry → ByteString)
    (registrations₁ registrations₂ : List (RelativePathPiece × TreeEntry))
    (hperm : registrations₁.Perm registrations₂) :
    ((⟨[]⟩ : HgManifestImporter).processEntries registrations₁).finish env serializeTree =
      ((⟨[]⟩ : HgManifestImporter).processEntries registrations₂).finish env serializeTree ∧
    (∀ entries₁ entries₂ : List ManifestEntry, entries₁.Perm entries₂ →
      HgManifestImporter.finish env serializeTree
          ⟨entries₁.map (ManifestEntry.registration env)⟩ =
        HgManifestImporter.finish env serializeTree
          ⟨entries₂.map (ManifestEntry.registration env)⟩) := by
  constructor
  · apply HgManifestImporter.finish_eq_of_perm
    rw [HgManifestImporter.entries_processEntries, HgManifestImporter.entries_processEntries]
    exact hperm.append_left _
  · intro entries₁ entries₂ h
    exact HgManifestImporter.finish_eq_of_perm env serializeTree _ _ (h.map _)

/-- Witness of C26: the registrations of the manifest parsing scenario, in the order of
the manifest and in the reverse order. -/
theorem finish_order_independent_witness :
    scenarioRegistrations.Perm scenarioRegistrations.reverse ∧
    ((⟨[]⟩ : HgManifestImporter).processEntries scenarioRegistrations).finish
        exampleExternals exampleSerializeTree =
      ((⟨[]⟩ : HgManifestImporter).processEntries scenarioRegistrations.reverse).finish
        exampleExternals exampleSerializeTree :=
  ⟨(List.reverse_perm scenarioRegistrations).symm,
    (finish_order_independent exampleExternals exampleSerializeTree scenarioRegistrations
      scenarioRegistrations.reverse (List.reverse_perm scenarioRegistrations).symm).1⟩

end HgImporter
